import Mathlib

/-!
# Canonical-Huffman file compressor: embedding and verification

A shallow embedding of the compressor (`crc32.cpp`, `bitio.cpp`, `threads.hpp`,
`threads.cpp`, `compress.cpp`, `decompress.cpp`) followed by theorems about it.

Conventions of the embedding.

* A byte, a bit, a `uint32_t` or a `uint64_t` is a `Nat`; every assignment to a
  fixed-width variable reduces modulo `2 ^ w`.
* A `FILE*` opened for writing is the list of bytes written so far; a `FILE*` opened
  for reading is the list of bytes not yet read.  Opening and writing files always
  succeeds, so the I/O statuses (1 and 2 of `compress_file`, 1, 4 and 8 of
  `decompress_file`) do not occur.
* A C++ array indexed by a symbol is a function `Nat → _`; only the indices
  `0 .. 255` are ever read back.
* A pointer to a tree node is a value of an inductive type whose constructor `null`
  is the null pointer.
* `std::priority_queue<Node*, std::vector<Node*>, Cmp>` is a list of nodes in insertion
  order.  `top()` is an element that `Cmp` puts before no other element; the standard
  leaves open which one is returned when several qualify, so the choice is a parameter
  `tie` of the embedding, and the general theorems hold for every `tie`.
* A shift of a 32-bit value by 32 or more, which C++ leaves undefined, is the mathematical
  shift: `v >> i` is `0`, and `code <<= d` leaves `0` in the 32 bits.  Compiled code may do
  otherwise (x86 takes the count modulo 32).  Such a shift is reached only when a code length
  exceeds 32; the theorems that evaluate the code at such an input (`deep_input`,
  `deep_freq`) use only codes and bits that do not depend on it.
* `encode_chunks_parallel` is embedded twice.  The function `encode_chunks_parallel` is the
  vector `out` in which every slot holds the encoding of its own chunk; `compress_file` uses
  it.  The threads are embedded as the step function `pool_step`: a step is a critical section
  under the mutex, or a job body with its store to `out[job.idx]`, and a run interleaves
  the steps of the workers and of the calling thread in any order.  Every run that returns
  leaves the vector of the function in `out` (`pool_schedule_independent`).
-/

namespace Huff

/-! ## crc32.cpp / crc32.hpp -/

/-- One pass of the inner loop of `crc32_update`:
`mask = -(crc & 1u); crc = (crc >> 1) ^ (0xEDB88320u & mask);`. -/
def crc_step (crc : Nat) : Nat :=
  let mask := (2 ^ 32 - (crc &&& 1)) % 2 ^ 32
  (crc >>> 1) ^^^ (0xEDB88320 &&& mask)

/-- The body of the outer loop of `crc32_update` for one byte. -/
def crc_byte (crc : Nat) (b : Nat) : Nat :=
  (List.range 8).foldl (fun c _ => crc_step c) (crc ^^^ b)

/-- `crc32_update(crc, data, len)`. -/
def crc32_update (crc : Nat) (data : List Nat) : Nat :=
  data.foldl crc_byte crc

/-- `crc32(data, len)`. -/
def crc32 (data : List Nat) : Nat :=
  crc32_update 0xFFFFFFFF data ^^^ 0xFFFFFFFF

/-! ## bitio.hpp / bitio.cpp -/

/-- `struct BitWriter`; `f` is the content of the output file so far. -/
structure BitWriter where
  f : List Nat
  buf : Nat
  bits : Nat
deriving DecidableEq, Repr

/-- `BitWriter::write_bit`. -/
def BitWriter.write_bit (w : BitWriter) (b : Nat) : BitWriter :=
  let buf := ((w.buf <<< 1) ||| (b &&& 1)) % 256
  let bits := w.bits + 1
  if bits = 8 then { f := w.f ++ [buf], buf := 0, bits := 0 }
  else { f := w.f, buf := buf, bits := bits }

/-- `BitWriter::write_bits(v, n)`: the loop `for (i = n - 1; i >= 0; --i)`, by recursion
on the number `n` of bits still to write. -/
def BitWriter.write_bits (w : BitWriter) (v : Nat) : Nat → BitWriter
  | 0 => w
  | i + 1 => BitWriter.write_bits (w.write_bit ((v >>> i) &&& 1)) v i

/-- `BitWriter::flush`. -/
def BitWriter.flush (w : BitWriter) : BitWriter :=
  if w.bits > 0 then
    { f := w.f ++ [(w.buf <<< (8 - w.bits)) % 256], buf := 0, bits := 0 }
  else w

/-- `struct BitReader`; `f` is the part of the input file not yet read. -/
structure BitReader where
  f : List Nat
  buf : Nat
  bits : Nat
deriving DecidableEq, Repr

/-- `BitReader::read_bit`: the bit (or `-1` at end of file) and the reader afterwards. -/
def BitReader.read_bit (r : BitReader) : Int × BitReader :=
  let take (buf bits : Nat) (f : List Nat) : Int × BitReader :=
    ((((buf >>> 7) &&& 1 : Nat) : Int), { f := f, buf := (buf <<< 1) % 256, bits := bits - 1 })
  if r.bits = 0 then
    match r.f with
    | [] => (-1, r)
    | c :: rest => take (c % 256) 8 rest
  else take r.buf r.bits r.f

/-! ## threads.hpp -/

/-- `struct Codeword`. -/
structure Codeword where
  code : Nat
  len : Nat
deriving DecidableEq, Repr

/-- `struct MemBitWriter`. -/
structure MemBitWriter where
  bytes : List Nat
  buf : Nat
  bits : Nat
  last_valid_bits : Nat
deriving DecidableEq, Repr

/-- A default-constructed `MemBitWriter`. -/
def MemBitWriter.init : MemBitWriter :=
  { bytes := [], buf := 0, bits := 0, last_valid_bits := 0 }

/-- `MemBitWriter::write_bit`. -/
def MemBitWriter.write_bit (m : MemBitWriter) (b : Nat) : MemBitWriter :=
  let buf := ((m.buf <<< 1) ||| (b &&& 1)) % 256
  let bits := m.bits + 1
  if bits = 8 then { m with bytes := m.bytes ++ [buf], buf := 0, bits := 0 }
  else { m with buf := buf, bits := bits }

/-- `MemBitWriter::write_bits(v, n)`. -/
def MemBitWriter.write_bits (m : MemBitWriter) (v : Nat) : Nat → MemBitWriter
  | 0 => m
  | i + 1 => MemBitWriter.write_bits (m.write_bit ((v >>> i) &&& 1)) v i

/-- `MemBitWriter::write_code`. -/
def MemBitWriter.write_code (m : MemBitWriter) (cw : Codeword) : MemBitWriter :=
  if cw.len ≠ 0 then m.write_bits cw.code cw.len else m

/-- `MemBitWriter::flush`. -/
def MemBitWriter.flush (m : MemBitWriter) : MemBitWriter :=
  if m.bits > 0 then
    { bytes := m.bytes ++ [(m.buf <<< (8 - m.bits)) % 256], buf := 0, bits := 0,
      last_valid_bits := m.bits }
  else if m.bytes ≠ [] then { m with last_valid_bits := 8 }
  else { m with last_valid_bits := 0 }

/-- The inner loop of `replay_into`, `for (k = 7; k >= 8 - emit; --k) sink.write_bit((b >> k) & 1)`,
by recursion on the number of bits still to emit (`emit ≤ 8` in every reachable state). -/
def replay_byte {σ : Type} (wb : σ → Nat → σ) (b : Nat) : Nat → Nat → σ → σ
  | 0, _, sink => sink
  | cnt + 1, k, sink => replay_byte wb b cnt (k - 1) (wb sink ((b >>> k) &&& 1))

/-- The outer loop of `replay_into` over the stored bytes. -/
def replay_bytes {σ : Type} (wb : σ → Nat → σ) (last_valid_bits : Nat) : List Nat → σ → σ
  | [], sink => sink
  | [b], sink => replay_byte wb b (if last_valid_bits ≠ 0 then last_valid_bits else 8) 7 sink
  | b :: b2 :: rest, sink =>
      replay_bytes wb last_valid_bits (b2 :: rest) (replay_byte wb b 8 7 sink)

/-- `MemBitWriter::replay_into(sink)` for a sink whose `write_bit` is `wb`. -/
def MemBitWriter.replay_into {σ : Type} (wb : σ → Nat → σ) (m : MemBitWriter) (sink : σ) : σ :=
  replay_bytes wb m.last_valid_bits m.bytes sink

/-! ## threads.cpp -/

/-- The job body of a worker of `encode_chunks_parallel`: encode one chunk into its own
`MemBitWriter` and flush it. -/
def encode_job (table : Nat → Codeword) (chunk : List Nat) : MemBitWriter :=
  (chunk.foldl (fun mbw b =>
      let cw := table b
      if cw.len ≠ 0 then mbw.write_bits cw.code cw.len else mbw) MemBitWriter.init).flush

/-- `encode_chunks_parallel(data, table, chunk_size, threads, out)`: the vector `out`.
`size_t` arithmetic is modulo `2 ^ 64`. -/
def encode_chunks_parallel (data : List Nat) (table : Nat → Codeword) (chunk_size : Nat)
    (_threads : Int) : List MemBitWriter :=
  let chunk_size := if chunk_size = 0 then 1 <<< 20 else chunk_size
  let total := data.length
  let nchunks := ((total + chunk_size - 1) % 2 ^ 64) / chunk_size
  (List.range nchunks).map fun i =>
    let off := (i * chunk_size) % 2 ^ 64
    let len := min chunk_size ((total + 2 ^ 64 - off) % 2 ^ 64)
    encode_job table ((data.drop off).take len)

/-! ## compress.cpp -/

/-- The tag `MAGIC`, the bytes of "HUF1". -/
def MAGIC : List Nat := [0x48, 0x55, 0x46, 0x31]

/-- The loop of `write_u64_le` / `write_u32_le`: `n` times `fputc(x & 0xFF); x >>= 8`. -/
def write_le : Nat → Nat → List Nat
  | 0, _ => []
  | n + 1, x => (x &&& 0xFF) :: write_le n (x >>> 8)

/-- `write_u64_le(f, x)`: the bytes appended to the file. -/
def write_u64_le (x : Nat) : List Nat := write_le 8 x

/-- `write_u32_le(f, x)`: the bytes appended to the file. -/
def write_u32_le (x : Nat) : List Nat := write_le 4 x

/-- `struct Node` behind a `Node*`; `null` is `nullptr`. -/
inductive Node where
  | null : Node
  | mk (freq : Nat) (sym : Int) (left right : Node) : Node
deriving DecidableEq, Repr, Inhabited

/-- The field `freq` (never read through a null pointer). -/
def Node.freq : Node → Nat
  | .null => 0
  | .mk f _ _ _ => f

/-- The field `sym` (never read through a null pointer). -/
def Node.sym : Node → Int
  | .null => -1
  | .mk _ s _ _ => s

/-- `Cmp::operator()`. -/
def Cmp (a b : Node) : Bool :=
  if a.freq ≠ b.freq then decide (a.freq > b.freq)
  else
    let sa : Int := if a.sym ≥ 0 then a.sym else 256
    let sb : Int := if b.sym ≥ 0 then b.sym else 256
    decide (sa > sb)

/-- The position of the element returned by `top()`: a position whose element `Cmp` puts
before no element of the queue; `tie` chooses among several such positions. -/
def pq_top_index (tie : List Node → Nat) (pq : List Node) : Nat :=
  let cands := (List.range pq.length).filter fun i =>
    pq.all fun e => !Cmp (pq.getD i Node.null) e
  cands.getD (tie pq % cands.length) 0

/-- `pq.top()`. -/
def pq_top (tie : List Node → Nat) (pq : List Node) : Node :=
  pq.getD (pq_top_index tie pq) Node.null

/-- `pq.pop()`. -/
def pq_pop (tie : List Node → Nat) (pq : List Node) : List Node :=
  pq.eraseIdx (pq_top_index tie pq)

/-- `pq.push(n)`. -/
def pq_push (pq : List Node) (n : Node) : List Node := pq ++ [n]

/-- Assignment `a[i] = v` to an array held as a function. -/
def set_at {α : Type} (a : Nat → α) (i : Nat) (v : α) : Nat → α :=
  fun j => if j = i then v else a j

/-- `gather_lengths(n, depth, lens)`. -/
def gather_lengths : Node → Nat → (Nat → Nat) → (Nat → Nat)
  | .null, _, lens => lens
  | .mk _ sym left right, depth, lens =>
    if sym ≥ 0 then set_at lens sym.toNat ((if depth = 0 then 1 else depth) % 256)
    else gather_lengths right (depth + 1) (gather_lengths left (depth + 1) lens)

/-- `struct Code`. -/
structure Code where
  code : Nat
  len : Nat
deriving DecidableEq, Repr

/-- The local `struct L` of `build_canonical` and `build_decode_tree`. -/
structure L where
  len : Nat
  sym : Nat
deriving DecidableEq, Repr

/-- The loop `for (s = 0; s < 256; ++s) if (lens[s] > 0) items.push_back({lens[s], s})`. -/
def collect_items (lens : Nat → Nat) : List L :=
  ((List.range 256).filter fun s => lens s > 0).map fun s => { len := lens s, sym := s }

/-- The comparator passed to `std::sort`. -/
def item_lt (a b : L) : Bool :=
  if a.len ≠ b.len then decide (a.len < b.len) else decide (a.sym < b.sym)

/-- Insertion of one item into a sorted list, before the first item not smaller than it. -/
def insert_item (x : L) : List L → List L
  | [] => [x]
  | y :: ys => if item_lt y x then y :: insert_item x ys else x :: y :: ys

/-- `std::sort(items.begin(), items.end(), item_lt)`.  The comparator is a strict total
order on the items, whose symbols are distinct, so the sorted sequence is the same for
every sorting algorithm; insertion sort computes it. -/
def sort_items : List L → List L
  | [] => []
  | x :: xs => insert_item x (sort_items xs)

/-- The statements `code += 1; if (it.len > prev_len) { code <<= (it.len - prev_len);
prev_len = it.len; }` on the `uint32_t code`; the result is `(code, prev_len)`. -/
def next_code (code prev_len : Nat) (it : L) : Nat × Nat :=
  let code := (code + 1) % 2 ^ 32
  if it.len > prev_len then ((code <<< (it.len - prev_len)) % 2 ^ 32, it.len)
  else (code, prev_len)

/-- The loop `for (i = 1; i < items.size(); ++i)` of `build_canonical` with its state
`(code, prev_len, out)`. -/
def canonical_loop : List L → Nat → Nat → (Nat → Code) → (Nat → Code)
  | [], _, _, out => out
  | it :: rest, code, prev_len, out =>
    let cp := next_code code prev_len it
    canonical_loop rest cp.1 cp.2 (set_at out it.sym { code := cp.1, len := it.len })

/-- `build_canonical(lens)`. -/
def build_canonical (lens : Nat → Nat) : Nat → Code :=
  let out : Nat → Code := fun _ => { code := 0, len := 0 }
  match sort_items (collect_items lens) with
  | [] => out
  | front :: rest =>
    canonical_loop rest 0 front.len (set_at out front.sym { code := 0, len := front.len })

/-- The first loop of `compress_file`, restricted to what it computes: `freq[buf[i]]++`
for every byte of the input. -/
def count_freq (data : List Nat) : Nat → Nat :=
  data.foldl (fun freq b => set_at freq b ((freq b + 1) % 2 ^ 64)) (fun _ => 0)

/-- The loop `while (pq.size() > 1)` of `compress_file`; the first argument bounds the
number of passes and is the size of the queue at the call. -/
def merge_loop (tie : List Node → Nat) : Nat → List Node → List Node
  | 0, pq => pq
  | fuel + 1, pq =>
    if pq.length > 1 then
      let a := pq_top tie pq
      let pq := pq_pop tie pq
      let b := pq_top tie pq
      let pq := pq_pop tie pq
      merge_loop tie fuel (pq_push pq (Node.mk ((a.freq + b.freq) % 2 ^ 64) (-1) a b))
    else pq

/-- The section "build tree" of `compress_file`: the node `root`. -/
def build_tree (tie : List Node → Nat) (freq : Nat → Nat) : Node :=
  let pq : List Node :=
    ((List.range 256).filter fun s => freq s > 0).map fun s =>
      Node.mk (freq s) (s : Int) Node.null Node.null
  let pq :=
    if pq.length = 1 then
      let a := pq_top tie pq
      let pq := pq_pop tie pq
      pq_push pq (Node.mk a.freq (-1) a Node.null)
    else pq
  let pq := merge_loop tie pq.length pq
  pq_top tie pq

/-- The code lengths `lengths` that `compress_file` computes for a frequency table. -/
def code_lengths (tie : List Node → Nat) (freq : Nat → Nat) : Nat → Nat :=
  gather_lengths (build_tree tie freq) 0 (fun _ => 0)

/-- The stitching loop of `compress_file`: replay every chunk into `bw`, in order. -/
def stitch (chunks : List MemBitWriter) (bw : BitWriter) : BitWriter :=
  chunks.foldl (fun bw mbw => mbw.replay_into BitWriter.write_bit bw) bw

/-- `compress_file(in_path, out_path, level)` on an input file with content `data`:
the status and the content of the output file.  `hw` is the value of
`std::thread::hardware_concurrency()`. -/
def compress_file (tie : List Node → Nat) (hw : Nat) (data : List Nat) : Nat × List Nat :=
  let freq := count_freq data
  let orig_size := data.length % 2 ^ 64
  let fo := MAGIC ++ write_u64_le orig_size
  if orig_size = 0 then
    (0, fo ++ List.replicate 256 0 ++ [0] ++ write_u32_le 0)
  else
    let lengths := code_lengths tie freq
    let codes := build_canonical lengths
    let fo := fo ++ (List.range 256).map lengths
    let total_bits := data.foldl (fun t b => (t + lengths b) % 2 ^ 64) 0
    let pad_bits := ((8 - total_bits % 8) % 8) % 256
    let crc := crc32 data
    let fo := fo ++ [pad_bits] ++ write_u32_le crc
    let table : Nat → Codeword := fun s => { code := (codes s).code, len := (codes s).len }
    let chunk_size := 1 <<< 20
    let threads : Int := max 1 hw
    let chunks := encode_chunks_parallel data table chunk_size threads
    let bw := stitch chunks { f := fo, buf := 0, bits := 0 }
    (0, bw.flush.f)

/-! ## decompress.cpp -/

/-- The loop of `read_u64_le` / `read_u32_le`: `n` more bytes, the next one shifted by
`8 * i`; at end of file the result is `0`. -/
def read_le : Nat → Nat → Nat → List Nat → Nat × List Nat
  | 0, _, x, f => (x, f)
  | n + 1, i, x, f =>
    match f with
    | [] => (0, [])
    | c :: rest => read_le n (i + 1) (x ||| (c <<< (8 * i))) rest

/-- `read_u64_le(f)`: the value and the rest of the file. -/
def read_u64_le (f : List Nat) : Nat × List Nat := read_le 8 0 0 f

/-- `read_u32_le(f)`: the value and the rest of the file. -/
def read_u32_le (f : List Nat) : Nat × List Nat := read_le 4 0 0 f

/-- `struct DecNode` behind a `DecNode*`; `null` is `nullptr`. -/
inductive DecNode where
  | null : DecNode
  | mk (child0 child1 : DecNode) (sym : Int) : DecNode
deriving DecidableEq, Repr, Inhabited

/-- `new DecNode()`. -/
def DecNode.fresh : DecNode := .mk .null .null (-1)

/-- The statement `if (!cur->child[bit]) cur->child[bit] = new DecNode();` for one child. -/
def DecNode.orFresh : DecNode → DecNode
  | .null => DecNode.fresh
  | n => n

/-- The insertion loop of `build_decode_tree` below the node `cur`:
`for (b = len - 1; b >= 0; --b) { bit = (code >> b) & 1; ...; cur = cur->child[bit]; }
cur->sym = sym;`, by recursion on the number of bits still to follow. -/
def insert_code (code : Nat) (sym : Int) : Nat → DecNode → DecNode
  | _, .null => .null
  | 0, .mk c0 c1 _ => .mk c0 c1 sym
  | b + 1, .mk c0 c1 s =>
    if (code >>> b) &&& 1 = 0 then .mk (insert_code code sym b c0.orFresh) c1 s
    else .mk c0 (insert_code code sym b c1.orFresh) s

/-- The loop `for (i = 1; i < items.size(); ++i)` of `build_decode_tree` with its state
`(code, prev_len, root)`. -/
def decode_tree_loop : List L → Nat → Nat → DecNode → DecNode
  | [], _, _, root => root
  | it :: rest, code, prev_len, root =>
    let cp := next_code code prev_len it
    decode_tree_loop rest cp.1 cp.2 (insert_code cp.1 (it.sym : Int) it.len root)

/-- `build_decode_tree(lens, root)`: the new `root`. -/
def build_decode_tree (lens : Nat → Nat) : DecNode :=
  let root := DecNode.fresh
  match sort_items (collect_items lens) with
  | [] => root
  | front :: rest =>
    decode_tree_loop rest 0 front.len (insert_code 0 (front.sym : Int) front.len root)

/-- The inner loop `while (cur && cur->sym < 0)` of `decompress_file`, started at `cur`:
either a failure status, or the symbol of the node reached and the reader afterwards. -/
def descend : DecNode → BitReader → Except Nat (Int × BitReader)
  | .null, _ => .error 7
  | .mk c0 c1 sym, br =>
    if sym < 0 then
      let r := br.read_bit
      if r.1 < 0 then .error 6
      else if r.1 = 0 then
        match c0 with
        | .null => .error 7
        | .mk a b s => descend (.mk a b s) r.2
      else
        match c1 with
        | .null => .error 7
        | .mk a b s => descend (.mk a b s) r.2
    else .ok (sym, br)

/-- The loop `while (written < orig_size)` of `decompress_file`, by recursion on
`orig_size - written`: the status (`0` when the loop ran to its end), `crc_running` and the
bytes written to the output file. -/
def decode_loop (root : DecNode) : Nat → BitReader → Nat → List Nat → Nat × Nat × List Nat
  | 0, _, crc_running, out => (0, crc_running, out)
  | n + 1, br, crc_running, out =>
    match descend root br with
    | .error status => (status, crc_running, out)
    | .ok (sym, br) =>
      let outb := (sym % 256).toNat
      decode_loop root n br (crc32_update crc_running [outb]) (out ++ [outb])

/-- `decompress_file(in_path, out_path, verify)` on an input file with content `file`:
the status and the bytes written to the output file. -/
def decompress_file (file : List Nat) : Nat × List Nat :=
  let magic := file.take 4
  let f := file.drop 4
  if magic.length ≠ 4 ∨ magic ≠ MAGIC then (2, [])
  else
    let r := read_u64_le f
    let orig_size := r.1
    let f := r.2
    let lengths := f.take 256
    let f := f.drop 256
    if lengths.length ≠ 256 then (3, [])
    else
      match f with
      | [] => (9, [])
      | pad_bits :: f =>
        if pad_bits > 7 then (9, [])
        else
          let r := read_u32_le f
          let crc_expected := r.1
          let f := r.2
          if orig_size = 0 then (0, [])
          else
            match build_decode_tree (fun s => lengths.getD s 0) with
            | .null => (5, [])
            | .mk c0 c1 s =>
              let res := decode_loop (.mk c0 c1 s) orig_size { f := f, buf := 0, bits := 0 }
                0xFFFFFFFF []
              if res.1 ≠ 0 then (res.1, res.2.2)
              else if res.2.1 ^^^ 0xFFFFFFFF ≠ crc_expected then (10, res.2.2)
              else (0, res.2.2)

/-! ## Auxiliary definitions for the statements and proofs -/

/-- The `n` low bits of `v`, most significant first: the bits that `write_bits(v, n)` passes
to `write_bit`, and the path that `build_decode_tree` inserts for a code `v` of length `n`. -/
def cw_bits (v : Nat) : Nat → List Nat
  | 0 => []
  | i + 1 => ((v >>> i) &&& 1) :: cw_bits v i

/-- The bits of a byte sequence, most significant bit of every byte first. -/
def bytes_to_bits (f : List Nat) : List Nat := f.flatMap fun c => cw_bits c 8

/-- `write_bit` applied to each bit of a list in turn. -/
def BitWriter.write_list (w : BitWriter) (bits : List Nat) : BitWriter :=
  bits.foldl BitWriter.write_bit w

/-- `write_bit` applied to each bit of a list in turn. -/
def MemBitWriter.write_list (m : MemBitWriter) (bits : List Nat) : MemBitWriter :=
  bits.foldl MemBitWriter.write_bit m

/-- The codewords of the bytes of `data` under `table`, concatenated in order. -/
def encode_bits (table : Nat → Codeword) (data : List Nat) : List Nat :=
  data.flatMap fun b => cw_bits (table b).code (table b).len

/-- The state of a bit writer between calls: fewer than 8 buffered bits, held in the low
bits of `buf`. -/
def WInv (buf bits : Nat) : Prop := bits < 8 ∧ buf < 2 ^ bits

/-- The bytes and the bit buffer of a `MemBitWriter`, seen as a `BitWriter`. -/
def MemBitWriter.toBW (m : MemBitWriter) : BitWriter := { f := m.bytes, buf := m.buf, bits := m.bits }

/-- The leaves that `gather_lengths(n, depth, lens)` visits, in order, each with the depth
at which it is visited. -/
def Node.leaves : Node → Nat → List (Nat × Nat)
  | .null, _ => []
  | .mk _ sym l r, d =>
    if sym ≥ 0 then [(sym.toNat, d)] else Node.leaves l (d + 1) ++ Node.leaves r (d + 1)

/-- A tree in which every internal node has two subtrees. -/
inductive Full : Node → Prop
  | leaf (f : Nat) (sym : Int) (l r : Node) : 0 ≤ sym → Full (.mk f sym l r)
  | node (f : Nat) (sym : Int) (l r : Node) : sym < 0 → Full l → Full r → Full (.mk f sym l r)

/-- The symbols with a nonzero count, in the order in which `compress_file` pushes them. -/
def present (freq : Nat → Nat) : List Nat := (List.range 256).filter fun s => freq s > 0

/-- The value `gather_lengths` stores for a leaf at depth `d`. -/
def len_of_depth (d : Nat) : Nat := (if d = 0 then 1 else d) % 256

/-- The symbols at the leaves of a tree, in traversal order. -/
def Node.syms (n : Node) : List Nat := (n.leaves 0).map Prod.fst

/-- The `n` little-endian base-256 digits of `x`. -/
def le_bytes (n x : Nat) : List Nat := (List.range n).map fun i => x / 256 ^ i % 256

/-- The table `table` of codewords that `compress_file` passes to `encode_chunks_parallel`. -/
def code_table (tie : List Node → Nat) (data : List Nat) : Nat → Codeword :=
  fun s =>
    { code := (build_canonical (code_lengths tie (count_freq data)) s).code,
      len := (build_canonical (code_lengths tie (count_freq data)) s).len }

/-- A well-formed input: a sequence of bytes that fits a `std::vector`. -/
def ValidInput (data : List Nat) : Prop := data.length < 2 ^ 63 ∧ ∀ b ∈ data, b < 256

/-- The bits a `BitReader` has still to deliver: the unread part of `buf`, then the file. -/
def BitReader.remaining (r : BitReader) : List Nat :=
  (cw_bits r.buf 8).take r.bits ++ bytes_to_bits r.f

/-- The state of a bit reader between calls, over a file of bytes. -/
def RInv (r : BitReader) : Prop := r.bits ≤ 8 ∧ r.buf < 256 ∧ ∀ c ∈ r.f, c < 256

/-- The field `sym` of the node reached from a node along a path of bits (`-1` when the
path leaves the trie). -/
def DecNode.sym_at : DecNode → List Nat → Int
  | .null, _ => -1
  | .mk _ _ s, [] => s
  | .mk c0 c1 _, b :: w => if b = 0 then DecNode.sym_at c0 w else DecNode.sym_at c1 w

/-- Every node of the trie that carries a symbol lies at the end of the path spelled by the
codeword of that symbol in the table `out`. -/
def TrieOK (root : DecNode) (out : Nat → Code) : Prop :=
  ∀ w : List Nat, (∀ b ∈ w, b < 2) → 0 ≤ root.sym_at w →
    root.sym_at w < 256 ∧ w = cw_bits (out (root.sym_at w).toNat).code (out (root.sym_at w).toNat).len

/-- The part of `decompress_file` after the header: decode `n` bytes of `payload` with the
trie of the length table `lens`, then compare the checksum with `crc`. -/
def decode_payload (lens : Nat → Nat) (n crc : Nat) (payload : List Nat) : Nat × List Nat :=
  let res := decode_loop (build_decode_tree lens) n { f := payload, buf := 0, bits := 0 }
    0xFFFFFFFF []
  if res.1 ≠ 0 then (res.1, res.2.2)
  else if res.2.1 ^^^ 0xFFFFFFFF ≠ crc then (10, res.2.2)
  else (0, res.2.2)

/-- The tie-breaking that takes the first qualifying position of the queue. -/
def firstTie : List Node → Nat := fun _ => 0

/-- The byte sequence `f` with bit `k` of the byte at offset `i` inverted. -/
def flip_bit (f : List Nat) (i k : Nat) : List Nat := f.set i (f.getD i 0 ^^^ (1 <<< k))

/-- A frequency table over the symbols `0 .. 33` for which the Huffman tree is a chain:
from the fourth on, every count exceeds the sum of the counts two or more places before it. -/
def deep_freq : Nat → Nat := fun s =>
  [1, 1, 1, 3, 4, 7, 11, 18, 29, 47, 76, 123, 199, 322, 521, 843, 1364, 2207, 3571, 5778, 9349,
   15127, 24476, 39603, 64079, 103682, 167761, 271443, 439204, 710647, 1149851, 1860498,
   3010349, 4870847].getD s 0

/-- The node reached from a node along a path of bits (`null` when the path leaves the trie). -/
def DecNode.walk : DecNode → List Nat → DecNode
  | .null, _ => .null
  | n, [] => n
  | .mk c0 c1 _, b :: w => if b = 0 then DecNode.walk c0 w else DecNode.walk c1 w

/-- Whether a node carries a symbol and has no child. -/
def DecNode.is_leaf : DecNode → Bool
  | .mk .null .null s => decide (0 ≤ s)
  | _ => false

/-- The field `sym` (`-1` for the null pointer). -/
def DecNode.sym : DecNode → Int
  | .null => -1
  | .mk _ _ s => s

/-- An input whose container decodes, after one flipped payload bit, to different bytes
with the same CRC-32. -/
def collide_input : List Nat :=
  [67, 65, 65, 65, 65, 66, 65, 65, 65, 65, 65, 66, 66, 66, 65, 66, 66, 66, 66, 66, 66, 65, 65,
   65, 65, 66, 65, 66, 66, 65, 66, 66, 65, 66, 66, 65, 66, 65]

/-- The bytes decoded from the container of `collide_input` after bit 1 of its first
payload byte is flipped. -/
def collide_output : List Nat :=
  [67, 65, 65, 65, 65, 65, 65, 65, 65, 65, 65, 65, 66, 66, 66, 65, 66, 66, 66, 66, 66, 66, 65,
   65, 65, 65, 66, 65, 66, 66, 65, 66, 66, 65, 66, 66, 65, 66]

/-- An input of 12,752,042 bytes over 34 symbols whose Huffman tree is a chain of depth 33:
symbol `s` occurs `deep_freq s` times. -/
def deep_input : List Nat := (List.range 34).flatMap fun s => List.replicate (deep_freq s) s

/-- The field `child[0]` (`null` for the null pointer). -/
def DecNode.child0 : DecNode → DecNode
  | .null => .null
  | .mk c0 _ _ => c0

/-- The positions that qualify for `top()`: those whose element `Cmp` puts before no element
of the queue. -/
def top_candidates (pq : List Node) : List Nat :=
  (List.range pq.length).filter fun i => pq.all fun e => !Cmp (pq.getD i Node.null) e

/-- Whether `top()` is determined by `Cmp` alone: exactly one position qualifies. -/
def top_unique (pq : List Node) : Bool := (top_candidates pq).length == 1

/-- Whether every `top()` during `merge_loop` is determined by `Cmp` alone. -/
def merge_unique : Nat → List Node → Bool
  | 0, _ => true
  | fuel + 1, pq =>
    if pq.length > 1 then
      let a := pq_top firstTie pq
      let pq1 := pq_pop firstTie pq
      let b := pq_top firstTie pq1
      let pq2 := pq_pop firstTie pq1
      top_unique pq && top_unique pq1 &&
        merge_unique fuel (pq_push pq2 (Node.mk ((a.freq + b.freq) % 2 ^ 64) (-1) a b))
    else true

/-- Whether every `top()` during the tree construction for `freq` is determined by `Cmp`
alone, for a table with at least two nonzero counts. -/
def build_unique (freq : Nat → Nat) : Bool :=
  let pq : List Node :=
    ((List.range 256).filter fun s => freq s > 0).map fun s =>
      Node.mk (freq s) (s : Int) Node.null Node.null
  decide (pq.length ≠ 1) && merge_unique pq.length pq

/-- The codes that the loops of `build_canonical` and `build_decode_tree` compute for the
items after the first, in order, from the state `(code, prev_len)`. -/
def code_seq : List L → Nat → Nat → List (L × Nat)
  | [], _, _ => []
  | it :: rest, code, prev_len =>
    (it, (next_code code prev_len it).1) ::
      code_seq rest (next_code code prev_len it).1 (next_code code prev_len it).2

/-- All items of a length table with their codes, in the order in which both functions
process them: the first item has code 0. -/
def coded_items (lens : Nat → Nat) : List (L × Nat) :=
  match sort_items (collect_items lens) with
  | [] => []
  | front :: rest => (front, 0) :: code_seq rest 0 front.len

/-- The codeword of a coded item. -/
def item_bits (p : L × Nat) : List Nat := cw_bits p.2 p.1.len

/-- The Kraft sum of a list of items, scaled by `2 ^ 32`. -/
def kraft32 (its : List L) : Nat := (its.map fun it => 2 ^ (32 - it.len)).sum

/-- A length table the canonical assignment handles without overflow: lengths of at most 32
bits whose Kraft sum is at most one. -/
def Fits32 (lens : Nat → Nat) : Prop :=
  (∀ s < 256, lens s ≤ 32) ∧ kraft32 (sort_items (collect_items lens)) ≤ 2 ^ 32

/-- The length table that gives the symbols `a` and `b` one bit each. -/
def two_lens (a b : Nat) : Nat → Nat := set_at (set_at (fun _ => 0) a 1) b 1

/-- One bit of the standard reflected CRC-32: shift the state right by one and, when the bit
shifted out is set, add the reflected IEEE polynomial `0xEDB88320`. -/
def crc32_standard_step (state : Nat) : Nat :=
  if state % 2 = 1 then (state >>> 1) ^^^ 0xEDB88320 else state >>> 1

/-- One byte of the standard reflected CRC-32: add the byte to the low end of the state,
then process eight bits. -/
def crc32_standard_byte (state b : Nat) : Nat :=
  Nat.iterate crc32_standard_step 8 (state ^^^ b)

/-- The standard reflected CRC-32 (IEEE 802.3), as the specification describes it:
bit-serial with the polynomial `0xEDB88320`, one bit per inner iteration and eight iterations
per byte, the state initially all ones and the result complemented. -/
def crc32_standard (data : List Nat) : Nat :=
  data.foldl crc32_standard_byte 0xFFFFFFFF ^^^ 0xFFFFFFFF

/-- The values returned by `k` successive calls of `BitReader::read_bit`. -/
def BitReader.read_many : Nat → BitReader → List Int
  | 0, _ => []
  | k + 1, r => r.read_bit.1 :: BitReader.read_many k r.read_bit.2

/-- The queue of `compress_file` after the pushes of the leaves. -/
def leaf_queue (freq : Nat → Nat) : List Node :=
  ((List.range 256).filter fun s => freq s > 0).map fun s =>
    Node.mk (freq s) (s : Int) Node.null Node.null

/-- The second sort key of `Cmp`: the symbol of a leaf, 256 for an internal node. -/
def Node.rank (n : Node) : Int := if n.sym ≥ 0 then n.sym else 256

/-- A tie-breaking that takes the second qualifying position of the queue when there are
two. -/
def secondTie : List Node → Nat := fun _ => 1

/-- `struct Job`; the pointer `ptr` is `data.data() + off`. -/
structure Job where
  idx : Nat
  off : Nat
  len : Nat
deriving DecidableEq, Repr

/-- Where a worker thread of `encode_chunks_parallel` stands in its loop: at `cv.wait`
before taking a job, outside the critical section with a job it has taken, or returned. -/
inductive Worker where
  | waiting : Worker
  | encoding (job : Job) : Worker
  | returned : Worker
deriving DecidableEq, Repr

/-- The state shared by the threads of `encode_chunks_parallel`: the queue `q`, the flag
`stop`, the vector `out`, and the position of every worker of `pool`. -/
structure Pool where
  q : List Job
  stop : Bool
  out : List MemBitWriter
  workers : List Worker
deriving DecidableEq, Repr

/-- The loop "Prepare jobs" of `encode_chunks_parallel`: the jobs pushed to `q`, in order.
`size_t` arithmetic is modulo `2 ^ 64`. -/
def prepare_jobs (data : List Nat) (chunk_size : Nat) : List Job :=
  let chunk_size := if chunk_size = 0 then 1 <<< 20 else chunk_size
  let total := data.length
  let nchunks := ((total + chunk_size - 1) % 2 ^ 64) / chunk_size
  (List.range nchunks).map fun i =>
    let off := (i * chunk_size) % 2 ^ 64
    { idx := i, off := off, len := min chunk_size ((total + 2 ^ 64 - off) % 2 ^ 64) }

/-- What a worker stores in `out[job.idx]`: the encoding of the bytes `ptr[0 .. len)`. -/
def run_job (data : List Nat) (table : Nat → Codeword) (job : Job) : MemBitWriter :=
  encode_job table ((data.drop job.off).take job.len)

/-- The state of `encode_chunks_parallel` when the threads of `pool` have been created. -/
def pool_init (data : List Nat) (chunk_size : Nat) (threads : Int) : Pool :=
  let threads := if threads ≤ 0 then 4 else threads
  let jobs := prepare_jobs data chunk_size
  { q := jobs, stop := false, out := List.replicate jobs.length MemBitWriter.init,
    workers := List.replicate threads.toNat Worker.waiting }

/-- One step of thread `t` of `encode_chunks_parallel`, `none` when the thread cannot move.
Thread `t < workers.length` is a worker: waiting, it takes the front job inside the critical
section, or returns when `stop` is set and the queue is empty; holding a job, it encodes the
chunk and stores the result in `out[job.idx]`.  Thread `workers.length` is the calling thread
in the block "Drain": once the queue is empty it sets `stop`. -/
def pool_step (data : List Nat) (table : Nat → Codeword) (t : Nat) (s : Pool) : Option Pool :=
  if t = s.workers.length then
    if s.stop = false ∧ s.q = [] then some { s with stop := true } else none
  else
    match s.workers[t]? with
    | none => none
    | some Worker.waiting =>
      match s.q with
      | job :: rest => some { s with q := rest, workers := s.workers.set t (Worker.encoding job) }
      | [] => if s.stop = true then some { s with workers := s.workers.set t Worker.returned }
              else none
    | some (Worker.encoding job) =>
      some { s with out := s.out.set job.idx (run_job data table job),
                    workers := s.workers.set t Worker.waiting }
    | some Worker.returned => none

/-- The state after the threads have moved in the order `sched`; a thread that cannot move
when its turn comes is skipped. -/
def pool_run (data : List Nat) (table : Nat → Codeword) (sched : List Nat) (s : Pool) : Pool :=
  sched.foldl (fun s t => (pool_step data table t s).getD s) s

/-- Whether `encode_chunks_parallel` has returned: `stop` is set and every worker has
returned, so every `join` has completed. -/
def pool_done (s : Pool) : Bool :=
  s.stop && s.workers.all fun w => decide (w = Worker.returned)

/-- The invariant of the pool: the first `c` jobs have been taken; each of them is either
being encoded by some worker or has its result in its slot of `out`. -/
def PoolInv (data : List Nat) (table : Nat → Codeword) (jobs : List Job) (n : Nat) (s : Pool) :
    Prop :=
  s.workers.length = n ∧ s.out.length = jobs.length ∧
  (s.stop = true → s.q = []) ∧
  (∀ w : Nat, s.workers[w]? = some Worker.returned → s.stop = true) ∧
  ∃ c, c ≤ jobs.length ∧ s.q = jobs.drop c ∧
    (∀ (w : Nat) (j : Job), s.workers[w]? = some (Worker.encoding j) →
      ∃ i : Nat, i < c ∧ jobs[i]? = some j) ∧
    (∀ (i : Nat) (j : Job), i < c → jobs[i]? = some j →
      s.out[i]? = some (run_job data table j) ∨
        ∃ w : Nat, s.workers[w]? = some (Worker.encoding j))

/-- The weight of a worker in the termination measure of the pool. -/
def Worker.weight : Worker → Nat
  | Worker.waiting => 1
  | Worker.encoding _ => 2
  | Worker.returned => 0

/-- A measure that every step of every thread decreases. -/
def pool_measure (s : Pool) : Nat :=
  3 * s.q.length + (s.workers.map Worker.weight).sum + (if s.stop = true then 0 else 1)

/-- The container that `compress_file` writes for a nonempty or empty input when the call of
`encode_chunks_parallel` has left the vector `chunks`: `compress_file` with that call taken
out. -/
def compress_stitched (tie : List Node → Nat) (data : List Nat) (chunks : List MemBitWriter) :
    Nat × List Nat :=
  let freq := count_freq data
  let orig_size := data.length % 2 ^ 64
  let fo := MAGIC ++ write_u64_le orig_size
  if orig_size = 0 then
    (0, fo ++ List.replicate 256 0 ++ [0] ++ write_u32_le 0)
  else
    let lengths := code_lengths tie freq
    let fo := fo ++ (List.range 256).map lengths
    let total_bits := data.foldl (fun t b => (t + lengths b) % 2 ^ 64) 0
    let pad_bits := ((8 - total_bits % 8) % 8) % 256
    let crc := crc32 data
    let fo := fo ++ [pad_bits] ++ write_u32_le crc
    let bw := stitch chunks { f := fo, buf := 0, bits := 0 }
    (0, bw.flush.f)

/-- The number of bits a `BitReader` can still deliver: those left in `buf` and eight for
every byte of the file not yet read. -/
def BitReader.avail (r : BitReader) : Nat := r.bits + 8 * r.f.length

/-! ## Lemmas -/

/-! ### bits -/

theorem bit_arith (v i : Nat) : (v >>> i) &&& 1 = v / 2 ^ i % 2 := by
  rw [Nat.and_one_is_mod, Nat.shiftRight_eq_div_pow]

theorem cw_bits_length (v n : Nat) : (cw_bits v n).length = n := by
  induction n with
  | zero => rfl
  | succ n ih => simp [cw_bits, ih]

theorem cw_bits_lt (v n : Nat) : ∀ b ∈ cw_bits v n, b < 2 := by
  induction n with
  | zero => simp [cw_bits]
  | succ n ih =>
    intro b hb
    simp only [cw_bits, List.mem_cons] at hb
    rcases hb with h | h
    · rw [h, bit_arith]; exact Nat.mod_lt _ (by decide)
    · exact ih b h

theorem cw_bits_snoc (v b n : Nat) (hb : b < 2) :
    cw_bits (2 * v + b) (n + 1) = cw_bits v n ++ [b] := by
  induction n with
  | zero =>
    simp only [cw_bits, bit_arith, pow_zero, Nat.div_one, List.nil_append]
    congr 1; omega
  | succ n ih =>
    rw [cw_bits, ih]
    simp only [cw_bits, List.cons_append, bit_arith]
    congr 1
    rw [pow_succ, Nat.mul_comm (2 ^ n) 2, ← Nat.div_div_eq_div_mul]
    congr 2; omega

theorem cw_bits_shift (v n k : Nat) :
    cw_bits (v * 2 ^ k) (n + k) = cw_bits v n ++ List.replicate k 0 := by
  induction k with
  | zero => simp
  | succ k ih =>
    have h := cw_bits_snoc (v * 2 ^ k) 0 (n + k) (by decide)
    rw [show 2 * (v * 2 ^ k) + 0 = v * 2 ^ (k + 1) by ring, ih] at h
    rw [show n + (k + 1) = n + k + 1 by ring, h, List.replicate_succ', List.append_assoc]

theorem wb_arith (buf b : Nat) : ((buf <<< 1) ||| (b &&& 1)) = 2 * buf + b % 2 := by
  rw [Nat.shiftLeft_eq, Nat.and_one_is_mod, pow_one, Nat.mul_comm]
  exact (Nat.mul_add_lt_is_or (i := 1) (Nat.mod_lt _ (by decide)) buf).symm

/-! ### BitWriter -/

theorem bytes_to_bits_append (a b : List Nat) :
    bytes_to_bits (a ++ b) = bytes_to_bits a ++ bytes_to_bits b := by
  simp [bytes_to_bits]

theorem bytes_to_bits_single (c : Nat) : bytes_to_bits [c] = cw_bits c 8 := by
  simp [bytes_to_bits]

theorem pow_le_128 {bits : Nat} (h : bits < 8) : 2 ^ bits ≤ 128 := by
  have : 2 ^ bits ≤ 2 ^ 7 := Nat.pow_le_pow_right (by decide) (by omega)
  simpa using this

theorem BitWriter.write_bit_spec (w : BitWriter) (b : Nat) (h : WInv w.buf w.bits) :
    WInv (w.write_bit b).buf (w.write_bit b).bits ∧
    bytes_to_bits (w.write_bit b).f ++ cw_bits (w.write_bit b).buf (w.write_bit b).bits =
      bytes_to_bits w.f ++ cw_bits w.buf w.bits ++ [b % 2] := by
  obtain ⟨h1, h2⟩ := h
  have h128 := pow_le_128 h1
  have hb : b % 2 < 2 := Nat.mod_lt _ (by decide)
  have hlt : 2 * w.buf + b % 2 < 256 := by omega
  unfold BitWriter.write_bit
  simp only [wb_arith, Nat.mod_eq_of_lt hlt]
  by_cases h8 : w.bits + 1 = 8
  · simp only [h8, if_true]
    refine ⟨⟨by decide, by decide⟩, ?_⟩
    have h7 : w.bits = 7 := by omega
    rw [bytes_to_bits_append, bytes_to_bits_single, cw_bits_snoc _ _ 7 hb, h7]
    simp [cw_bits]
  · simp only [h8, if_false]
    refine ⟨⟨by omega, ?_⟩, ?_⟩
    · rw [pow_succ]; omega
    · rw [cw_bits_snoc _ _ _ hb, List.append_assoc]

theorem BitWriter.write_list_spec (w : BitWriter) (bits : List Nat) (h : WInv w.buf w.bits) :
    WInv (w.write_list bits).buf (w.write_list bits).bits ∧
    bytes_to_bits (w.write_list bits).f ++
        cw_bits (w.write_list bits).buf (w.write_list bits).bits =
      bytes_to_bits w.f ++ cw_bits w.buf w.bits ++ bits.map (· % 2) := by
  induction bits generalizing w with
  | nil => simp [BitWriter.write_list, h]
  | cons b bs ih =>
    have hs := BitWriter.write_bit_spec w b h
    have := ih (w.write_bit b) hs.1
    simp only [BitWriter.write_list, List.foldl_cons] at this ⊢
    refine ⟨this.1, ?_⟩
    rw [this.2, hs.2]; simp

theorem BitWriter.flush_spec (w : BitWriter) (h : WInv w.buf w.bits) :
    bytes_to_bits w.flush.f =
      bytes_to_bits w.f ++ cw_bits w.buf w.bits ++ List.replicate ((8 - w.bits) % 8) 0 := by
  obtain ⟨h1, h2⟩ := h
  unfold BitWriter.flush
  by_cases h0 : w.bits > 0
  · simp only [h0, if_true]
    rw [bytes_to_bits_append, bytes_to_bits_single, Nat.shiftLeft_eq]
    have hk : (8 - w.bits) % 8 = 8 - w.bits := Nat.mod_eq_of_lt (by omega)
    have hlt : w.buf * 2 ^ (8 - w.bits) < 256 := by
      have : w.buf * 2 ^ (8 - w.bits) < 2 ^ w.bits * 2 ^ (8 - w.bits) :=
        Nat.mul_lt_mul_of_pos_right h2 (by positivity)
      rw [← pow_add, show w.bits + (8 - w.bits) = 8 by omega] at this
      simpa using this
    rw [Nat.mod_eq_of_lt hlt, hk]
    have := cw_bits_shift w.buf w.bits (8 - w.bits)
    rw [show w.bits + (8 - w.bits) = 8 by omega] at this
    rw [this, List.append_assoc]
  · have hz : w.bits = 0 := by omega
    simp [h0, hz, cw_bits]

theorem BitWriter.write_bits_eq (w : BitWriter) (v n : Nat) :
    w.write_bits v n = w.write_list (cw_bits v n) := by
  induction n generalizing w with
  | zero => rfl
  | succ n ih =>
    simp only [BitWriter.write_bits, cw_bits, BitWriter.write_list, List.foldl_cons]
    rw [ih]; rfl

/-! ### MemBitWriter -/

theorem MemBitWriter.write_bit_toBW (m : MemBitWriter) (b : Nat) :
    (m.write_bit b).toBW = m.toBW.write_bit b := by
  unfold MemBitWriter.write_bit BitWriter.write_bit MemBitWriter.toBW
  by_cases h : m.bits + 1 = 8 <;> simp [h]

theorem MemBitWriter.write_list_toBW (m : MemBitWriter) (bits : List Nat) :
    (m.write_list bits).toBW = m.toBW.write_list bits := by
  induction bits generalizing m with
  | nil => rfl
  | cons b bs ih =>
    simp only [MemBitWriter.write_list, BitWriter.write_list, List.foldl_cons] at ih ⊢
    rw [ih, MemBitWriter.write_bit_toBW]

theorem MemBitWriter.mem_write_bits_eq (m : MemBitWriter) (v n : Nat) :
    m.write_bits v n = m.write_list (cw_bits v n) := by
  induction n generalizing m with
  | zero => rfl
  | succ n ih =>
    simp only [MemBitWriter.write_bits, cw_bits, MemBitWriter.write_list, List.foldl_cons]
    rw [ih]; rfl

theorem MemBitWriter.mem_write_list_append (m : MemBitWriter) (a b : List Nat) :
    m.write_list (a ++ b) = (m.write_list a).write_list b := by
  simp [MemBitWriter.write_list]

theorem BitWriter.write_list_append (w : BitWriter) (a b : List Nat) :
    w.write_list (a ++ b) = (w.write_list a).write_list b := by
  simp [BitWriter.write_list]

theorem map_mod_two_of_lt (bits : List Nat) (h : ∀ b ∈ bits, b < 2) :
    bits.map (· % 2) = bits := by
  induction bits with
  | nil => rfl
  | cons b bs ih =>
    simp only [List.map_cons]
    rw [ih (fun x hx => h x (List.mem_cons_of_mem _ hx)),
      Nat.mod_eq_of_lt (h b (List.mem_cons_self _ _))]

theorem MemBitWriter.mem_write_list_spec (bits : List Nat) (h : ∀ b ∈ bits, b < 2) :
    WInv (MemBitWriter.init.write_list bits).buf (MemBitWriter.init.write_list bits).bits ∧
    bytes_to_bits (MemBitWriter.init.write_list bits).bytes ++
        cw_bits (MemBitWriter.init.write_list bits).buf (MemBitWriter.init.write_list bits).bits
      = bits := by
  have h0 : WInv MemBitWriter.init.toBW.buf MemBitWriter.init.toBW.bits :=
    ⟨by decide, by decide⟩
  have := BitWriter.write_list_spec MemBitWriter.init.toBW bits h0
  rw [← MemBitWriter.write_list_toBW, map_mod_two_of_lt bits h] at this
  simpa [MemBitWriter.toBW, MemBitWriter.init, bytes_to_bits, cw_bits] using this

/-! ### replay -/

theorem replay_byte_eq {σ : Type} (wb : σ → Nat → σ) (b cnt k : Nat) (sink : σ)
    (h : cnt ≤ k + 1) :
    replay_byte wb b cnt k sink = ((cw_bits b (k + 1)).take cnt).foldl wb sink := by
  induction cnt generalizing k sink with
  | zero => simp [replay_byte]
  | succ cnt ih =>
    cases k with
    | zero =>
      have : cnt = 0 := by omega
      subst this
      simp [replay_byte, cw_bits]
    | succ k =>
      rw [replay_byte, cw_bits, List.take_succ_cons, List.foldl_cons, Nat.add_sub_cancel]
      exact ih k _ (by omega)

theorem replay_byte_full {σ : Type} (wb : σ → Nat → σ) (b : Nat) (sink : σ) :
    replay_byte wb b 8 7 sink = (cw_bits b 8).foldl wb sink := by
  rw [replay_byte_eq wb b 8 7 sink (by decide),
    List.take_of_length_le (by rw [cw_bits_length])]

theorem replay_bytes_snoc {σ : Type} (wb : σ → Nat → σ) (lvb : Nat) (bs : List Nat) (c : Nat)
    (sink : σ) :
    replay_bytes wb lvb (bs ++ [c]) sink =
      replay_byte wb c (if lvb ≠ 0 then lvb else 8) 7 ((bytes_to_bits bs).foldl wb sink) := by
  induction bs generalizing sink with
  | nil => simp [replay_bytes, bytes_to_bits]
  | cons b bs ih =>
    cases bs with
    | nil =>
      simp only [List.cons_append, List.nil_append, replay_bytes, replay_byte_full,
        bytes_to_bits_single]
    | cons b2 rest =>
      show replay_bytes wb lvb (b :: b2 :: (rest ++ [c])) sink = _
      rw [replay_bytes, ← List.cons_append, ih, replay_byte_full]
      simp [bytes_to_bits, List.foldl_append]

theorem MemBitWriter.replay_flush {σ : Type} (wb : σ → Nat → σ) (m : MemBitWriter) (sink : σ)
    (h : WInv m.buf m.bits) :
    m.flush.replay_into wb sink =
      (bytes_to_bits m.bytes ++ cw_bits m.buf m.bits).foldl wb sink := by
  obtain ⟨h1, h2⟩ := h
  unfold MemBitWriter.flush MemBitWriter.replay_into
  by_cases h0 : m.bits > 0
  · simp only [h0, if_true]
    rw [replay_bytes_snoc]
    have hne : m.bits ≠ 0 := by omega
    simp only [hne, ne_eq, not_false_eq_true, if_true]
    rw [replay_byte_eq wb _ m.bits 7 _ (by omega), Nat.shiftLeft_eq]
    have hlt : m.buf * 2 ^ (8 - m.bits) < 256 := by
      have : m.buf * 2 ^ (8 - m.bits) < 2 ^ m.bits * 2 ^ (8 - m.bits) :=
        Nat.mul_lt_mul_of_pos_right h2 (by positivity)
      rw [← pow_add, show m.bits + (8 - m.bits) = 8 by omega] at this
      simpa using this
    rw [Nat.mod_eq_of_lt hlt]
    have := cw_bits_shift m.buf m.bits (8 - m.bits)
    rw [show m.bits + (8 - m.bits) = 8 by omega] at this
    rw [show 7 + 1 = 8 by rfl, this, List.take_left' (cw_bits_length _ _), List.foldl_append]
  · have hz : m.bits = 0 := by omega
    simp only [if_neg h0]
    rw [hz, cw_bits, List.append_nil]
    by_cases hb : m.bytes = []
    · simp [hb, replay_bytes, bytes_to_bits]
    · rw [if_pos hb]
      obtain ⟨bs, c, hbc⟩ : ∃ bs c, m.bytes = bs ++ [c] :=
        ⟨m.bytes.dropLast, m.bytes.getLast hb, (List.dropLast_append_getLast hb).symm⟩
      simp only [hbc]
      rw [replay_bytes_snoc]
      simp only [ne_eq, OfNat.ofNat_ne_zero, not_false_eq_true, if_true]
      rw [replay_byte_full, bytes_to_bits_append, bytes_to_bits_single, List.foldl_append]

/-! ### encode_job, stitch -/

theorem encode_bits_lt (table : Nat → Codeword) (data : List Nat) :
    ∀ b ∈ encode_bits table data, b < 2 := by
  intro b hb
  simp only [encode_bits, List.mem_flatMap] at hb
  obtain ⟨a, _, ha⟩ := hb
  exact cw_bits_lt _ _ b ha

theorem encode_fold_eq (table : Nat → Codeword) (chunk : List Nat) (m : MemBitWriter) :
    chunk.foldl (fun mbw b =>
      let cw := table b
      if cw.len ≠ 0 then mbw.write_bits cw.code cw.len else mbw) m =
    m.write_list (encode_bits table chunk) := by
  induction chunk generalizing m with
  | nil => rfl
  | cons b bs ih =>
    simp only [List.foldl_cons, encode_bits, List.flatMap_cons] at ih ⊢
    rw [ih, MemBitWriter.mem_write_list_append]
    congr 1
    by_cases hl : (table b).len = 0
    · simp [hl, cw_bits, MemBitWriter.write_list]
    · simp [hl, MemBitWriter.mem_write_bits_eq]

theorem encode_job_replay {σ : Type} (wb : σ → Nat → σ) (table : Nat → Codeword)
    (chunk : List Nat) (sink : σ) :
    (encode_job table chunk).replay_into wb sink = (encode_bits table chunk).foldl wb sink := by
  unfold encode_job
  rw [encode_fold_eq]
  have hs := MemBitWriter.mem_write_list_spec (encode_bits table chunk) (encode_bits_lt table chunk)
  rw [MemBitWriter.replay_flush wb _ sink hs.1, hs.2]

theorem stitch_map (table : Nat → Codeword) (chunks : List (List Nat)) (bw : BitWriter) :
    stitch (chunks.map (encode_job table)) bw = bw.write_list (encode_bits table chunks.flatten) := by
  induction chunks generalizing bw with
  | nil => rfl
  | cons c cs ih =>
    simp only [stitch, List.map_cons, List.foldl_cons, List.flatten_cons] at ih ⊢
    rw [ih, encode_job_replay]
    simp [encode_bits, BitWriter.write_list, List.foldl_append]

/-- Pieces `(data.drop (i * cs)).take cs` for `i < k` concatenate to `data.take (k * cs)`. -/
theorem chunks_flatten (data : List Nat) (cs k : Nat) :
    ((List.range k).map fun i => (data.drop (i * cs)).take cs).flatten = data.take (k * cs) := by
  induction k with
  | zero => simp
  | succ k ih =>
    rw [List.range_succ, List.map_append, List.flatten_append, ih]
    simp only [List.map_cons, List.map_nil, List.flatten_cons, List.flatten_nil, List.append_nil]
    rw [show (k + 1) * cs = k * cs + cs by ring, List.take_add]

theorem encode_chunks_parallel_eq (data : List Nat) (table : Nat → Codeword) (cs : Nat)
    (threads : Int) (h1 : 1 ≤ cs) (h2 : data.length + cs - 1 < 2 ^ 64) :
    ∃ chunks : List (List Nat), chunks.flatten = data ∧
      encode_chunks_parallel data table cs threads = chunks.map (encode_job table) := by
  refine ⟨(List.range ((data.length + cs - 1) / cs)).map fun i => (data.drop (i * cs)).take cs,
    ?_, ?_⟩
  · rw [chunks_flatten]
    apply List.take_of_length_le
    have := Nat.div_add_mod (data.length + cs - 1) cs
    have hm := Nat.mod_lt (data.length + cs - 1) (show cs > 0 by omega)
    have : cs * ((data.length + cs - 1) / cs) ≥ data.length := by omega
    rw [Nat.mul_comm]; exact this
  · unfold encode_chunks_parallel
    have hcs : cs ≠ 0 := by omega
    simp only [hcs, if_false, Nat.mod_eq_of_lt h2, List.map_map]
    apply List.map_congr_left
    intro i hi
    simp only [List.mem_range] at hi
    simp only [Function.comp]
    have hlt : i * cs < data.length := by
      have h3 : i + 1 ≤ (data.length + cs - 1) / cs := hi
      have h4 := Nat.mul_le_mul_right cs h3
      have h5 := Nat.div_mul_le_self (data.length + cs - 1) cs
      have : (i + 1) * cs = i * cs + cs := by ring
      omega
    have hoff : i * cs % 2 ^ 64 = i * cs := Nat.mod_eq_of_lt (by omega)
    rw [hoff]
    have hsub : (data.length + 2 ^ 64 - i * cs) % 2 ^ 64 = data.length - i * cs := by
      rw [show data.length + 2 ^ 64 - i * cs = (data.length - i * cs) + 2 ^ 64 by omega,
        Nat.add_mod_right]
      exact Nat.mod_eq_of_lt (by omega)
    rw [hsub]
    congr 1
    rw [List.take_eq_take]
    simp only [List.length_drop]
    omega

theorem stitch_eq_sequential (data : List Nat) (table : Nat → Codeword) (cs : Nat)
    (threads : Int) (bw : BitWriter) (h1 : 1 ≤ cs) (h2 : data.length + cs - 1 < 2 ^ 64) :
    stitch (encode_chunks_parallel data table cs threads) bw =
      bw.write_list (encode_bits table data) := by
  obtain ⟨chunks, hc, he⟩ := encode_chunks_parallel_eq data table cs threads h1 h2
  rw [he, stitch_map, hc]

theorem sequential_eq (data : List Nat) (table : Nat → Codeword) (bw : BitWriter) :
    data.foldl (fun w b => w.write_bits (table b).code (table b).len) bw =
      bw.write_list (encode_bits table data) := by
  induction data generalizing bw with
  | nil => rfl
  | cons b bs ih =>
    simp only [List.foldl_cons, encode_bits, List.flatMap_cons] at ih ⊢
    rw [ih, BitWriter.write_list_append, BitWriter.write_bits_eq]

theorem gather_eq (n : Node) (d : Nat) (lens : Nat → Nat) :
    gather_lengths n d lens =
      (n.leaves d).foldl (fun lens p => set_at lens p.1 (len_of_depth p.2)) lens := by
  induction n generalizing d lens with
  | null => rfl
  | mk f sym l r ihl ihr =>
    unfold gather_lengths Node.leaves
    by_cases h : sym ≥ 0
    · simp [h, len_of_depth]
    · simp only [h, if_false, List.foldl_append]
      rw [ihl, ihr]

theorem leaves_syms (n : Node) (d e : Nat) :
    (n.leaves d).map Prod.fst = (n.leaves e).map Prod.fst := by
  induction n generalizing d e with
  | null => rfl
  | mk f sym l r ihl ihr =>
    unfold Node.leaves
    by_cases h : sym ≥ 0
    · simp [h]
    · simp only [h, if_false, List.map_append]
      rw [ihl (d + 1) (e + 1), ihr (d + 1) (e + 1)]

theorem Full.leaves_pos {n : Node} (h : Full n) (d : Nat) : 1 ≤ (n.leaves d).length := by
  induction h generalizing d with
  | leaf f sym l r hs => simp [Node.leaves, hs]
  | node f sym l r hs _ _ ihl _ =>
    have := ihl (d + 1)
    simp only [Node.leaves, not_le.mpr hs, ge_iff_le, if_false, List.length_append]
    omega

theorem Full.kraft {n : Node} (h : Full n) (d : Nat) :
    ((n.leaves d).map fun p => (1 / 2 : ℚ) ^ p.2).sum = (1 / 2 : ℚ) ^ d := by
  induction h generalizing d with
  | leaf f sym l r hs => simp [Node.leaves, hs]
  | node f sym l r hs _ _ ihl ihr =>
    simp only [Node.leaves, not_le.mpr hs, ge_iff_le, if_false, List.map_append, List.sum_append]
    rw [ihl, ihr, pow_succ]; ring

theorem Full.depth_bounds {n : Node} (h : Full n) (d : Nat) :
    ∀ p ∈ n.leaves d, d ≤ p.2 ∧ p.2 + 1 ≤ d + (n.leaves d).length := by
  induction h generalizing d with
  | leaf f sym l r hs =>
    intro p hp
    simp only [Node.leaves, hs, ge_iff_le, if_true, List.mem_singleton] at hp
    subst hp
    simp [Node.leaves, hs]
  | node f sym l r hs hl hr ihl ihr =>
    intro p hp
    have h1 := hl.leaves_pos (d + 1)
    have h2 := hr.leaves_pos (d + 1)
    simp only [Node.leaves, not_le.mpr hs, ge_iff_le, if_false, List.mem_append,
      List.length_append] at hp ⊢
    rcases hp with hp | hp
    · have := ihl (d + 1) p hp; omega
    · have := ihr (d + 1) p hp; omega

theorem Full.depth_pos_of_internal {n : Node} (h : Full n) (hs : n.sym < 0) (d : Nat) :
    ∀ p ∈ n.leaves d, d + 1 ≤ p.2 := by
  cases h with
  | leaf f sym l r hs2 => simp only [Node.sym] at hs; omega
  | node f sym l r hs2 hl hr =>
    intro p hp
    simp only [Node.leaves, not_le.mpr hs2, ge_iff_le, if_false, List.mem_append] at hp
    rcases hp with hp | hp
    · exact (hl.depth_bounds (d + 1) p hp).1
    · exact (hr.depth_bounds (d + 1) p hp).1

/-! ### the queue -/

theorem perm_getD_eraseIdx (l : List Node) (i : Nat) (h : i < l.length) :
    l.Perm (l.getD i Node.null :: l.eraseIdx i) := by
  induction l generalizing i with
  | nil => simp at h
  | cons a as ih =>
    cases i with
    | zero => simp
    | succ i =>
      simp only [List.length_cons, Nat.add_lt_add_iff_right] at h
      have := ih i h
      simp only [List.getD_cons_succ, List.eraseIdx_cons_succ]
      exact (List.Perm.cons a this).trans (List.Perm.swap _ _ _)

theorem pq_top_index_lt (tie : List Node → Nat) (pq : List Node) (h : pq ≠ []) :
    pq_top_index tie pq < pq.length := by
  unfold pq_top_index
  have hpos : 0 < pq.length := List.length_pos.mpr h
  generalize hc : ((List.range pq.length).filter fun i =>
    pq.all fun e => !Cmp (pq.getD i Node.null) e) = cands
  have hsub : ∀ i ∈ cands, i < pq.length := by
    intro i hi
    rw [← hc] at hi
    exact List.mem_range.mp (List.mem_of_mem_filter hi)
  by_cases hlt : tie pq % cands.length < cands.length
  · rw [List.getD_eq_getElem _ _ hlt]
    exact hsub _ (List.getElem_mem hlt)
  · rw [List.getD_eq_default _ _ (by omega)]
    exact hpos

theorem pq_pop_perm (tie : List Node → Nat) (pq : List Node) (h : pq ≠ []) :
    pq.Perm (pq_top tie pq :: pq_pop tie pq) :=
  perm_getD_eraseIdx pq _ (pq_top_index_lt tie pq h)

theorem pq_pop_length (tie : List Node → Nat) (pq : List Node) (h : pq ≠ []) :
    (pq_pop tie pq).length = pq.length - 1 :=
  List.length_eraseIdx_of_lt (pq_top_index_lt tie pq h)

theorem pq_top_singleton (tie : List Node → Nat) (a : Node) : pq_top tie [a] = a := by
  have := pq_top_index_lt tie [a] (by simp)
  simp only [List.length_singleton, Nat.lt_one_iff] at this
  simp [pq_top, this]

theorem pq_pop_singleton (tie : List Node → Nat) (a : Node) : pq_pop tie [a] = [] := by
  have := pq_top_index_lt tie [a] (by simp)
  simp only [List.length_singleton, Nat.lt_one_iff] at this
  simp [pq_pop, this]

theorem syms_mk_internal (f : Nat) (a b : Node) :
    (Node.mk f (-1) a b).syms = a.syms ++ b.syms := by
  simp only [Node.syms, Node.leaves]
  rw [if_neg (by decide), List.map_append, leaves_syms a 1 0, leaves_syms b 1 0]

theorem merge_loop_spec (tie : List Node → Nat) (fuel : Nat) (pq : List Node)
    (hfull : ∀ n ∈ pq, Full n) (h1 : 1 ≤ pq.length) (hf : pq.length ≤ fuel + 1) :
    ∃ root, merge_loop tie fuel pq = [root] ∧ Full root ∧
      root.syms.Perm (pq.flatMap Node.syms) ∧ (root.sym < 0 ∨ pq = [root]) := by
  induction fuel generalizing pq with
  | zero =>
    obtain ⟨a, rfl⟩ : ∃ a, pq = [a] := List.length_eq_one.mp (by omega)
    exact ⟨a, rfl, hfull a (by simp), by simp, Or.inr rfl⟩
  | succ fuel ih =>
    unfold merge_loop
    by_cases hgt : pq.length > 1
    · simp only [hgt, if_true]
      have hne : pq ≠ [] := by intro h; simp [h] at hgt
      have hp1 := pq_pop_perm tie pq hne
      have hl1 := pq_pop_length tie pq hne
      have hne1 : pq_pop tie pq ≠ [] := by
        intro h; rw [h] at hl1; simp at hl1; omega
      have hp2 := pq_pop_perm tie (pq_pop tie pq) hne1
      have hl2 := pq_pop_length tie (pq_pop tie pq) hne1
      set a := pq_top tie pq
      set pq1 := pq_pop tie pq
      set b := pq_top tie pq1
      set pq2 := pq_pop tie pq1
      have hperm : pq.Perm (a :: b :: pq2) := hp1.trans (List.Perm.cons a hp2)
      have ha : Full a := hfull a (hperm.mem_iff.mpr (by simp))
      have hb : Full b := hfull b (hperm.mem_iff.mpr (by simp))
      have hnew : Full (Node.mk ((a.freq + b.freq) % 2 ^ 64) (-1) a b) :=
        Full.node _ _ _ _ (by decide) ha hb
      obtain ⟨root, hr, hfr, hpr, hsr⟩ := ih
        (pq_push pq2 (Node.mk ((a.freq + b.freq) % 2 ^ 64) (-1) a b))
        (by
          intro n hn
          simp only [pq_push, List.mem_append, List.mem_singleton] at hn
          rcases hn with hn | hn
          · exact hfull n (hperm.mem_iff.mpr (by simp [hn]))
          · rw [hn]; exact hnew)
        (by simp [pq_push])
        (by simp only [pq_push, List.length_append, List.length_singleton]; omega)
      refine ⟨root, hr, hfr, ?_, Or.inl ?_⟩
      · refine hpr.trans ?_
        have h3 := (hperm.flatMap_right Node.syms).symm
        simp only [pq_push, List.flatMap_append, List.flatMap_cons, List.flatMap_nil,
          List.append_nil, syms_mk_internal] at h3 ⊢
        refine List.Perm.trans ?_ h3
        rw [← List.append_assoc a.syms]
        exact List.perm_append_comm
      · rcases hsr with hsr | hsr
        · exact hsr
        · have : root = Node.mk ((a.freq + b.freq) % 2 ^ 64) (-1) a b := by
            have hmem : Node.mk ((a.freq + b.freq) % 2 ^ 64) (-1) a b ∈
                pq_push pq2 (Node.mk ((a.freq + b.freq) % 2 ^ 64) (-1) a b) := by
              simp [pq_push]
            rw [hsr] at hmem
            exact (List.mem_singleton.mp hmem).symm
          rw [this]; simp [Node.sym]
    · simp only [hgt, if_false]
      obtain ⟨a, rfl⟩ : ∃ a, pq = [a] := List.length_eq_one.mp (by omega)
      exact ⟨a, rfl, hfull a (by simp), by simp, Or.inr rfl⟩

theorem foldl_set_at_not_mem (g : Nat → Nat) (ps : List (Nat × Nat)) (lens : Nat → Nat) (s : Nat)
    (h : s ∉ ps.map Prod.fst) :
    (ps.foldl (fun lens p => set_at lens p.1 (g p.2)) lens) s = lens s := by
  induction ps generalizing lens with
  | nil => rfl
  | cons q qs ih =>
    simp only [List.map_cons, List.mem_cons, not_or] at h
    simp only [List.foldl_cons]
    rw [ih _ h.2]
    simp [set_at, h.1]

theorem foldl_set_at_mem (g : Nat → Nat) (ps : List (Nat × Nat)) (lens : Nat → Nat)
    (hnd : (ps.map Prod.fst).Nodup) (p : Nat × Nat) (hp : p ∈ ps) :
    (ps.foldl (fun lens p => set_at lens p.1 (g p.2)) lens) p.1 = g p.2 := by
  induction ps generalizing lens with
  | nil => simp at hp
  | cons q qs ih =>
    simp only [List.map_cons, List.nodup_cons] at hnd
    simp only [List.foldl_cons]
    rcases List.mem_cons.mp hp with h | h
    · subst h
      rw [foldl_set_at_not_mem g qs _ _ hnd.1]
      simp [set_at]
    · exact ih _ hnd.2 h

theorem present_nodup (freq : Nat → Nat) : (present freq).Nodup :=
  (List.nodup_range 256).filter _

theorem present_length_le (freq : Nat → Nat) : (present freq).length ≤ 256 := by
  have := List.length_filter_le (fun s => decide (freq s > 0)) (List.range 256)
  simpa [present] using this

theorem mem_present (freq : Nat → Nat) (s : Nat) : s ∈ present freq ↔ s < 256 ∧ 0 < freq s := by
  simp [present]

theorem initial_queue_syms (freq : Nat → Nat) (l : List Nat) :
    (l.map fun s => Node.mk (freq s) (s : Int) Node.null Node.null).flatMap Node.syms = l := by
  induction l with
  | nil => rfl
  | cons a as ih =>
    simp only [List.map_cons, List.flatMap_cons, ih]
    simp [Node.syms, Node.leaves]

theorem build_tree_spec (tie : List Node → Nat) (freq : Nat → Nat)
    (h2 : 2 ≤ (present freq).length) :
    Full (build_tree tie freq) ∧ (build_tree tie freq).sym < 0 ∧
      (build_tree tie freq).syms.Perm (present freq) := by
  unfold build_tree
  simp only
  generalize hpq : (((List.range 256).filter fun s => decide (freq s > 0)).map fun s =>
      Node.mk (freq s) (s : Int) Node.null Node.null) = pq
  have hlen : pq.length = (present freq).length := by
    rw [← hpq]; simp [present]
  have hne1 : ¬ pq.length = 1 := by omega
  simp only [hne1, if_false]
  have hfull : ∀ n ∈ pq, Full n := by
    intro n hn
    rw [← hpq] at hn
    obtain ⟨s, _, rfl⟩ := List.mem_map.mp hn
    exact Full.leaf _ _ _ _ (Int.ofNat_nonneg s)
  obtain ⟨root, hr, hfr, hpr, hsr⟩ :=
    merge_loop_spec tie pq.length pq hfull (by omega) (by omega)
  rw [hr, pq_top_singleton]
  refine ⟨hfr, ?_, ?_⟩
  · rcases hsr with h | h
    · exact h
    · rw [h] at hlen; simp at hlen; omega
  · refine hpr.trans ?_
    rw [← hpq, initial_queue_syms]
    exact List.Perm.refl _

theorem kraft_equality (tie : List Node → Nat) (freq : Nat → Nat)
    (h2 : 2 ≤ (present freq).length) :
    ((present freq).map fun s => (1 / 2 : ℚ) ^ code_lengths tie freq s).sum = 1 ∧
    (∀ s, s < 256 → 0 < freq s →
      1 ≤ code_lengths tie freq s ∧ code_lengths tie freq s ≤ 255) ∧
    (∀ s, s < 256 → freq s = 0 → code_lengths tie freq s = 0) := by
  obtain ⟨hfull, hsym, hperm⟩ := build_tree_spec tie freq h2
  set root := build_tree tie freq with hroot
  have hnd : ((root.leaves 0).map Prod.fst).Nodup :=
    (hperm.nodup_iff).mpr (present_nodup freq)
  have hlen : (root.leaves 0).length ≤ 256 := by
    have := hperm.length_eq
    simp only [Node.syms, List.length_map] at this
    rw [this]; exact present_length_le freq
  have hval : ∀ p ∈ root.leaves 0, code_lengths tie freq p.1 = p.2 ∧ 1 ≤ p.2 ∧ p.2 ≤ 255 := by
    intro p hp
    have hb := hfull.depth_bounds 0 p hp
    have hpos := hfull.depth_pos_of_internal hsym 0 p hp
    refine ⟨?_, by omega, by omega⟩
    unfold code_lengths
    rw [gather_eq, foldl_set_at_mem len_of_depth _ _ hnd p hp]
    unfold len_of_depth
    rw [if_neg (by omega), Nat.mod_eq_of_lt (by omega)]
  refine ⟨?_, ?_, ?_⟩
  · have h1 : ((present freq).map fun s => (1 / 2 : ℚ) ^ code_lengths tie freq s).sum =
        ((root.leaves 0).map fun p => (1 / 2 : ℚ) ^ p.2).sum := by
      rw [← (hperm.map fun s => (1 / 2 : ℚ) ^ code_lengths tie freq s).sum_eq]
      simp only [Node.syms, List.map_map]
      congr 1
      apply List.map_congr_left
      intro p hp
      simp only [Function.comp, (hval p hp).1]
    rw [h1, hfull.kraft 0, pow_zero]
  · intro s hs hf
    have hmem : s ∈ root.syms := hperm.mem_iff.mpr ((mem_present freq s).mpr ⟨hs, hf⟩)
    obtain ⟨p, hp, rfl⟩ := List.mem_map.mp hmem
    have := hval p hp
    omega
  · intro s hs hf
    have hnot : s ∉ (root.leaves 0).map Prod.fst := by
      intro hmem
      have := (mem_present freq s).mp (hperm.mem_iff.mp hmem)
      omega
    unfold code_lengths
    rw [gather_eq, foldl_set_at_not_mem len_of_depth _ _ _ hnot]

/-! ### little-endian fields -/

theorem write_le_eq (n x : Nat) : write_le n x = le_bytes n x := by
  induction n generalizing x with
  | zero => rfl
  | succ n ih =>
    rw [write_le, ih, le_bytes, le_bytes, List.range_succ_eq_map, List.map_cons, List.map_map]
    congr 1
    · have := Nat.and_pow_two_sub_one_eq_mod x 8
      simpa using this
    · apply List.map_congr_left
      intro i _
      simp only [Function.comp, Nat.shiftRight_eq_div_pow, pow_succ]
      rw [Nat.div_div_eq_div_mul, Nat.mul_comm (256 ^ i) 256]
      norm_num

theorem le_bytes_length (n x : Nat) : (le_bytes n x).length = n := by simp [le_bytes]

theorem le_bytes_lt (n x : Nat) : ∀ b ∈ le_bytes n x, b < 256 := by
  intro b hb
  simp only [le_bytes, List.mem_map] at hb
  obtain ⟨i, _, rfl⟩ := hb
  exact Nat.mod_lt _ (by decide)

/-! ### sorting -/

theorem insert_item_perm (x : L) (l : List L) : (insert_item x l).Perm (x :: l) := by
  induction l with
  | nil => exact List.Perm.refl _
  | cons y ys ih =>
    unfold insert_item
    by_cases h : item_lt y x
    · simp only [h, if_true]
      exact (List.Perm.cons y ih).trans (List.Perm.swap _ _ _)
    · simp only [h]
      exact List.Perm.refl _

theorem sort_items_perm (l : List L) : (sort_items l).Perm l := by
  induction l with
  | nil => exact List.Perm.refl _
  | cons x xs ih =>
    unfold sort_items
    exact (insert_item_perm x _).trans (List.Perm.cons x ih)

theorem mem_collect_items (lens : Nat → Nat) (it : L) :
    it ∈ collect_items lens ↔ it.sym < 256 ∧ 0 < lens it.sym ∧ it.len = lens it.sym := by
  simp only [collect_items, List.mem_map, List.mem_filter, List.mem_range, decide_eq_true_eq]
  constructor
  · rintro ⟨s, ⟨h1, h2⟩, rfl⟩
    exact ⟨h1, h2, rfl⟩
  · rintro ⟨h1, h2, h3⟩
    refine ⟨it.sym, ⟨h1, h2⟩, ?_⟩
    cases it
    simp only at h3
    simp [h3]

theorem mem_sorted_items (lens : Nat → Nat) (it : L) :
    it ∈ sort_items (collect_items lens) ↔
      it.sym < 256 ∧ 0 < lens it.sym ∧ it.len = lens it.sym :=
  (sort_items_perm _).mem_iff.trans (mem_collect_items lens it)

/-! ### the lengths in the code table -/

theorem canonical_loop_len (lens : Nat → Nat) (its : List L) (code prev : Nat) (out : Nat → Code)
    (h : ∀ it ∈ its, it.len = lens it.sym) (s : Nat) :
    (canonical_loop its code prev out s).len =
      if s ∈ its.map L.sym then lens s else (out s).len := by
  induction its generalizing code prev out with
  | nil => simp [canonical_loop]
  | cons it rest ih =>
    rw [canonical_loop, ih _ _ _ (fun x hx => h x (List.mem_cons_of_mem _ hx))]
    by_cases hs : s ∈ rest.map L.sym
    · simp [hs]
    · by_cases hit : s = it.sym
      · simp [hs, hit, set_at, h it (List.mem_cons_self _ _)]
      · simp [hs, hit, set_at]

theorem build_canonical_len (lens : Nat → Nat) (s : Nat) (hs : s < 256) :
    (build_canonical lens s).len = lens s := by
  unfold build_canonical
  have hmem := mem_sorted_items lens
  generalize sort_items (collect_items lens) = items at hmem
  cases items with
  | nil =>
    simp only
    by_contra hne
    have : (⟨lens s, s⟩ : L) ∈ ([] : List L) :=
      (hmem ⟨lens s, s⟩).mpr ⟨hs, Nat.pos_of_ne_zero (fun h => hne (by simp [h])), rfl⟩
    simp at this
  | cons front rest =>
    simp only
    rw [canonical_loop_len lens rest _ _ _
      (fun it hit => ((hmem it).mp (List.mem_cons_of_mem _ hit)).2.2)]
    by_cases h1 : s ∈ rest.map L.sym
    · simp [h1]
    · simp only [h1, if_false]
      by_cases h2 : s = front.sym
      · simp [set_at, h2, ((hmem front).mp (List.mem_cons_self _ _)).2.2]
      · simp only [set_at, h2, if_false]
        by_contra hne
        have : (⟨lens s, s⟩ : L) ∈ front :: rest :=
          (hmem ⟨lens s, s⟩).mpr ⟨hs, Nat.pos_of_ne_zero (fun h => hne (by simp [h])), rfl⟩
        rcases List.mem_cons.mp this with h | h
        · exact h2 (by rw [← h])
        · exact h1 (List.mem_map.mpr ⟨_, h, rfl⟩)

/-! ### bytes appended by the writer -/

theorem bytes_to_bits_length (f : List Nat) : (bytes_to_bits f).length = 8 * f.length := by
  induction f with
  | nil => rfl
  | cons c cs ih =>
    have : bytes_to_bits (c :: cs) = cw_bits c 8 ++ bytes_to_bits cs := by simp [bytes_to_bits]
    rw [this, List.length_append, cw_bits_length, ih, List.length_cons]; ring

theorem BitWriter.write_bit_f (w : BitWriter) (b : Nat) :
    ∃ ext, (w.write_bit b).f = w.f ++ ext ∧ ∀ c ∈ ext, c < 256 := by
  unfold BitWriter.write_bit
  by_cases h : w.bits + 1 = 8
  · simp only [h, if_true]
    exact ⟨_, rfl, by
      intro c hc
      rw [List.mem_singleton.mp hc]
      exact Nat.mod_lt _ (by decide)⟩
  · simp only [h, if_false]
    exact ⟨[], by simp, by simp⟩

theorem BitWriter.write_list_f (w : BitWriter) (bits : List Nat) :
    ∃ ext, (w.write_list bits).f = w.f ++ ext ∧ ∀ c ∈ ext, c < 256 := by
  induction bits generalizing w with
  | nil => exact ⟨[], by simp [BitWriter.write_list], by simp⟩
  | cons b bs ih =>
    obtain ⟨e1, h1, h1'⟩ := w.write_bit_f b
    obtain ⟨e2, h2, h2'⟩ := ih (w.write_bit b)
    refine ⟨e1 ++ e2, ?_, ?_⟩
    · simp only [BitWriter.write_list, List.foldl_cons] at h2 ⊢
      rw [h2, h1, List.append_assoc]
    · intro c hc
      rcases List.mem_append.mp hc with h | h
      · exact h1' c h
      · exact h2' c h

theorem BitWriter.flush_f (w : BitWriter) :
    ∃ ext, w.flush.f = w.f ++ ext ∧ ∀ c ∈ ext, c < 256 := by
  unfold BitWriter.flush
  by_cases h : w.bits > 0
  · simp only [h, if_true]
    exact ⟨_, rfl, by
      intro c hc
      rw [List.mem_singleton.mp hc]
      exact Nat.mod_lt _ (by decide)⟩
  · simp only [h, if_false]
    exact ⟨[], by simp, by simp⟩

/-- What a writer started on a file `fo` has appended after writing `bits` and flushing. -/
theorem BitWriter.write_flush_spec (fo : List Nat) (bits : List Nat) (h : ∀ b ∈ bits, b < 2) :
    ∃ payload,
      ((BitWriter.mk fo 0 0).write_list bits).flush.f = fo ++ payload ∧
      (∀ c ∈ payload, c < 256) ∧
      bytes_to_bits payload = bits ++ List.replicate ((8 - bits.length % 8) % 8) 0 := by
  have h0 : WInv (BitWriter.mk fo 0 0).buf (BitWriter.mk fo 0 0).bits :=
    ⟨show 0 < 8 by decide, show 0 < 2 ^ 0 by decide⟩
  have hs := BitWriter.write_list_spec (BitWriter.mk fo 0 0) bits h0
  rw [map_mod_two_of_lt bits h] at hs
  set w := (BitWriter.mk fo 0 0).write_list bits with hw
  obtain ⟨e1, h1, h1'⟩ := (BitWriter.mk fo 0 0).write_list_f bits
  obtain ⟨e2, h2, h2'⟩ := w.flush_f
  have hfl := w.flush_spec hs.1
  rw [hs.2] at hfl
  simp only [cw_bits, List.append_nil] at hfl hs
  have hbits : w.bits = bits.length % 8 := by
    have hl := congrArg List.length hs.2
    rw [← hw] at h1
    simp only [List.length_append, bytes_to_bits_length, cw_bits_length, h1] at hl
    have := hs.1.1
    omega
  refine ⟨e1 ++ e2, ?_, ?_, ?_⟩
  · rw [h2, ← hw] at *
    rw [h1, List.append_assoc]
  · intro c hc
    rcases List.mem_append.mp hc with h | h
    · exact h1' c h
    · exact h2' c h
  · rw [h2] at hfl
    rw [← hw] at h1
    rw [h1, List.append_assoc, bytes_to_bits_append, List.append_assoc] at hfl
    have := List.append_cancel_left hfl
    rw [this, hbits]

theorem total_bits_mod (lens : Nat → Nat) (data : List Nat) (t0 : Nat) :
    (data.foldl (fun t b => (t + lens b) % 2 ^ 64) t0) % 8 = (t0 + (data.map lens).sum) % 8 := by
  induction data generalizing t0 with
  | nil => simp
  | cons b bs ih =>
    simp only [List.foldl_cons, List.map_cons, List.sum_cons]
    rw [ih]
    omega

theorem encode_bits_length (table : Nat → Codeword) (data : List Nat) :
    (encode_bits table data).length = (data.map fun b => (table b).len).sum := by
  induction data with
  | nil => rfl
  | cons b bs ih =>
    simp only [encode_bits, List.flatMap_cons, List.length_append, cw_bits_length, List.map_cons,
      List.sum_cons] at ih ⊢
    rw [ih]

theorem code_table_len_sum (tie : List Node → Nat) (data : List Nat) (l : List Nat)
    (h : ∀ b ∈ l, b < 256) :
    (l.map fun b => (code_table tie data b).len).sum =
      (l.map (code_lengths tie (count_freq data))).sum := by
  induction l with
  | nil => rfl
  | cons b bs ih =>
    simp only [List.map_cons, List.sum_cons]
    rw [ih (fun x hx => h x (List.mem_cons_of_mem _ hx))]
    congr 1
    exact build_canonical_len _ b (h b (List.mem_cons_self _ _))

theorem compress_file_spec (tie : List Node → Nat) (hw : Nat) (data : List Nat)
    (hne : data ≠ []) (hv : ValidInput data) :
    ∃ payload,
      compress_file tie hw data =
        (0, MAGIC ++ le_bytes 8 data.length ++
          (List.range 256).map (code_lengths tie (count_freq data)) ++
          [(8 - (encode_bits (code_table tie data) data).length % 8) % 8] ++
          le_bytes 4 (crc32 data) ++ payload) ∧
      (∀ c ∈ payload, c < 256) ∧
      bytes_to_bits payload = encode_bits (code_table tie data) data ++
        List.replicate ((8 - (encode_bits (code_table tie data) data).length % 8) % 8) 0 := by
  obtain ⟨hlen, hbytes⟩ := hv
  have hlen64 : data.length % 2 ^ 64 = data.length := Nat.mod_eq_of_lt (by omega)
  have hpos : data.length ≠ 0 := fun h => hne (List.length_eq_zero.mp h)
  obtain ⟨payload, hp1, hp2, hp3⟩ := BitWriter.write_flush_spec
    (MAGIC ++ le_bytes 8 data.length ++
      (List.range 256).map (code_lengths tie (count_freq data)) ++
      [(8 - (encode_bits (code_table tie data) data).length % 8) % 8] ++
      le_bytes 4 (crc32 data))
    (encode_bits (code_table tie data) data) (encode_bits_lt _ _)
  refine ⟨payload, ?_, hp2, hp3⟩
  unfold compress_file
  simp only [hlen64, hpos, if_false]
  rw [stitch_eq_sequential data _ (1 <<< 20) _ _ (by decide)
    (by rw [show (1 <<< 20 : Nat) = 1048576 by rfl]; omega)]
  have hpad : (8 - (data.foldl (fun t b => (t + code_lengths tie (count_freq data) b) % 2 ^ 64) 0)
      % 8) % 8 % 256 = (8 - (encode_bits (code_table tie data) data).length % 8) % 8 := by
    rw [total_bits_mod, encode_bits_length, code_table_len_sum tie data data hbytes]
    simp only [Nat.zero_add]
    omega
  rw [hpad]
  simp only [write_u64_le, write_u32_le, write_le_eq]
  rw [← hp1]
  rfl

/-! ### reader -/

theorem byte_shift : ∀ c < 256,
    cw_bits c 8 = ((c >>> 7) &&& 1) :: (cw_bits ((c <<< 1) % 256) 8).take 7 := by
  decide!

theorem take_byte_shift (c k : Nat) (hc : c < 256) (hk : k ≤ 7) :
    (cw_bits c 8).take (k + 1) = ((c >>> 7) &&& 1) :: (cw_bits ((c <<< 1) % 256) 8).take k := by
  rw [byte_shift c hc, List.take_succ_cons, List.take_take, min_eq_left hk]

theorem BitReader.read_bit_eof (r : BitReader) (h : RInv r) (hrem : r.remaining = []) :
    r.read_bit = (-1, r) := by
  unfold BitReader.remaining at hrem
  have h1 := (List.append_eq_nil.mp hrem).1
  have h2 := (List.append_eq_nil.mp hrem).2
  have hb : r.bits = 0 := by
    by_contra hne
    have := congrArg List.length h1
    simp only [List.length_take, cw_bits_length, List.length_nil] at this
    have := h.1
    omega
  have hf : r.f = [] := by
    have := congrArg List.length h2
    simp only [bytes_to_bits_length, List.length_nil] at this
    exact List.length_eq_zero.mp (by omega)
  unfold BitReader.read_bit
  simp [hb, hf]

theorem BitReader.read_bit_cons (r : BitReader) (h : RInv r) (b : Nat) (rest : List Nat)
    (hrem : r.remaining = b :: rest) :
    r.read_bit.1 = (b : Int) ∧ RInv r.read_bit.2 ∧ r.read_bit.2.remaining = rest := by
  obtain ⟨h1, h2, h3⟩ := h
  unfold BitReader.remaining at hrem
  unfold BitReader.read_bit
  by_cases hb : r.bits = 0
  · simp only [hb, if_true]
    cases hf : r.f with
    | nil => simp [hb, hf, bytes_to_bits] at hrem
    | cons c cs =>
      have hc : c < 256 := h3 c (by rw [hf]; exact List.mem_cons_self _ _)
      have hcs : ∀ x ∈ cs, x < 256 := fun x hx => h3 x (by rw [hf]; exact List.mem_cons_of_mem _ hx)
      simp only [hb, hf, List.take_zero, List.nil_append] at hrem
      have hbb : bytes_to_bits (c :: cs) = cw_bits c 8 ++ bytes_to_bits cs := by
        simp [bytes_to_bits]
      rw [hbb, byte_shift c hc, List.cons_append] at hrem
      have hhead := (List.cons.inj hrem).1
      have htail := (List.cons.inj hrem).2
      simp only [Nat.mod_eq_of_lt hc]
      refine ⟨by rw [hhead], ⟨by simp, Nat.mod_lt _ (by decide), hcs⟩, ?_⟩
      simp only [BitReader.remaining]
      exact htail
  · simp only [hb, if_false]
    obtain ⟨k, hk⟩ : ∃ k, r.bits = k + 1 := ⟨r.bits - 1, by omega⟩
    rw [hk, take_byte_shift r.buf k h2 (by omega), List.cons_append] at hrem
    have hhead := (List.cons.inj hrem).1
    have htail := (List.cons.inj hrem).2
    refine ⟨by rw [hhead], ⟨by simp only; omega, Nat.mod_lt _ (by decide), h3⟩, ?_⟩
    simp only [BitReader.remaining, hk, Nat.add_sub_cancel]
    exact htail

theorem remaining_bits_lt (r : BitReader) : ∀ b ∈ r.remaining, b < 2 := by
  intro b hb
  rcases List.mem_append.mp hb with h | h
  · exact cw_bits_lt _ _ b (List.mem_of_mem_take h)
  · simp only [bytes_to_bits, List.mem_flatMap] at h
    obtain ⟨c, _, hc⟩ := h
    exact cw_bits_lt _ _ b hc

/-! ### paths in the trie -/

theorem sym_at_null (w : List Nat) : DecNode.sym_at .null w = -1 := by
  cases w <;> rfl

theorem sym_at_fresh (w : List Nat) : DecNode.sym_at DecNode.fresh w = -1 := by
  cases w with
  | nil => rfl
  | cons b w => simp [DecNode.fresh, DecNode.sym_at, sym_at_null]

theorem sym_at_orFresh (n : DecNode) (w : List Nat) :
    DecNode.sym_at n.orFresh w = DecNode.sym_at n w := by
  cases n with
  | null => simp [DecNode.orFresh, sym_at_null, sym_at_fresh]
  | mk c0 c1 s => rfl

theorem orFresh_ne_null (n : DecNode) : n.orFresh ≠ .null := by
  cases n <;> simp [DecNode.orFresh, DecNode.fresh]

theorem insert_code_ne_null (code : Nat) (sym : Int) (n : Nat) (root : DecNode)
    (h : root ≠ .null) : insert_code code sym n root ≠ .null := by
  cases root with
  | null => exact absurd rfl h
  | mk c0 c1 s =>
    cases n with
    | zero => simp [insert_code]
    | succ n =>
      unfold insert_code
      split <;> simp

theorem sym_at_insert (code : Nat) (sym : Int) (n : Nat) (root : DecNode) (h : root ≠ .null)
    (w : List Nat) (hw : ∀ b ∈ w, b < 2) :
    DecNode.sym_at (insert_code code sym n root) w =
      if w = cw_bits code n then sym else DecNode.sym_at root w := by
  induction n generalizing root w with
  | zero =>
    cases root with
    | null => exact absurd rfl h
    | mk c0 c1 s =>
      cases w with
      | nil => simp [insert_code, DecNode.sym_at, cw_bits]
      | cons b w => simp [insert_code, DecNode.sym_at, cw_bits]
  | succ n ih =>
    cases root with
    | null => exact absurd rfl h
    | mk c0 c1 s =>
      have hbit : (code >>> n) &&& 1 < 2 := by rw [bit_arith]; exact Nat.mod_lt _ (by decide)
      cases w with
      | nil =>
        unfold insert_code
        split <;> simp [DecNode.sym_at, cw_bits]
      | cons b w =>
        have hb : b < 2 := hw b (List.mem_cons_self _ _)
        have hw' : ∀ x ∈ w, x < 2 := fun x hx => hw x (List.mem_cons_of_mem _ hx)
        unfold insert_code
        by_cases h0 : (code >>> n) &&& 1 = 0
        · simp only [h0, if_true, DecNode.sym_at, cw_bits, List.cons.injEq]
          by_cases hb0 : b = 0
          · simp only [hb0, if_true, true_and]
            rw [ih _ (orFresh_ne_null _) w hw', sym_at_orFresh]
          · simp [hb0]
        · have h1 : (code >>> n) &&& 1 = 1 := by omega
          simp only [h0, if_false, DecNode.sym_at, cw_bits, List.cons.injEq, h1]
          by_cases hb0 : b = 0
          · simp [hb0]
          · have hb1 : b = 1 := by omega
            simp only [hb0, if_false, hb1, true_and]
            rw [ih _ (orFresh_ne_null _) w hw', sym_at_orFresh]
            simp

/-! ### the trie mirrors the code table -/

theorem trie_step (code len sym : Nat) (root : DecNode) (out : Nat → Code)
    (hroot : root ≠ .null) (hsym : sym < 256) (hok : TrieOK root out)
    (hnew : ∀ w : List Nat, (∀ b ∈ w, b < 2) → root.sym_at w ≠ (sym : Int)) :
    TrieOK (insert_code code (sym : Int) len root) (set_at out sym { code := code, len := len }) := by
  intro w hw hnn
  rw [sym_at_insert code _ len root hroot w hw] at hnn ⊢
  by_cases hc : w = cw_bits code len
  · rw [if_pos hc]
    exact ⟨by exact_mod_cast hsym, by simp [set_at, hc]⟩
  · simp only [hc, if_false] at hnn ⊢
    obtain ⟨h1, h2⟩ := hok w hw hnn
    refine ⟨h1, ?_⟩
    have hne : (root.sym_at w).toNat ≠ sym := by
      intro he
      apply hnew w hw
      rw [← he, Int.toNat_of_nonneg hnn]
    simp only [set_at, hne, if_false]
    exact h2

theorem trie_loop (its : List L) (code prev : Nat) (root : DecNode) (out : Nat → Code)
    (hroot : root ≠ .null) (hnd : (its.map L.sym).Nodup) (hlt : ∀ it ∈ its, it.sym < 256)
    (hok : TrieOK root out)
    (hnew : ∀ it ∈ its, ∀ w : List Nat, (∀ b ∈ w, b < 2) → root.sym_at w ≠ (it.sym : Int)) :
    decode_tree_loop its code prev root ≠ .null ∧
    TrieOK (decode_tree_loop its code prev root) (canonical_loop its code prev out) := by
  induction its generalizing code prev root out with
  | nil => exact ⟨hroot, hok⟩
  | cons it rest ih =>
    simp only [List.map_cons, List.nodup_cons] at hnd
    unfold decode_tree_loop canonical_loop
    simp only
    apply ih
    · exact insert_code_ne_null _ _ _ _ hroot
    · exact hnd.2
    · exact fun x hx => hlt x (List.mem_cons_of_mem _ hx)
    · exact trie_step _ _ _ _ _ hroot (hlt it (List.mem_cons_self _ _)) hok
        (hnew it (List.mem_cons_self _ _))
    · intro x hx w hw
      rw [sym_at_insert _ _ _ root hroot w hw]
      by_cases hc : w = cw_bits (next_code code prev it).1 it.len
      · simp only [hc, if_true]
        intro he
        have : it.sym = x.sym := by exact_mod_cast he
        exact hnd.1 (this ▸ List.mem_map.mpr ⟨x, hx, rfl⟩)
      · simp only [hc, if_false]
        exact hnew x (List.mem_cons_of_mem _ hx) w hw

theorem collect_items_nodup (lens : Nat → Nat) : ((collect_items lens).map L.sym).Nodup := by
  unfold collect_items
  rw [List.map_map]
  have : (L.sym ∘ fun s => ({ len := lens s, sym := s } : L)) = id := rfl
  rw [this, List.map_id]
  exact (List.nodup_range 256).filter _

theorem sorted_items_nodup (lens : Nat → Nat) :
    ((sort_items (collect_items lens)).map L.sym).Nodup :=
  (((sort_items_perm (collect_items lens)).map L.sym).nodup_iff).mpr (collect_items_nodup lens)

theorem build_decode_tree_ok (lens : Nat → Nat) :
    build_decode_tree lens ≠ .null ∧ TrieOK (build_decode_tree lens) (build_canonical lens) := by
  unfold build_decode_tree build_canonical
  have hnd := sorted_items_nodup lens
  have hmem := mem_sorted_items lens
  generalize sort_items (collect_items lens) = items at hnd hmem
  have hfresh : TrieOK DecNode.fresh (fun _ => ({ code := 0, len := 0 } : Code)) := by
    intro w _ h
    rw [sym_at_fresh] at h
    exact absurd h (by decide)
  cases items with
  | nil => exact ⟨by simp [DecNode.fresh], hfresh⟩
  | cons front rest =>
    simp only [List.map_cons, List.nodup_cons] at hnd
    simp only
    have hf : DecNode.fresh ≠ .null := by simp [DecNode.fresh]
    apply trie_loop
    · exact insert_code_ne_null _ _ _ _ hf
    · exact hnd.2
    · exact fun x hx => ((hmem x).mp (List.mem_cons_of_mem _ hx)).1
    · exact trie_step _ _ _ _ _ hf ((hmem front).mp (List.mem_cons_self _ _)).1 hfresh
        (by intro w _; rw [sym_at_fresh]; exact fun h => absurd h (by omega))
    · intro x hx w hw
      rw [sym_at_insert _ _ _ _ hf w hw]
      by_cases hc : w = cw_bits 0 front.len
      · simp only [hc, if_true]
        intro he
        have : front.sym = x.sym := by exact_mod_cast he
        exact hnd.1 (this ▸ List.mem_map.mpr ⟨x, hx, rfl⟩)
      · simp only [hc, if_false, sym_at_fresh]
        exact fun h => absurd h (by omega)

/-! ### the decoder follows the trie -/

theorem descend_sound (root : DecNode) (br : BitReader) (hr : RInv br) (sym : Int)
    (br2 : BitReader) (h : descend root br = .ok (sym, br2)) :
    ∃ w, br.remaining = w ++ br2.remaining ∧ (∀ b ∈ w, b < 2) ∧ root.sym_at w = sym ∧
      0 ≤ sym ∧ RInv br2 := by
  induction root generalizing br with
  | null => simp [descend] at h
  | mk c0 c1 s ih0 ih1 =>
    unfold descend at h
    by_cases hs : s < 0
    · simp only [hs, if_true] at h
      cases hrem : br.remaining with
      | nil =>
        rw [br.read_bit_eof hr hrem] at h
        simp at h
      | cons b rest =>
        obtain ⟨hb1, hb2, hb3⟩ := br.read_bit_cons hr b rest hrem
        have hblt : b < 2 := remaining_bits_lt br b (by rw [hrem]; exact List.mem_cons_self _ _)
        have hnn : ¬ br.read_bit.1 < 0 := by rw [hb1]; omega
        simp only [hnn, if_false] at h
        by_cases hb0 : br.read_bit.1 = 0
        · simp only [hb0, if_true] at h
          have hbz : b = 0 := by rw [hb1] at hb0; exact_mod_cast hb0
          cases c0 with
          | null => simp at h
          | mk a b' s' =>
            simp only at h
            obtain ⟨w, hw1, hw2, hw3, hw4, hw5⟩ := ih0 br.read_bit.2 hb2 h
            refine ⟨b :: w, ?_, ?_, ?_, hw4, hw5⟩
            · rw [List.cons_append, ← hw1, hb3]
            · intro x hx
              rcases List.mem_cons.mp hx with hx | hx
              · rw [hx]; exact hblt
              · exact hw2 x hx
            · simp only [DecNode.sym_at, hbz, if_true]
              exact hw3
        · simp only [hb0, if_false] at h
          have hbz : b ≠ 0 := by
            intro hz; apply hb0; rw [hb1, hz]; rfl
          cases c1 with
          | null => simp at h
          | mk a b' s' =>
            simp only at h
            obtain ⟨w, hw1, hw2, hw3, hw4, hw5⟩ := ih1 br.read_bit.2 hb2 h
            refine ⟨b :: w, ?_, ?_, ?_, hw4, hw5⟩
            · rw [List.cons_append, ← hw1, hb3]
            · intro x hx
              rcases List.mem_cons.mp hx with hx | hx
              · rw [hx]; exact hblt
              · exact hw2 x hx
            · simp only [DecNode.sym_at, hbz, if_false]
              exact hw3
    · simp only [hs, if_false] at h
      have h' := Except.ok.inj h
      have h1 : s = sym := (Prod.mk.inj h').1
      have h2 : br = br2 := (Prod.mk.inj h').2
      subst h1 h2
      exact ⟨[], by simp, by simp, rfl, by omega, hr⟩

theorem descend_error_ne_zero (root : DecNode) (br : BitReader) (st : Nat)
    (h : descend root br = .error st) : st ≠ 0 := by
  induction root generalizing br with
  | null =>
    simp only [descend, Except.error.injEq] at h
    omega
  | mk c0 c1 s ih0 ih1 =>
    unfold descend at h
    by_cases hs : s < 0
    · simp only [hs, if_true] at h
      by_cases h1 : br.read_bit.1 < 0
      · simp only [h1, if_true, Except.error.injEq] at h
        omega
      · simp only [h1, if_false] at h
        by_cases h2 : br.read_bit.1 = 0
        · simp only [h2, if_true] at h
          cases c0 with
          | null =>
            simp only [Except.error.injEq] at h
            omega
          | mk a b s' => exact ih0 _ h
        · simp only [h2, if_false] at h
          cases c1 with
          | null =>
            simp only [Except.error.injEq] at h
            omega
          | mk a b s' => exact ih1 _ h
    · simp [hs] at h

theorem decode_loop_sound (root : DecNode) (table : Nat → Code) (hok : TrieOK root table)
    (n : Nat) (br : BitReader) (hr : RInv br) (crc : Nat) (out : List Nat)
    (crc2 : Nat) (out2 : List Nat) (h : decode_loop root n br crc out = (0, crc2, out2)) :
    ∃ new rest, out2 = out ++ new ∧ new.length = n ∧ crc2 = crc32_update crc new ∧
      br.remaining = (new.flatMap fun b => cw_bits (table b).code (table b).len) ++ rest := by
  induction n generalizing br crc out with
  | zero =>
    simp only [decode_loop, Prod.mk.injEq, true_and] at h
    exact ⟨[], br.remaining, by simp [h.2], rfl, by simp [crc32_update, h.1], by simp⟩
  | succ n ih =>
    unfold decode_loop at h
    cases hd : descend root br with
    | error st =>
      rw [hd] at h
      simp only [Prod.mk.injEq] at h
      exact absurd h.1.symm (descend_error_ne_zero root br st hd).symm
    | ok r =>
      obtain ⟨sym, br2⟩ := r
      rw [hd] at h
      simp only at h
      obtain ⟨w, hw1, hw2, hw3, hw4, hw5⟩ := descend_sound root br hr sym br2 hd
      obtain ⟨new, rest, h1, h2, h3, h4⟩ := ih br2 hw5 _ _ h
      have hsym := hok w hw2 (by rw [hw3]; exact hw4)
      rw [hw3] at hsym
      have hmod : (sym % 256).toNat = sym.toNat := by
        rw [Int.emod_eq_of_lt hw4 hsym.1]
      refine ⟨sym.toNat :: new, rest, ?_, ?_, ?_, ?_⟩
      · rw [h1, hmod]; simp
      · simp [h2]
      · rw [h3, hmod]; simp [crc32_update]
      · rw [hw1, h4, List.flatMap_cons, List.append_assoc, ← hsym.2]

/-! ### reading the header back -/

theorem le_bytes_succ (k m : Nat) : le_bytes (k + 1) m = (m % 256) :: le_bytes k (m / 256) := by
  rw [le_bytes, le_bytes, List.range_succ_eq_map, List.map_cons, List.map_map]
  congr 1
  · simp
  · apply List.map_congr_left
    intro i _
    simp only [Function.comp, pow_succ]
    rw [Nat.div_div_eq_div_mul, Nat.mul_comm (256 ^ i) 256]

theorem lor_shift_eq (x c i : Nat) (hx : x < 256 ^ i) : x ||| (c <<< (8 * i)) = x + 256 ^ i * c := by
  have h256 : (256 : Nat) ^ i = 2 ^ (8 * i) := by
    rw [show (256 : Nat) = 2 ^ 8 by norm_num, ← pow_mul]
  rw [h256] at hx ⊢
  rw [Nat.shiftLeft_eq, Nat.lor_comm, Nat.mul_comm c, ← Nat.mul_add_lt_is_or hx c, Nat.add_comm]

theorem read_le_le_bytes (k i x m : Nat) (rest : List Nat) (hx : x < 256 ^ i)
    (hm : m < 256 ^ k) :
    read_le k i x (le_bytes k m ++ rest) = (x + 256 ^ i * m, rest) := by
  induction k generalizing i x m with
  | zero =>
    have : m = 0 := by simpa using hm
    simp [read_le, le_bytes, this]
  | succ k ih =>
    rw [le_bytes_succ, List.cons_append, read_le, lor_shift_eq x _ i hx]
    have hc : m % 256 < 256 := Nat.mod_lt _ (by decide)
    have hx' : x + 256 ^ i * (m % 256) < 256 ^ (i + 1) := by
      rw [pow_succ]
      have : 256 ^ i * (m % 256) ≤ 256 ^ i * 255 := Nat.mul_le_mul_left _ (by omega)
      omega
    have hm' : m / 256 < 256 ^ k := by
      rw [Nat.div_lt_iff_lt_mul (by decide)]
      rw [pow_succ] at hm
      exact hm
    rw [ih (i + 1) _ (m / 256) hx' hm']
    congr 1
    rw [pow_succ, Nat.add_assoc, Nat.mul_assoc, ← Nat.mul_add, Nat.mod_add_div]

theorem read_u64_le_spec (n : Nat) (rest : List Nat) (h : n < 2 ^ 64) :
    read_u64_le (le_bytes 8 n ++ rest) = (n, rest) := by
  rw [read_u64_le, read_le_le_bytes 8 0 0 n rest (by decide) (by norm_num; omega)]
  simp

theorem read_u32_le_spec (n : Nat) (rest : List Nat) (h : n < 2 ^ 32) :
    read_u32_le (le_bytes 4 n ++ rest) = (n, rest) := by
  rw [read_u32_le, read_le_le_bytes 4 0 0 n rest (by decide) (by norm_num; omega)]
  simp

theorem decompress_file_spec (n : Nat) (lens : List Nat) (pad crc : Nat) (payload : List Nat)
    (hn : n < 2 ^ 64) (hn0 : n ≠ 0) (hl : lens.length = 256) (hpad : pad ≤ 7)
    (hcrc : crc < 2 ^ 32) :
    decompress_file (MAGIC ++ le_bytes 8 n ++ lens ++ [pad] ++ le_bytes 4 crc ++ payload) =
      decode_payload (fun s => lens.getD s 0) n crc payload := by
  unfold decompress_file
  have h1 : (MAGIC ++ le_bytes 8 n ++ lens ++ [pad] ++ le_bytes 4 crc ++ payload).take 4 = MAGIC := by
    simp only [List.append_assoc]
    exact List.take_left' rfl
  have h2 : (MAGIC ++ le_bytes 8 n ++ lens ++ [pad] ++ le_bytes 4 crc ++ payload).drop 4 =
      le_bytes 8 n ++ (lens ++ ([pad] ++ (le_bytes 4 crc ++ payload))) := by
    simp only [List.append_assoc]
    exact List.drop_left' rfl
  simp only [h1, h2, read_u64_le_spec n _ hn]
  have h3 : (lens ++ ([pad] ++ (le_bytes 4 crc ++ payload))).take 256 = lens :=
    List.take_left' hl
  have h4 : (lens ++ ([pad] ++ (le_bytes 4 crc ++ payload))).drop 256 =
      pad :: (le_bytes 4 crc ++ payload) := List.drop_left' hl
  simp only [h3, h4, hl, read_u32_le_spec crc _ hcrc]
  have hm : ¬ (MAGIC.length ≠ 4 ∨ MAGIC ≠ MAGIC) := by simp [MAGIC]
  rw [if_neg hm, if_neg (by simp), if_neg (by omega), if_neg hn0]
  obtain ⟨hnull, -⟩ := build_decode_tree_ok (fun s => lens.getD s 0)
  unfold decode_payload
  cases hroot : build_decode_tree (fun s => lens.getD s 0) with
  | null => exact absurd hroot hnull
  | mk c0 c1 s => rfl

/-! ### the tables depend on the 256 length bytes only -/

theorem collect_items_congr (lens lens2 : Nat → Nat) (h : ∀ s < 256, lens s = lens2 s) :
    collect_items lens = collect_items lens2 := by
  unfold collect_items
  have hf : (List.range 256).filter (fun s => decide (lens s > 0)) =
      (List.range 256).filter (fun s => decide (lens2 s > 0)) := by
    apply List.filter_congr
    intro s hs
    rw [h s (List.mem_range.mp hs)]
  rw [hf]
  apply List.map_congr_left
  intro s hs
  rw [h s (List.mem_range.mp (List.mem_of_mem_filter hs))]

theorem build_decode_tree_congr (lens lens2 : Nat → Nat) (h : ∀ s < 256, lens s = lens2 s) :
    build_decode_tree lens = build_decode_tree lens2 := by
  unfold build_decode_tree
  rw [collect_items_congr lens lens2 h]

theorem build_canonical_congr (lens lens2 : Nat → Nat) (h : ∀ s < 256, lens s = lens2 s) :
    build_canonical lens = build_canonical lens2 := by
  unfold build_canonical
  rw [collect_items_congr lens lens2 h]

theorem getD_map_range (lens : Nat → Nat) (s : Nat) (hs : s < 256) :
    ((List.range 256).map lens).getD s 0 = lens s := by
  rw [List.getD_eq_getElem _ _ (by simpa using hs)]
  simp

/-! ### the checksum is a 32-bit value -/

theorem crc_step_lt (crc : Nat) (h : crc < 2 ^ 32) : crc_step crc < 2 ^ 32 := by
  unfold crc_step
  apply Nat.xor_lt_two_pow
  · rw [Nat.shiftRight_eq_div_pow]
    exact lt_of_le_of_lt (Nat.div_le_self _ _) h
  · exact lt_of_le_of_lt Nat.and_le_left (by norm_num)

theorem crc_byte_lt (crc b : Nat) (h : crc < 2 ^ 32) (hb : b < 256) : crc_byte crc b < 2 ^ 32 := by
  unfold crc_byte
  have h0 : crc ^^^ b < 2 ^ 32 := Nat.xor_lt_two_pow h (by omega)
  generalize crc ^^^ b = c at h0
  generalize List.range 8 = l
  induction l generalizing c with
  | nil => exact h0
  | cons x xs ih => exact ih _ (crc_step_lt c h0)

theorem crc32_update_lt (crc : Nat) (data : List Nat) (h : crc < 2 ^ 32)
    (hb : ∀ b ∈ data, b < 256) : crc32_update crc data < 2 ^ 32 := by
  unfold crc32_update
  induction data generalizing crc with
  | nil => exact h
  | cons b bs ih =>
    exact ih _ (crc_byte_lt crc b h (hb b (List.mem_cons_self _ _)))
      (fun x hx => hb x (List.mem_cons_of_mem _ hx))

theorem crc32_lt (data : List Nat) (hb : ∀ b ∈ data, b < 256) : crc32 data < 2 ^ 32 := by
  unfold crc32
  exact Nat.xor_lt_two_pow (crc32_update_lt _ _ (by norm_num) hb) (by norm_num)

theorem xor_mask_cancel (a b : Nat) (h : a ^^^ 0xFFFFFFFF = b ^^^ 0xFFFFFFFF) : a = b := by
  have := congrArg (· ^^^ 0xFFFFFFFF) h
  simpa [Nat.xor_assoc] using this

/-! ### flipping one bit of a byte sequence -/

theorem flip_byte_lt : ∀ c < 256, ∀ k < 8, c ^^^ (1 <<< k) < 256 := by decide!

theorem flip_byte_bit : ∀ c < 256, ∀ k < 8,
    (cw_bits (c ^^^ (1 <<< k)) 8)[7 - k]? ≠ (cw_bits c 8)[7 - k]? := by decide!

theorem bytes_to_bits_getElem? (f : List Nat) (j t : Nat) (hj : j < f.length) (ht : t < 8) :
    (bytes_to_bits f)[8 * j + t]? = (cw_bits (f.getD j 0) 8)[t]? := by
  induction f generalizing j with
  | nil => simp at hj
  | cons c cs ih =>
    have hbb : bytes_to_bits (c :: cs) = cw_bits c 8 ++ bytes_to_bits cs := by
      simp [bytes_to_bits]
    rw [hbb]
    cases j with
    | zero =>
      rw [List.getElem?_append_left (by rw [cw_bits_length]; omega)]
      simp
    | succ j =>
      rw [List.getElem?_append_right (by rw [cw_bits_length]; omega), cw_bits_length,
        show 8 * (j + 1) + t - 8 = 8 * j + t by omega, List.getD_cons_succ]
      exact ih j (by simpa using hj)

theorem flip_bit_differs (f : List Nat) (j k : Nat) (hf : ∀ c ∈ f, c < 256) (hj : j < f.length)
    (hk : k < 8) :
    (bytes_to_bits (flip_bit f j k))[8 * j + (7 - k)]? ≠ (bytes_to_bits f)[8 * j + (7 - k)]? := by
  have hlen : (flip_bit f j k).length = f.length := by simp [flip_bit]
  rw [bytes_to_bits_getElem? _ j (7 - k) (by rw [hlen]; exact hj) (by omega),
    bytes_to_bits_getElem? f j (7 - k) hj (by omega)]
  have hget : (flip_bit f j k).getD j 0 = f.getD j 0 ^^^ (1 <<< k) := by
    rw [List.getD_eq_getElem?_getD, flip_bit, List.getElem?_set_self hj]
    rfl
  rw [hget]
  have hc : f.getD j 0 < 256 := by
    rw [List.getD_eq_getElem _ _ hj]
    exact hf _ (List.getElem_mem hj)
  exact flip_byte_bit _ hc k hk

theorem flip_bit_lt (f : List Nat) (j k : Nat) (hf : ∀ c ∈ f, c < 256) (hk : k < 8) :
    ∀ c ∈ flip_bit f j k, c < 256 := by
  intro c hc
  rcases List.mem_or_eq_of_mem_set hc with h | h
  · exact hf c h
  · rw [h]
    by_cases hj : j < f.length
    · have : f.getD j 0 < 256 := by
        rw [List.getD_eq_getElem _ _ hj]
        exact hf _ (List.getElem_mem hj)
      exact flip_byte_lt _ this k hk
    · rw [List.getD_eq_default _ _ (by omega)]
      exact flip_byte_lt 0 (by decide) k hk

theorem flip_bit_append (pre f : List Nat) (i k : Nat) (hi : pre.length ≤ i) :
    flip_bit (pre ++ f) i k = pre ++ flip_bit f (i - pre.length) k := by
  unfold flip_bit
  rw [List.set_append_right _ _ hi, List.getD_append_right _ _ _ _ hi]

/-! ### a flipped code bit never goes unnoticed -/

theorem encode_bits_code_table (tie : List Node → Nat) (data l : List Nat) :
    encode_bits (code_table tie data) l =
      l.flatMap fun b =>
        cw_bits (build_canonical (code_lengths tie (count_freq data)) b).code
          (build_canonical (code_lengths tie (count_freq data)) b).len := rfl

theorem header_length (n : Nat) (lens : Nat → Nat) (pad crc : Nat) :
    (MAGIC ++ le_bytes 8 n ++ (List.range 256).map lens ++ [pad] ++ le_bytes 4 crc).length = 273 := by
  simp [MAGIC, le_bytes_length]

theorem decode_payload_zero (lens : Nat → Nat) (n crc : Nat) (payload out : List Nat)
    (hp : ∀ c ∈ payload, c < 256) (h : decode_payload lens n crc payload = (0, out)) :
    out.length = n ∧ crc32 out = crc ∧
      ∃ rest, bytes_to_bits payload =
        (out.flatMap fun b => cw_bits (build_canonical lens b).code (build_canonical lens b).len)
          ++ rest := by
  unfold decode_payload at h
  simp only at h
  set res := decode_loop (build_decode_tree lens) n { f := payload, buf := 0, bits := 0 }
    0xFFFFFFFF [] with hres
  by_cases h1 : res.1 ≠ 0
  · rw [if_pos h1] at h
    exact absurd (Prod.mk.inj h).1 h1
  · rw [if_neg h1] at h
    by_cases h2 : res.2.1 ^^^ 0xFFFFFFFF ≠ crc
    · rw [if_pos h2] at h
      exact absurd (Prod.mk.inj h).1 (by decide)
    · rw [if_neg h2] at h
      have hout : res.2.2 = out := (Prod.mk.inj h).2
      have hst : res.1 = 0 := not_not.mp h1
      have hcrc : res.2.1 ^^^ 0xFFFFFFFF = crc := not_not.mp h2
      have hrinv : RInv { f := payload, buf := 0, bits := 0 } :=
        ⟨by simp, by simp, hp⟩
      have heq : decode_loop (build_decode_tree lens) n { f := payload, buf := 0, bits := 0 }
          0xFFFFFFFF [] = (0, res.2.1, res.2.2) := by
        rw [← hres, ← hst]
      obtain ⟨new, rest, e1, e2, e3, e4⟩ :=
        decode_loop_sound _ _ (build_decode_tree_ok lens).2 n _ hrinv _ _ _ _ heq
      simp only [List.nil_append] at e1
      rw [hout] at e1
      subst e1
      refine ⟨e2, ?_, rest, ?_⟩
      · rw [← hcrc, e3]; rfl
      · simpa [BitReader.remaining] using e4

theorem flipped_code_bit (tie : List Node → Nat) (hw : Nat) (data : List Nat) (i k : Nat)
    (hne : data ≠ []) (hv : ValidInput data) (hi : 273 ≤ i) (hk : k < 8)
    (hp : 8 * (i - 273) + (7 - k) < (encode_bits (code_table tie data) data).length) :
    (decompress_file (flip_bit (compress_file tie hw data).2 i k)).1 ≠ 0 ∨
    ((decompress_file (flip_bit (compress_file tie hw data).2 i k)).2 ≠ data ∧
     (decompress_file (flip_bit (compress_file tie hw data).2 i k)).2.length = data.length ∧
     crc32 (decompress_file (flip_bit (compress_file tie hw data).2 i k)).2 = crc32 data) := by
  obtain ⟨payload, hfile, hpl, hbits⟩ := compress_file_spec tie hw data hne hv
  set lens := code_lengths tie (count_freq data) with hlens
  set enc := encode_bits (code_table tie data) data with henc
  have hpadlt : (8 - enc.length % 8) % 8 ≤ 7 := by omega
  have hjlt : i - 273 < payload.length := by
    have := congrArg List.length hbits
    rw [bytes_to_bits_length, List.length_append, List.length_replicate] at this
    omega
  rw [hfile]
  simp only
  rw [flip_bit_append _ _ _ _ (by rw [header_length]; exact hi), header_length,
    decompress_file_spec data.length _ _ _ _ (by have := hv.1; omega)
      (fun h => hne (List.length_eq_zero.mp h)) (by simp) hpadlt (crc32_lt data hv.2)]
  have hcongr : ∀ s < 256, (fun s => ((List.range 256).map lens).getD s 0) s = lens s :=
    fun s hs => getD_map_range lens s hs
  generalize hr : decode_payload (fun s => ((List.range 256).map lens).getD s 0) data.length
    (crc32 data) (flip_bit payload (i - 273) k) = r
  obtain ⟨st, out⟩ := r
  by_cases hst : st = 0
  · right
    subst hst
    obtain ⟨h1, h2, rest, h3⟩ := decode_payload_zero _ _ _ _ _
      (flip_bit_lt payload _ k hpl hk) hr
    refine ⟨?_, h1, h2⟩
    intro hout
    simp only at hout
    subst hout
    rw [build_canonical_congr _ lens hcongr, ← encode_bits_code_table, ← henc] at h3
    have hd := flip_bit_differs payload (i - 273) k hpl hjlt hk
    rw [h3, hbits, List.getElem?_append_left hp, List.getElem?_append_left hp] at hd
    exact hd rfl
  · left
    exact hst

/-! ### layout of the container -/

theorem layout_of_container (tie : List Node → Nat) (hw : Nat) (data : List Nat)
    (hne : data ≠ []) (hv : ValidInput data) :
    (compress_file tie hw data).1 = 0 ∧
    (compress_file tie hw data).2.take 4 = [0x48, 0x55, 0x46, 0x31] ∧
    ((compress_file tie hw data).2.drop 4).take 8 = le_bytes 8 data.length ∧
    ((compress_file tie hw data).2.drop 12).take 256 =
      (List.range 256).map (code_lengths tie (count_freq data)) ∧
    ((compress_file tie hw data).2.drop 268).take 1 =
      [(8 - (encode_bits (code_table tie data) data).length % 8) % 8] ∧
    ((compress_file tie hw data).2.drop 269).take 4 = le_bytes 4 (crc32 data) ∧
    (∀ c ∈ (compress_file tie hw data).2.drop 273, c < 256) ∧
    bytes_to_bits ((compress_file tie hw data).2.drop 273) =
      encode_bits (code_table tie data) data ++
        List.replicate ((8 - (encode_bits (code_table tie data) data).length % 8) % 8) 0 := by
  obtain ⟨payload, hfile, hpl, hbits⟩ := compress_file_spec tie hw data hne hv
  rw [hfile]
  simp only
  refine ⟨trivial, ?_, ?_, ?_, ?_, ?_, ?_, ?_⟩
  · simp only [List.append_assoc]
    exact List.take_left' rfl
  · simp only [List.append_assoc]
    rw [List.drop_left' (show MAGIC.length = 4 from rfl)]
    exact List.take_left' (le_bytes_length _ _)
  · rw [show MAGIC ++ le_bytes 8 data.length ++ (List.range 256).map (code_lengths tie (count_freq data))
        ++ [(8 - (encode_bits (code_table tie data) data).length % 8) % 8] ++ le_bytes 4 (crc32 data)
        ++ payload = (MAGIC ++ le_bytes 8 data.length) ++
          ((List.range 256).map (code_lengths tie (count_freq data)) ++
          ([(8 - (encode_bits (code_table tie data) data).length % 8) % 8] ++
          (le_bytes 4 (crc32 data) ++ payload))) by simp only [List.append_assoc]]
    rw [List.drop_left' (by simp [MAGIC, le_bytes_length])]
    exact List.take_left' (by simp)
  · rw [show MAGIC ++ le_bytes 8 data.length ++ (List.range 256).map (code_lengths tie (count_freq data))
        ++ [(8 - (encode_bits (code_table tie data) data).length % 8) % 8] ++ le_bytes 4 (crc32 data)
        ++ payload = (MAGIC ++ le_bytes 8 data.length ++
          (List.range 256).map (code_lengths tie (count_freq data))) ++
          ([(8 - (encode_bits (code_table tie data) data).length % 8) % 8] ++
          (le_bytes 4 (crc32 data) ++ payload)) by simp only [List.append_assoc]]
    rw [List.drop_left' (by simp [MAGIC, le_bytes_length])]
    exact List.take_left' rfl
  · rw [show MAGIC ++ le_bytes 8 data.length ++ (List.range 256).map (code_lengths tie (count_freq data))
        ++ [(8 - (encode_bits (code_table tie data) data).length % 8) % 8] ++ le_bytes 4 (crc32 data)
        ++ payload = (MAGIC ++ le_bytes 8 data.length ++
          (List.range 256).map (code_lengths tie (count_freq data)) ++
          [(8 - (encode_bits (code_table tie data) data).length % 8) % 8]) ++
          (le_bytes 4 (crc32 data) ++ payload) by simp only [List.append_assoc]]
    rw [List.drop_left' (by simp [MAGIC, le_bytes_length])]
    exact List.take_left' (le_bytes_length _ _)
  · rw [List.drop_left' (header_length _ _ _ _)]
    exact hpl
  · rw [List.drop_left' (header_length _ _ _ _)]
    exact hbits

/-! ### counting frequencies -/

theorem count_freq_fold (data : List Nat) (f0 : Nat → Nat) (s : Nat)
    (h : f0 s + data.count s < 2 ^ 64) :
    (data.foldl (fun freq b => set_at freq b ((freq b + 1) % 2 ^ 64)) f0) s =
      f0 s + data.count s := by
  induction data generalizing f0 with
  | nil => simp
  | cons b bs ih =>
    rw [List.foldl_cons, List.count_cons] at *
    by_cases hb : b = s
    · subst hb
      simp only [beq_self_eq_true, if_true] at h ⊢
      rw [ih]
      · simp only [set_at, if_true]
        rw [Nat.mod_eq_of_lt (by omega)]; omega
      · simp only [set_at, if_true]
        rw [Nat.mod_eq_of_lt (by omega)]; omega
    · have hbs : (b == s) = false := by simpa using hb
      have hsb : ¬ s = b := fun h => hb h.symm
      simp only [hbs, Bool.false_eq_true, if_false, Nat.add_zero] at h ⊢
      rw [ih]
      · simp [set_at, hsb]
      · simp only [set_at, hsb, if_false]; exact h

theorem count_freq_eq_count (data : List Nat) (h : data.length < 2 ^ 64) (s : Nat) :
    count_freq data s = data.count s := by
  unfold count_freq
  rw [count_freq_fold data _ s (by have := List.count_le_length s data; omega)]
  simp

/-! ### one distinct symbol -/

theorem filter_eq_singleton : ∀ x < 256, (List.range 256).filter (fun s => decide (s = x)) = [x] := by
  decide!

theorem filter_pos_singleton (f : Nat → Nat) (x : Nat) (hx : x < 256) (hfx : 0 < f x)
    (hf : ∀ s, s ≠ x → f s = 0) : (List.range 256).filter (fun s => decide (f s > 0)) = [x] := by
  rw [← filter_eq_singleton x hx]
  apply List.filter_congr
  intro s _
  by_cases hs : s = x
  · simp [hs, hfx]
  · simp [hs, hf s hs]

theorem build_tree_single (tie : List Node → Nat) (f : Nat → Nat) (x : Nat) (hx : x < 256)
    (hfx : 0 < f x) (hf : ∀ s, s ≠ x → f s = 0) :
    build_tree tie f =
      Node.mk (f x) (-1) (Node.mk (f x) (x : Int) Node.null Node.null) Node.null := by
  unfold build_tree
  simp only [filter_pos_singleton f x hx hfx hf, List.map_cons, List.map_nil,
    List.length_singleton, if_true, pq_top_singleton, pq_pop_singleton, pq_push, List.nil_append,
    Node.freq]
  simp [merge_loop, pq_top_singleton]

theorem code_lengths_single (tie : List Node → Nat) (f : Nat → Nat) (x : Nat) (hx : x < 256)
    (hfx : 0 < f x) (hf : ∀ s, s ≠ x → f s = 0) :
    code_lengths tie f = set_at (fun _ => 0) x 1 := by
  unfold code_lengths
  rw [build_tree_single tie f x hx hfx hf]
  simp [gather_lengths]

theorem build_canonical_single (x : Nat) (hx : x < 256) :
    build_canonical (set_at (fun _ => 0) x 1) = set_at (fun _ => { code := 0, len := 0 }) x
      { code := 0, len := 1 } := by
  unfold build_canonical collect_items
  rw [filter_pos_singleton (set_at (fun _ => 0) x 1) x hx (by simp [set_at])
    (by intro s hs; simp [set_at, hs])]
  simp [sort_items, insert_item, canonical_loop, set_at]

theorem zero_byte : ∀ c < 256, cw_bits c 8 = List.replicate 8 0 → c = 0 := by decide!

theorem bytes_all_zero (f : List Nat) (m : Nat) (hf : ∀ c ∈ f, c < 256)
    (h : bytes_to_bits f = List.replicate m 0) : f = List.replicate f.length 0 := by
  induction f generalizing m with
  | nil => rfl
  | cons c cs ih =>
    have hbb : bytes_to_bits (c :: cs) = cw_bits c 8 ++ bytes_to_bits cs := by
      simp [bytes_to_bits]
    rw [hbb] at h
    have hlen := congrArg List.length h
    rw [List.length_append, cw_bits_length, List.length_replicate] at hlen
    have hm : m = 8 + (m - 8) := by omega
    rw [hm, List.replicate_add] at h
    have h1 := List.append_inj_left h (by rw [cw_bits_length, List.length_replicate])
    have h2 := List.append_inj_right h (by rw [cw_bits_length, List.length_replicate])
    have hc := zero_byte c (hf c (List.mem_cons_self _ _)) h1
    rw [hc, List.length_cons, List.replicate_succ]
    congr 1
    exact ih (m - 8) (fun x hx => hf x (List.mem_cons_of_mem _ hx)) h2

theorem single_symbol (tie : List Node → Nat) (hw : Nat) (x n : Nat) (hx : x < 256)
    (hn : 1 ≤ n) (hn2 : n < 2 ^ 63) :
    code_lengths tie (count_freq (List.replicate n x)) x = 1 ∧
    (∀ s, s ≠ x → code_lengths tie (count_freq (List.replicate n x)) s = 0) ∧
    build_canonical (code_lengths tie (count_freq (List.replicate n x))) x = ⟨0, 1⟩ ∧
    cw_bits 0 1 = [0] ∧
    (compress_file tie hw (List.replicate n x)).2.drop 273 = List.replicate ((n + 7) / 8) 0 := by
  have hlen : (List.replicate n x).length < 2 ^ 64 := by simp; omega
  have hfx : 0 < count_freq (List.replicate n x) x := by
    rw [count_freq_eq_count _ hlen]; simp; omega
  have hf : ∀ s, s ≠ x → count_freq (List.replicate n x) s = 0 := by
    intro s hs
    rw [count_freq_eq_count _ hlen, List.count_replicate]
    simp [Ne.symm hs]
  have hcl := code_lengths_single tie _ x hx hfx hf
  have hv : ValidInput (List.replicate n x) := by
    refine ⟨by simpa using hn2, ?_⟩
    intro b hb
    rw [(List.mem_replicate.mp hb).2]; exact hx
  have hne : List.replicate n x ≠ [] := by
    intro h
    have := congrArg List.length h
    simp at this; omega
  refine ⟨by rw [hcl]; simp [set_at], ?_, ?_, rfl, ?_⟩
  · intro s hs; rw [hcl]; simp [set_at, hs]
  · rw [hcl, build_canonical_single x hx]; simp [set_at]
  · obtain ⟨h1, -, -, -, -, -, hpl, hbits⟩ := layout_of_container tie hw _ hne hv
    have henc : encode_bits (code_table tie (List.replicate n x)) (List.replicate n x) =
        List.replicate n 0 := by
      unfold encode_bits code_table
      simp only [hcl, build_canonical_single x hx]
      have : ∀ (l : List Nat), (∀ b ∈ l, b = x) →
          (l.flatMap fun b => cw_bits
            (set_at (fun _ => ({ code := 0, len := 0 } : Code)) x { code := 0, len := 1 } b).code
            (set_at (fun _ => ({ code := 0, len := 0 } : Code)) x { code := 0, len := 1 } b).len)
            = List.replicate l.length 0 := by
        intro l hl
        induction l with
        | nil => rfl
        | cons a as ih =>
          have ha : a = x := hl a (List.mem_cons_self _ _)
          rw [List.flatMap_cons, ih (fun b hb => hl b (List.mem_cons_of_mem _ hb)), ha]
          simp [set_at, cw_bits, List.replicate_succ]
      have h := this (List.replicate n x) (fun b hb => (List.mem_replicate.mp hb).2)
      simpa using h
    rw [henc, List.length_replicate, ← List.replicate_add] at hbits
    have hz := bytes_all_zero _ _ hpl hbits
    have hlen8 := congrArg List.length hbits
    rw [bytes_to_bits_length, List.length_replicate] at hlen8
    rw [hz]
    congr 1
    omega

theorem count_flatMap_replicate (f : Nat → Nat) (n s : Nat) :
    ((List.range n).flatMap fun t => List.replicate (f t) t).count s = if s < n then f s else 0 := by
  induction n with
  | zero => simp
  | succ n ih =>
    rw [List.range_succ, List.flatMap_append, List.count_append, ih]
    simp only [List.flatMap_cons, List.flatMap_nil, List.append_nil, List.count_replicate]
    by_cases h1 : s < n
    · have h2 : ¬ n = s := by omega
      have h3 : s < n + 1 := by omega
      simp [h1, h2, h3]
    · by_cases h2 : n = s
      · subst h2; simp
      · have : ¬ s < n + 1 := by omega
        simp [h1, h2, this]

theorem length_flatMap_replicate (f : Nat → Nat) (n : Nat) :
    ((List.range n).flatMap fun t => List.replicate (f t) t).length = ((List.range n).map f).sum := by
  induction n with
  | zero => simp
  | succ n ih =>
    rw [List.range_succ, List.flatMap_append, List.length_append, ih]
    simp

theorem deep_input_length : deep_input.length = 12752042 := by
  unfold deep_input
  rw [length_flatMap_replicate]
  decide!

theorem deep_input_valid : ValidInput deep_input := by
  refine ⟨by rw [deep_input_length]; norm_num, ?_⟩
  intro b hb
  simp only [deep_input, List.mem_flatMap, List.mem_range] at hb
  obtain ⟨s, hs, hb⟩ := hb
  rw [(List.mem_replicate.mp hb).2]; omega

theorem deep_freq_zero (s : Nat) (h : 34 ≤ s) : deep_freq s = 0 := by
  unfold deep_freq
  exact List.getD_eq_default _ _ (by simpa using h)

theorem count_freq_deep_input : count_freq deep_input = deep_freq := by
  funext s
  rw [count_freq_eq_count _ (by rw [deep_input_length]; norm_num), deep_input,
    count_flatMap_replicate]
  by_cases h : s < 34
  · simp [h]
  · simp [h, deep_freq_zero s (by omega)]

theorem deep_input_head : ∃ rest, deep_input = 0 :: rest := by
  unfold deep_input
  rw [List.range_succ_eq_map, List.flatMap_cons]
  exact ⟨_, rfl⟩

theorem deep_tree_shape :
    (build_decode_tree (code_lengths firstTie deep_freq)).child0.sym = 33 ∧
    (build_decode_tree (code_lengths firstTie deep_freq)).sym = -1 ∧
    build_canonical (code_lengths firstTie deep_freq) 0 = ⟨0xFFFFFFFE, 33⟩ ∧
    (cw_bits 0xFFFFFFFE 33).head? = some 0 := by decide!

theorem descend_first_zero (root : DecNode) (br : BitReader) (rest : List Nat) (hr : RInv br)
    (hs : root.sym < 0) (h0 : 0 ≤ root.child0.sym) (hrem : br.remaining = 0 :: rest) :
    descend root br = .ok (root.child0.sym, br.read_bit.2) := by
  obtain ⟨hb1, -, -⟩ := br.read_bit_cons hr 0 rest hrem
  cases root with
  | null => simp [DecNode.child0, DecNode.sym] at h0
  | mk c0 c1 s =>
    simp only [DecNode.sym] at hs
    cases c0 with
    | null => simp [DecNode.child0, DecNode.sym] at h0
    | mk a b s0 =>
      simp only [DecNode.child0, DecNode.sym] at h0 ⊢
      unfold descend
      have hb : br.read_bit.1 = 0 := by rw [hb1]; rfl
      simp only [hs, if_true, hb, lt_self_iff_false, if_false]
      unfold descend
      rw [if_neg (by omega)]

theorem decode_loop_extends (root : DecNode) (n : Nat) (br : BitReader) (crc : Nat)
    (out : List Nat) : ∃ ext, (decode_loop root n br crc out).2.2 = out ++ ext := by
  induction n generalizing br crc out with
  | zero => exact ⟨[], by simp [decode_loop]⟩
  | succ n ih =>
    unfold decode_loop
    cases hd : descend root br with
    | error st => exact ⟨[], by simp⟩
    | ok r =>
      obtain ⟨sym, br2⟩ := r
      simp only
      obtain ⟨ext, he⟩ := ih br2 (crc32_update crc [(sym % 256).toNat]) (out ++ [(sym % 256).toNat])
      exact ⟨(sym % 256).toNat :: ext, by rw [he]; simp⟩

theorem decode_payload_snd (lens : Nat → Nat) (n crc : Nat) (payload : List Nat) :
    (decode_payload lens n crc payload).2 =
      (decode_loop (build_decode_tree lens) n { f := payload, buf := 0, bits := 0 }
        0xFFFFFFFF []).2.2 := by
  unfold decode_payload
  simp only
  split
  · rfl
  · split <;> rfl

theorem encode_bits_cons (table : Nat → Codeword) (x : Nat) (tl : List Nat) :
    encode_bits table (x :: tl) = cw_bits (table x).code (table x).len ++ encode_bits table tl := by
  simp [encode_bits]

/-- When the codeword of the first input byte starts with the bit 0 and the node below the
root on the side of bit 0 carries a symbol, the first byte that `decompress_file` writes for
the container is that symbol. -/
theorem first_byte_decoded (tie : List Node → Nat) (hw : Nat) (data : List Nat) (x : Nat)
    (tl : List Nat) (hv : ValidInput data) (hx : data = x :: tl)
    (hcw : (cw_bits (code_table tie data x).code (code_table tie data x).len).head? = some 0)
    (hs : (build_decode_tree (code_lengths tie (count_freq data))).sym < 0)
    (h0 : 0 ≤ (build_decode_tree (code_lengths tie (count_freq data))).child0.sym) :
    (decompress_file (compress_file tie hw data).2).2.head? =
      some (((build_decode_tree (code_lengths tie (count_freq data))).child0.sym % 256).toNat) := by
  have hne : data ≠ [] := by rw [hx]; simp
  obtain ⟨payload, hfile, hpl, hbits⟩ := compress_file_spec tie hw data hne hv
  have hpay : ∃ rest, bytes_to_bits payload = 0 :: rest := by
    have henc := encode_bits_cons (code_table tie data) x tl
    rw [← hx] at henc
    rw [hbits, henc]
    cases hc : cw_bits (code_table tie data x).code (code_table tie data x).len with
    | nil => rw [hc] at hcw; simp at hcw
    | cons b bs =>
      rw [hc] at hcw
      simp only [List.head?_cons, Option.some.injEq] at hcw
      exact ⟨_, by rw [hcw]; rfl⟩
  obtain ⟨rest, hrest⟩ := hpay
  rw [hfile]
  simp only
  rw [decompress_file_spec data.length _ _ _ _ (by have := hv.1; omega)
      (fun h => hne (List.length_eq_zero.mp h)) (by simp) (by omega) (crc32_lt _ hv.2),
    decode_payload_snd]
  have hcongr : ∀ s < 256,
      (fun s => ((List.range 256).map (code_lengths tie (count_freq data))).getD s 0) s
        = code_lengths tie (count_freq data) s := fun s hs => getD_map_range _ s hs
  rw [build_decode_tree_congr _ _ hcongr]
  generalize build_decode_tree (code_lengths tie (count_freq data)) = root at hs h0 ⊢
  obtain ⟨m, hm⟩ : ∃ m, data.length = m + 1 := ⟨tl.length, by rw [hx]; simp⟩
  rw [hm]
  unfold decode_loop
  have hrinv : RInv { f := payload, buf := 0, bits := 0 } := ⟨by simp, by simp, hpl⟩
  rw [descend_first_zero root _ rest hrinv hs h0 (by simpa [BitReader.remaining] using hrest)]
  simp only
  obtain ⟨ext, he⟩ := decode_loop_extends root m
    (BitReader.read_bit { f := payload, buf := 0, bits := 0 }).2
    (crc32_update 0xFFFFFFFF [(root.child0.sym % 256).toNat])
    ([] ++ [(root.child0.sym % 256).toNat])
  rw [he]
  rfl

theorem pq_top_index_unique (tie : List Node → Nat) (pq : List Node) (h : top_unique pq = true) :
    pq_top_index tie pq = pq_top_index firstTie pq := by
  unfold pq_top_index
  have hl : (top_candidates pq).length = 1 := by simpa [top_unique] using h
  unfold top_candidates at hl
  simp only [hl, Nat.mod_one, firstTie]

theorem pq_top_unique (tie : List Node → Nat) (pq : List Node) (h : top_unique pq = true) :
    pq_top tie pq = pq_top firstTie pq := by
  unfold pq_top
  rw [pq_top_index_unique tie pq h]

theorem pq_pop_unique (tie : List Node → Nat) (pq : List Node) (h : top_unique pq = true) :
    pq_pop tie pq = pq_pop firstTie pq := by
  unfold pq_pop
  rw [pq_top_index_unique tie pq h]

theorem merge_loop_unique (tie : List Node → Nat) (fuel : Nat) (pq : List Node)
    (h : merge_unique fuel pq = true) : merge_loop tie fuel pq = merge_loop firstTie fuel pq := by
  induction fuel generalizing pq with
  | zero => rfl
  | succ fuel ih =>
    unfold merge_loop
    unfold merge_unique at h
    by_cases hgt : pq.length > 1
    · simp only [hgt, if_true, Bool.and_eq_true] at h ⊢
      obtain ⟨⟨h1, h2⟩, h3⟩ := h
      rw [pq_top_unique tie pq h1, pq_pop_unique tie pq h1,
        pq_top_unique tie _ h2, pq_pop_unique tie _ h2]
      exact ih _ h3
    · simp only [hgt, if_false]

theorem build_tree_unique (tie : List Node → Nat) (freq : Nat → Nat)
    (h : build_unique freq = true) : build_tree tie freq = build_tree firstTie freq := by
  unfold build_unique at h
  unfold build_tree
  have hfull : ∀ n ∈ (((List.range 256).filter fun s => decide (freq s > 0)).map fun s =>
      Node.mk (freq s) (s : Int) Node.null Node.null), Full n := by
    intro n hn
    obtain ⟨s, _, rfl⟩ := List.mem_map.mp hn
    exact Full.leaf _ _ _ _ (Int.ofNat_nonneg s)
  generalize (((List.range 256).filter fun s => decide (freq s > 0)).map fun s =>
      Node.mk (freq s) (s : Int) Node.null Node.null) = pq at h hfull ⊢
  simp only [Bool.and_eq_true, decide_eq_true_eq] at h
  obtain ⟨h1, h2⟩ := h
  simp only [h1, if_false]
  rw [merge_loop_unique tie _ _ h2]
  cases hl : pq with
  | nil => rfl
  | cons a as =>
    rw [← hl]
    obtain ⟨root, hr, -⟩ := merge_loop_spec firstTie pq.length pq hfull
      (by rw [hl]; simp) (by omega)
    rw [hr, pq_top_singleton, pq_top_singleton]

theorem code_lengths_unique (tie : List Node → Nat) (freq : Nat → Nat)
    (h : build_unique freq = true) : code_lengths tie freq = code_lengths firstTie freq := by
  unfold code_lengths
  rw [build_tree_unique tie freq h]

theorem deep_unique : build_unique deep_freq = true := by decide!

/-! ### facts about the deep table, for every tie-breaking of the queue -/

theorem deep_table_facts :
    2 ≤ (present deep_freq).length ∧ 0 ∈ present deep_freq ∧ 33 ∈ present deep_freq ∧
    code_lengths firstTie deep_freq 0 = 33 ∧ code_lengths firstTie deep_freq 33 = 1 ∧
    build_canonical (code_lengths firstTie deep_freq) 0 = ⟨0xFFFFFFFE, 33⟩ ∧
    build_canonical (code_lengths firstTie deep_freq) 33 = ⟨0, 1⟩ ∧
    cw_bits 0 1 <+: cw_bits 0xFFFFFFFE 33 := by decide!

theorem deep_trie_facts :
    (DecNode.walk (build_decode_tree (code_lengths firstTie deep_freq)) (cw_bits 0 1)).sym = 33 ∧
    (DecNode.walk (build_decode_tree (code_lengths firstTie deep_freq)) (cw_bits 0 1)).is_leaf
      = false ∧
    bytes_to_bits [0x7F, 0xFF, 0xFF, 0xFF, 0x00] = cw_bits 0xFFFFFFFE 33 ++ List.replicate 7 0 ∧
    (descend (build_decode_tree (code_lengths firstTie deep_freq))
      ⟨[0x7F, 0xFF, 0xFF, 0xFF, 0x00], 0, 0⟩).toOption =
        some (33, ⟨[0xFF, 0xFF, 0xFF, 0x00], 0xFE, 7⟩) := by decide!

theorem deep_first_codeword_any (tie : List Node → Nat) :
    (cw_bits (code_table tie deep_input 0).code (code_table tie deep_input 0).len).head?
      = some 0 := by
  obtain ⟨-, -, hshape3, hshape4⟩ := deep_tree_shape
  unfold code_table
  rw [count_freq_deep_input, code_lengths_unique tie deep_freq deep_unique, hshape3]
  exact hshape4

theorem deep_round_trip_head_any (tie : List Node → Nat) (hw : Nat) :
    (decompress_file (compress_file tie hw deep_input).2).2.head? = some 33 := by
  obtain ⟨tl, htl⟩ := deep_input_head
  obtain ⟨hshape1, hshape2, -, -⟩ := deep_tree_shape
  rw [← code_lengths_unique tie deep_freq deep_unique, ← count_freq_deep_input] at hshape1 hshape2
  have h := first_byte_decoded tie hw deep_input 0 tl deep_input_valid htl
    (deep_first_codeword_any tie) (by rw [hshape2]; decide) (by rw [hshape1]; decide)
  rw [h, hshape1]
  rfl

theorem compress_empty (tie : List Node → Nat) (hw : Nat) :
    compress_file tie hw [] =
      (0, [0x48, 0x55, 0x46, 0x31] ++ List.replicate 8 0 ++ List.replicate 256 0 ++ [0] ++
        List.replicate 4 0) := rfl

theorem decompress_empty :
    ([0x48, 0x55, 0x46, 0x31] ++ List.replicate 8 0 ++ List.replicate 256 0 ++ [0] ++
        List.replicate 4 0 : List Nat).length = 273 ∧
    decompress_file ([0x48, 0x55, 0x46, 0x31] ++ List.replicate 8 0 ++ List.replicate 256 0 ++
      [0] ++ List.replicate 4 0) = (0, []) := by decide!

/-! ### both loops as folds over the coded items -/

theorem canonical_loop_fold (its : List L) (code prev : Nat) (out : Nat → Code) :
    canonical_loop its code prev out =
      (code_seq its code prev).foldl
        (fun out p => set_at out p.1.sym { code := p.2, len := p.1.len }) out := by
  induction its generalizing code prev out with
  | nil => rfl
  | cons it rest ih =>
    rw [canonical_loop, code_seq, List.foldl_cons]
    exact ih _ _ _

theorem decode_tree_loop_fold (its : List L) (code prev : Nat) (root : DecNode) :
    decode_tree_loop its code prev root =
      (code_seq its code prev).foldl
        (fun root p => insert_code p.2 (p.1.sym : Int) p.1.len root) root := by
  induction its generalizing code prev root with
  | nil => rfl
  | cons it rest ih =>
    rw [decode_tree_loop, code_seq, List.foldl_cons]
    exact ih _ _ _

theorem build_canonical_fold (lens : Nat → Nat) :
    build_canonical lens =
      (coded_items lens).foldl
        (fun out p => set_at out p.1.sym { code := p.2, len := p.1.len })
        (fun _ => { code := 0, len := 0 }) := by
  unfold build_canonical coded_items
  cases sort_items (collect_items lens) with
  | nil => rfl
  | cons front rest =>
    simp only [List.foldl_cons]
    exact canonical_loop_fold _ _ _ _

theorem build_decode_tree_fold (lens : Nat → Nat) :
    build_decode_tree lens =
      (coded_items lens).foldl
        (fun root p => insert_code p.2 (p.1.sym : Int) p.1.len root) DecNode.fresh := by
  unfold build_decode_tree coded_items
  cases sort_items (collect_items lens) with
  | nil => rfl
  | cons front rest =>
    simp only [List.foldl_cons]
    exact decode_tree_loop_fold _ _ _ _

theorem code_seq_fst (its : List L) (code prev : Nat) :
    (code_seq its code prev).map Prod.fst = its := by
  induction its generalizing code prev with
  | nil => rfl
  | cons it rest ih => rw [code_seq, List.map_cons, ih]

theorem coded_items_fst (lens : Nat → Nat) :
    (coded_items lens).map Prod.fst = sort_items (collect_items lens) := by
  unfold coded_items
  cases sort_items (collect_items lens) with
  | nil => rfl
  | cons front rest => simp only [List.map_cons, code_seq_fst]

/-! ### the sorted items are ordered by length -/

theorem item_lt_len {a b : L} (h : item_lt a b = true) : a.len ≤ b.len := by
  unfold item_lt at h
  by_cases hne : a.len ≠ b.len
  · rw [if_pos hne, decide_eq_true_eq] at h
    omega
  · omega

theorem not_item_lt_len {a b : L} (h : ¬ item_lt a b = true) : b.len ≤ a.len := by
  unfold item_lt at h
  by_cases hne : a.len ≠ b.len
  · rw [if_pos hne, decide_eq_true_eq] at h
    omega
  · omega

theorem insert_item_sorted (x : L) (l : List L)
    (h : l.Pairwise fun a b => a.len ≤ b.len) :
    (insert_item x l).Pairwise fun a b => a.len ≤ b.len := by
  induction l with
  | nil => simp [insert_item]
  | cons y ys ih =>
    rw [List.pairwise_cons] at h
    unfold insert_item
    by_cases hlt : item_lt y x = true
    · rw [if_pos hlt]
      rw [List.pairwise_cons]
      refine ⟨?_, ih h.2⟩
      intro z hz
      rcases List.mem_cons.mp ((insert_item_perm x ys).mem_iff.mp hz) with hz | hz
      · rw [hz]; exact item_lt_len hlt
      · exact h.1 z hz
    · rw [if_neg hlt]
      rw [List.pairwise_cons, List.pairwise_cons]
      have hxy := not_item_lt_len hlt
      refine ⟨?_, h⟩
      intro z hz
      rcases List.mem_cons.mp hz with hz | hz
      · rw [hz]; exact hxy
      · exact le_trans hxy (h.1 z hz)

theorem sort_items_sorted (l : List L) :
    (sort_items l).Pairwise fun a b => a.len ≤ b.len := by
  induction l with
  | nil => simp [sort_items]
  | cons x xs ih =>
    unfold sort_items
    exact insert_item_sorted x _ ih

/-! ### the codes do not wrap while the Kraft sum allows them -/

theorem next_code_exact (code prev : Nat) (it : L) (hp : prev ≤ it.len) (hl : it.len ≤ 32)
    (hk : (code + 1) * 2 ^ (32 - prev) + 2 ^ (32 - it.len) ≤ 2 ^ 32) :
    next_code code prev it = ((code + 1) * 2 ^ (it.len - prev), it.len) ∧
    (code + 1) * 2 ^ (it.len - prev) < 2 ^ it.len ∧
    ((code + 1) * 2 ^ (it.len - prev) + 1) * 2 ^ (32 - it.len) =
      (code + 1) * 2 ^ (32 - prev) + 2 ^ (32 - it.len) := by
  have hpos : 0 < 2 ^ (32 - it.len) := by positivity
  have hsplit : 2 ^ (32 - prev) = 2 ^ (it.len - prev) * 2 ^ (32 - it.len) := by
    rw [← pow_add]; congr 1; omega
  have h32 : (2 : Nat) ^ 32 = 2 ^ it.len * 2 ^ (32 - it.len) := by
    rw [← pow_add]; congr 1; omega
  have hc : (code + 1) * 2 ^ (it.len - prev) < 2 ^ it.len := by
    have h1 : (code + 1) * 2 ^ (it.len - prev) * 2 ^ (32 - it.len) < 2 ^ it.len * 2 ^ (32 - it.len) := by
      rw [← h32, Nat.mul_assoc, ← hsplit]; omega
    exact Nat.lt_of_mul_lt_mul_right h1
  have hle32 : 2 ^ it.len ≤ 2 ^ 32 := Nat.pow_le_pow_right (by decide) hl
  have hone : 1 ≤ 2 ^ (it.len - prev) := Nat.one_le_two_pow
  have hcode : code + 1 < 2 ^ 32 := by
    have : code + 1 ≤ (code + 1) * 2 ^ (it.len - prev) := Nat.le_mul_of_pos_right _ hone
    omega
  refine ⟨?_, hc, ?_⟩
  · unfold next_code
    simp only [Nat.mod_eq_of_lt hcode]
    by_cases hgt : it.len > prev
    · simp only [hgt, if_true, Nat.shiftLeft_eq]
      rw [Nat.mod_eq_of_lt (by omega)]
    · have heq : it.len = prev := by omega
      simp [heq]
  · rw [Nat.add_mul, Nat.one_mul, Nat.mul_assoc, ← hsplit]

theorem code_seq_spec (its : List L) (code prev : Nat)
    (hsorted : (its).Pairwise fun a b => a.len ≤ b.len)
    (hprev : ∀ it ∈ its, prev ≤ it.len) (hl : ∀ it ∈ its, it.len ≤ 32)
    (hk : (code + 1) * 2 ^ (32 - prev) + kraft32 its ≤ 2 ^ 32) :
    (∀ p ∈ code_seq its code prev,
      (code + 1) * 2 ^ (p.1.len - prev) ≤ p.2 ∧ p.2 < 2 ^ p.1.len) ∧
    (code_seq its code prev).Pairwise fun p q =>
      p.1.len ≤ q.1.len ∧ (p.2 + 1) * 2 ^ (q.1.len - p.1.len) ≤ q.2 := by
  induction its generalizing code prev with
  | nil => simp [code_seq]
  | cons it rest ih =>
    rw [List.pairwise_cons] at hsorted
    have hit := hprev it (List.mem_cons_self _ _)
    have hitl := hl it (List.mem_cons_self _ _)
    have hk' : (code + 1) * 2 ^ (32 - prev) + 2 ^ (32 - it.len) + kraft32 rest ≤ 2 ^ 32 := by
      simpa [kraft32, Nat.add_assoc] using hk
    obtain ⟨hn1, hn2, hn3⟩ := next_code_exact code prev it hit hitl (by omega)
    have hrec := ih ((code + 1) * 2 ^ (it.len - prev)) it.len hsorted.2 hsorted.1
      (fun x hx => hl x (List.mem_cons_of_mem _ hx)) (by rw [hn3]; exact hk')
    rw [code_seq, hn1]
    simp only
    constructor
    · intro p hp
      rcases List.mem_cons.mp hp with hp | hp
      · rw [hp]; exact ⟨le_refl _, hn2⟩
      · obtain ⟨h1, h2⟩ := hrec.1 p hp
        refine ⟨?_, h2⟩
        have hlen : it.len ≤ p.1.len := by
          have : p.1 ∈ rest := by
            have := List.mem_map_of_mem Prod.fst hp
            rwa [code_seq_fst] at this
          exact hsorted.1 _ this
        have hpow : 2 ^ (p.1.len - prev) = 2 ^ (it.len - prev) * 2 ^ (p.1.len - it.len) := by
          rw [← pow_add]; congr 1; omega
        rw [hpow, ← Nat.mul_assoc]
        refine le_trans ?_ h1
        exact Nat.mul_le_mul_right _ (Nat.le_succ _)
    · rw [List.pairwise_cons]
      refine ⟨?_, hrec.2⟩
      intro q hq
      have hlen : it.len ≤ q.1.len := by
        have : q.1 ∈ rest := by
          have := List.mem_map_of_mem Prod.fst hq
          rwa [code_seq_fst] at this
        exact hsorted.1 _ this
      exact ⟨hlen, (hrec.1 q hq).1⟩

theorem coded_items_spec (lens : Nat → Nat)
    (hl : ∀ it ∈ sort_items (collect_items lens), it.len ≤ 32)
    (hk : kraft32 (sort_items (collect_items lens)) ≤ 2 ^ 32) :
    (∀ p ∈ coded_items lens, p.2 < 2 ^ p.1.len) ∧
    (coded_items lens).Pairwise fun p q =>
      p.1.len ≤ q.1.len ∧ (p.2 + 1) * 2 ^ (q.1.len - p.1.len) ≤ q.2 := by
  have hsorted := sort_items_sorted (collect_items lens)
  unfold coded_items
  cases hitems : sort_items (collect_items lens) with
  | nil => simp
  | cons front rest =>
    rw [hitems] at hl hk hsorted
    rw [List.pairwise_cons] at hsorted
    have hk' : (0 + 1) * 2 ^ (32 - front.len) + kraft32 rest ≤ 2 ^ 32 := by
      simpa [kraft32] using hk
    have hrec := code_seq_spec rest 0 front.len hsorted.2 hsorted.1
      (fun x hx => hl x (List.mem_cons_of_mem _ hx)) hk'
    simp only
    constructor
    · intro p hp
      rcases List.mem_cons.mp hp with hp | hp
      · rw [hp]; exact Nat.pow_pos (by decide)
      · exact (hrec.1 p hp).2
    · rw [List.pairwise_cons]
      refine ⟨?_, hrec.2⟩
      intro q hq
      have hlen : front.len ≤ q.1.len := by
        have : q.1 ∈ rest := by
          have := List.mem_map_of_mem Prod.fst hq
          rwa [code_seq_fst] at this
        exact hsorted.1 _ this
      exact ⟨hlen, (hrec.1 q hq).1⟩

/-! ### codewords as numbers -/

theorem cw_bits_split (v a b : Nat) :
    cw_bits v (a + b) = cw_bits (v / 2 ^ b) a ++ cw_bits v b := by
  induction a with
  | zero => simp [cw_bits]
  | succ a ih =>
    rw [show a + 1 + b = (a + b) + 1 by omega, cw_bits, cw_bits, ih, List.cons_append]
    congr 1
    rw [bit_arith, bit_arith, Nat.div_div_eq_div_mul, ← pow_add, Nat.add_comm b a]

theorem cw_bits_inj (a b n : Nat) (h : cw_bits a n = cw_bits b n) : a % 2 ^ n = b % 2 ^ n := by
  induction n with
  | zero => simp [Nat.mod_one]
  | succ n ih =>
    rw [cw_bits, cw_bits, List.cons.injEq, bit_arith, bit_arith] at h
    rw [Nat.mod_pow_succ, Nat.mod_pow_succ, ih h.2, h.1]

theorem codeword_not_prefix (ca la cb lb : Nat) (hl : la ≤ lb) (ha : ca < 2 ^ la)
    (hb : cb < 2 ^ lb) (hab : (ca + 1) * 2 ^ (lb - la) ≤ cb) :
    ¬ cw_bits ca la <+: cw_bits cb lb ∧ ¬ cw_bits cb lb <+: cw_bits ca la := by
  have hfwd : ¬ cw_bits ca la <+: cw_bits cb lb := by
    intro hp
    have hsplit := cw_bits_split cb la (lb - la)
    rw [show la + (lb - la) = lb by omega] at hsplit
    rw [hsplit] at hp
    have heq : cw_bits ca la = cw_bits (cb / 2 ^ (lb - la)) la := by
      have h2 : cw_bits (cb / 2 ^ (lb - la)) la <+:
          cw_bits (cb / 2 ^ (lb - la)) la ++ cw_bits cb (lb - la) := List.prefix_append _ _
      exact List.IsPrefix.eq_of_length
        (List.prefix_of_prefix_length_le hp h2 (by simp [cw_bits_length]))
        (by simp [cw_bits_length])
    have hmod := cw_bits_inj _ _ _ heq
    have hpow : (2 : Nat) ^ lb = 2 ^ la * 2 ^ (lb - la) := by
      rw [← pow_add]; congr 1; omega
    have hq : cb / 2 ^ (lb - la) < 2 ^ la := by
      rw [Nat.div_lt_iff_lt_mul (by positivity)]
      rw [← hpow]; exact hb
    have hq2 : ca + 1 ≤ cb / 2 ^ (lb - la) := by
      rw [Nat.le_div_iff_mul_le (by positivity)]
      exact hab
    rw [Nat.mod_eq_of_lt ha, Nat.mod_eq_of_lt hq] at hmod
    omega
  refine ⟨hfwd, ?_⟩
  intro hp
  have hlen := hp.length_le
  rw [cw_bits_length, cw_bits_length] at hlen
  have hll : lb = la := by omega
  have heq := List.IsPrefix.eq_of_length hp (by simp [cw_bits_length, hll])
  exact hfwd (by rw [heq])

theorem coded_items_prefix_free (lens : Nat → Nat)
    (hl : ∀ it ∈ sort_items (collect_items lens), it.len ≤ 32)
    (hk : kraft32 (sort_items (collect_items lens)) ≤ 2 ^ 32) :
    (coded_items lens).Pairwise fun p q =>
      ¬ item_bits p <+: item_bits q ∧ ¬ item_bits q <+: item_bits p := by
  obtain ⟨hlt, hpw⟩ := coded_items_spec lens hl hk
  have hpw2 : (coded_items lens).Pairwise fun p q =>
      p.2 < 2 ^ p.1.len ∧ q.2 < 2 ^ q.1.len ∧
        p.1.len ≤ q.1.len ∧ (p.2 + 1) * 2 ^ (q.1.len - p.1.len) ≤ q.2 := by
    rw [List.pairwise_iff_forall_sublist] at hpw ⊢
    intro a b hab
    have ha : a ∈ coded_items lens := hab.subset (by simp)
    have hb : b ∈ coded_items lens := hab.subset (by simp)
    exact ⟨hlt a ha, hlt b hb, hpw hab⟩
  refine hpw2.imp ?_
  intro p q ⟨h1, h2, h3, h4⟩
  exact codeword_not_prefix _ _ _ _ h3 h1 h2 h4

/-! ### the trie of a list of coded items -/

theorem fold_insert_ne_null (cs : List (L × Nat)) (root : DecNode) (h : root ≠ .null) :
    cs.foldl (fun root p => insert_code p.2 (p.1.sym : Int) p.1.len root) root ≠ .null := by
  induction cs generalizing root with
  | nil => exact h
  | cons c rest ih =>
    rw [List.foldl_cons]
    exact ih _ (insert_code_ne_null _ _ _ _ h)

theorem fold_insert_other (cs : List (L × Nat)) (root : DecNode) (h : root ≠ .null)
    (w : List Nat) (hw : ∀ b ∈ w, b < 2) (hne : ∀ q ∈ cs, w ≠ item_bits q) :
    (cs.foldl (fun root p => insert_code p.2 (p.1.sym : Int) p.1.len root) root).sym_at w =
      root.sym_at w := by
  induction cs generalizing root with
  | nil => rfl
  | cons c rest ih =>
    rw [List.foldl_cons, ih _ (insert_code_ne_null _ _ _ _ h)
      (fun q hq => hne q (List.mem_cons_of_mem _ hq)),
      sym_at_insert _ _ _ _ h w hw]
    exact if_neg (hne c (List.mem_cons_self _ _))

theorem fold_insert_self (cs : List (L × Nat)) (root : DecNode) (h : root ≠ .null)
    (hd : cs.Pairwise fun p q => ¬ item_bits p <+: item_bits q ∧ ¬ item_bits q <+: item_bits p)
    (p : L × Nat) (hp : p ∈ cs) :
    (cs.foldl (fun root p => insert_code p.2 (p.1.sym : Int) p.1.len root) root).sym_at
      (item_bits p) = (p.1.sym : Int) := by
  induction cs generalizing root with
  | nil => simp at hp
  | cons c rest ih =>
    rw [List.pairwise_cons] at hd
    rw [List.foldl_cons]
    rcases List.mem_cons.mp hp with hpc | hpr
    · rw [hpc, fold_insert_other rest _ (insert_code_ne_null _ _ _ _ h) (item_bits c)
        (cw_bits_lt _ _) (fun q hq heq => (hd.1 q hq).1 (by rw [heq])),
        sym_at_insert _ _ _ _ h (item_bits c) (cw_bits_lt _ _)]
      exact if_pos rfl
    · exact ih _ (insert_code_ne_null _ _ _ _ h) hd.2 hpr

/-- In the decode trie of a prefix-free code, the path of a codeword ends at a node with that
symbol, and every node strictly above it on the path carries no symbol. -/
theorem build_decode_tree_complete (lens : Nat → Nat)
    (hd : (coded_items lens).Pairwise fun p q =>
      ¬ item_bits p <+: item_bits q ∧ ¬ item_bits q <+: item_bits p)
    (p : L × Nat) (hp : p ∈ coded_items lens) :
    (build_decode_tree lens).sym_at (item_bits p) = (p.1.sym : Int) ∧
    ∀ w, w <+: item_bits p → w ≠ item_bits p → (build_decode_tree lens).sym_at w = -1 := by
  rw [build_decode_tree_fold]
  have hfresh : DecNode.fresh ≠ .null := by simp [DecNode.fresh]
  refine ⟨fold_insert_self _ _ hfresh hd p hp, ?_⟩
  intro w hw hne
  have hbits : ∀ b ∈ w, b < 2 := fun b hb => cw_bits_lt _ _ b (hw.subset hb)
  rw [fold_insert_other _ _ hfresh w hbits, sym_at_fresh]
  intro q hq heq
  rw [heq] at hw hne
  by_cases hqp : q = p
  · exact hne (by rw [hqp])
  · have hsymm : Symmetric fun p q : L × Nat =>
        ¬ item_bits p <+: item_bits q ∧ ¬ item_bits q <+: item_bits p :=
      fun a b h => ⟨h.2, h.1⟩
    exact (hd.forall hsymm hq hp hqp).1 hw

/-- The walk of `descend` along a path `w` whose end carries the symbol `sym` and whose
earlier nodes carry none: it consumes exactly `w` and returns `sym`. -/
theorem descend_complete (w : List Nat) (root : DecNode) (br : BitReader) (hr : RInv br)
    (sym : Int) (rest : List Nat) (hsym : 0 ≤ sym) (hend : root.sym_at w = sym)
    (habove : ∀ v, v <+: w → v ≠ w → root.sym_at v < 0)
    (hrem : br.remaining = w ++ rest) :
    ∃ br2, descend root br = .ok (sym, br2) ∧ RInv br2 ∧ br2.remaining = rest := by
  induction w generalizing root br with
  | nil =>
    cases root with
    | null => simp [DecNode.sym_at] at hend; omega
    | mk c0 c1 s =>
      simp only [DecNode.sym_at] at hend
      unfold descend
      have hs : ¬ s < 0 := by omega
      rw [if_neg hs, hend]
      exact ⟨br, rfl, hr, by simpa using hrem⟩
  | cons b w ih =>
    cases root with
    | null => simp [DecNode.sym_at] at hend; omega
    | mk c0 c1 s =>
      have hs : s < 0 := by
        have := habove [] (List.nil_prefix) (by simp)
        simpa [DecNode.sym_at] using this
      obtain ⟨hb1, hb2, hb3⟩ := br.read_bit_cons hr b (w ++ rest) (by simpa using hrem)
      have hnn : ¬ br.read_bit.1 < 0 := by rw [hb1]; omega
      unfold descend
      simp only [hs, if_true, hnn, if_false]
      by_cases hb0 : b = 0
      · have hz : br.read_bit.1 = 0 := by rw [hb1, hb0]; rfl
        simp only [hz, if_true]
        simp only [DecNode.sym_at, hb0, if_true] at hend
        have hab : ∀ v, v <+: w → v ≠ w → c0.sym_at v < 0 := by
          intro v hv hne
          have := habove (b :: v) (by rw [List.cons_prefix_cons]; exact ⟨rfl, hv⟩)
            (by simpa using hne)
          simpa [DecNode.sym_at, hb0] using this
        cases c0 with
        | null => rw [sym_at_null] at hend; omega
        | mk a b' s' => exact ih _ _ hb2 hend hab hb3
      · have hz : ¬ br.read_bit.1 = 0 := by
          rw [hb1]; exact_mod_cast hb0
        simp only [hz, if_false]
        simp only [DecNode.sym_at, hb0, if_false] at hend
        have hab : ∀ v, v <+: w → v ≠ w → c1.sym_at v < 0 := by
          intro v hv hne
          have := habove (b :: v) (by rw [List.cons_prefix_cons]; exact ⟨rfl, hv⟩)
            (by simpa using hne)
          simpa [DecNode.sym_at, hb0] using this
        cases c1 with
        | null => rw [sym_at_null] at hend; omega
        | mk a b' s' => exact ih _ _ hb2 hend hab hb3

/-- The decode loop on a stream that starts with the codewords of `data`: it runs to its end
and writes `data`. -/
theorem decode_loop_complete (root : DecNode) (table : Nat → Code) (data : List Nat)
    (hcode : ∀ b ∈ data, b < 256 ∧
      root.sym_at (cw_bits (table b).code (table b).len) = (b : Int) ∧
      ∀ v, v <+: cw_bits (table b).code (table b).len →
        v ≠ cw_bits (table b).code (table b).len → root.sym_at v < 0)
    (br : BitReader) (hr : RInv br) (rest : List Nat) (crc : Nat) (out : List Nat)
    (hrem : br.remaining =
      (data.flatMap fun b => cw_bits (table b).code (table b).len) ++ rest) :
    decode_loop root data.length br crc out = (0, crc32_update crc data, out ++ data) := by
  induction data generalizing br crc out with
  | nil => simp [decode_loop, crc32_update]
  | cons x xs ih =>
    obtain ⟨hx, hend, habove⟩ := hcode x (List.mem_cons_self _ _)
    rw [List.flatMap_cons, List.append_assoc] at hrem
    obtain ⟨br2, hd, hr2, hrem2⟩ :=
      descend_complete _ root br hr (x : Int) _ (by omega) hend habove hrem
    rw [List.length_cons, decode_loop, hd]
    simp only
    have hb : ((x : Int) % 256).toNat = x := by omega
    rw [hb, ih (fun b hb => hcode b (List.mem_cons_of_mem _ hb)) br2 hr2 _ _ hrem2]
    simp [crc32_update]

/-! ### the code table of a list of coded items -/

theorem fold_set_at_other (cs : List (L × Nat)) (out : Nat → Code) (s : Nat)
    (h : ∀ p ∈ cs, p.1.sym ≠ s) :
    cs.foldl (fun out p => set_at out p.1.sym { code := p.2, len := p.1.len }) out s = out s := by
  induction cs generalizing out with
  | nil => rfl
  | cons c rest ih =>
    rw [List.foldl_cons, ih _ (fun p hp => h p (List.mem_cons_of_mem _ hp))]
    have := h c (List.mem_cons_self _ _)
    simp [set_at, Ne.symm this]

theorem fold_set_at_self (cs : List (L × Nat)) (out : Nat → Code)
    (hnd : (cs.map fun p => p.1.sym).Nodup) (p : L × Nat) (hp : p ∈ cs) :
    cs.foldl (fun out p => set_at out p.1.sym { code := p.2, len := p.1.len }) out p.1.sym =
      { code := p.2, len := p.1.len } := by
  induction cs generalizing out with
  | nil => simp at hp
  | cons c rest ih =>
    rw [List.map_cons, List.nodup_cons] at hnd
    rw [List.foldl_cons]
    rcases List.mem_cons.mp hp with hpc | hpr
    · rw [hpc, fold_set_at_other rest _ _ ?_]
      · simp [set_at]
      · intro q hq heq
        exact hnd.1 (by rw [← heq]; exact List.mem_map_of_mem (fun p => p.1.sym) hq)
    · exact ih _ hnd.2 hpr

theorem table_lookup (lens : Nat → Nat) (s : Nat) (hs : s < 256) (hpos : 0 < lens s) :
    ∃ p ∈ coded_items lens, p.1.sym = s ∧ p.1.len = lens s ∧
      build_canonical lens s = { code := p.2, len := p.1.len } := by
  have hmem : (⟨lens s, s⟩ : L) ∈ sort_items (collect_items lens) :=
    (mem_sorted_items lens _).mpr ⟨hs, hpos, rfl⟩
  rw [← coded_items_fst, List.mem_map] at hmem
  obtain ⟨p, hp, hp1⟩ := hmem
  have hsym : p.1.sym = s := by rw [hp1]
  have hlen : p.1.len = lens s := by rw [hp1]
  refine ⟨p, hp, hsym, hlen, ?_⟩
  have hnd : ((coded_items lens).map fun p => p.1.sym).Nodup := by
    have h := sorted_items_nodup lens
    rw [← coded_items_fst, List.map_map] at h
    exact h
  rw [build_canonical_fold, ← hsym]
  exact fold_set_at_self _ _ hnd p hp

theorem fits32_items (lens : Nat → Nat) (h : Fits32 lens) :
    ∀ it ∈ sort_items (collect_items lens), it.len ≤ 32 := by
  intro it hit
  obtain ⟨h1, -, h3⟩ := (mem_sorted_items lens it).mp hit
  rw [h3]
  exact h.1 _ h1

/-- For a length table that fits 32 bits, the canonical code is prefix-free. -/
theorem canonical_prefix_free (lens : Nat → Nat) (h : Fits32 lens) (s t : Nat)
    (hs : s < 256) (ht : t < 256) (hps : 0 < lens s) (hpt : 0 < lens t) (hne : s ≠ t) :
    ¬ cw_bits (build_canonical lens s).code (build_canonical lens s).len <+:
      cw_bits (build_canonical lens t).code (build_canonical lens t).len := by
  obtain ⟨p, hp, hp1, -, hp3⟩ := table_lookup lens s hs hps
  obtain ⟨q, hq, hq1, -, hq3⟩ := table_lookup lens t ht hpt
  have hpf := coded_items_prefix_free lens (fits32_items lens h) h.2
  have hsymm : Symmetric fun p q : L × Nat =>
      ¬ item_bits p <+: item_bits q ∧ ¬ item_bits q <+: item_bits p :=
    fun a b h => ⟨h.2, h.1⟩
  have hpq : p ≠ q := by
    intro heq
    rw [heq, hq1] at hp1
    exact hne hp1.symm
  rw [hp3, hq3]
  exact (hpf.forall hsymm hp hq hpq).1

/-- For a length table that fits 32 bits, the decode trie maps the codeword of every present
symbol to that symbol, and the nodes above it on the path carry no symbol. -/
theorem decode_tree_matches_table (lens : Nat → Nat) (h : Fits32 lens) (s : Nat)
    (hs : s < 256) (hps : 0 < lens s) :
    (build_decode_tree lens).sym_at
      (cw_bits (build_canonical lens s).code (build_canonical lens s).len) = (s : Int) ∧
    ∀ v, v <+: cw_bits (build_canonical lens s).code (build_canonical lens s).len →
      v ≠ cw_bits (build_canonical lens s).code (build_canonical lens s).len →
      (build_decode_tree lens).sym_at v < 0 := by
  obtain ⟨p, hp, hp1, -, hp3⟩ := table_lookup lens s hs hps
  have hpf := coded_items_prefix_free lens (fits32_items lens h) h.2
  obtain ⟨h1, h2⟩ := build_decode_tree_complete lens hpf p hp
  rw [hp3]
  refine ⟨by rw [← hp1]; exact h1, ?_⟩
  intro v hv hne
  have := h2 v hv hne
  omega

/-- The payload decoder on the packed codewords of `data`, for a length table that fits
32 bits and gives every byte of `data` a nonzero length. -/
theorem decode_payload_complete (lens : Nat → Nat) (h : Fits32 lens) (data payload : List Nat)
    (rest : List Nat) (hdata : ∀ b ∈ data, b < 256 ∧ 0 < lens b)
    (hp : ∀ c ∈ payload, c < 256)
    (hbits : bytes_to_bits payload =
      (data.flatMap fun b =>
        cw_bits (build_canonical lens b).code (build_canonical lens b).len) ++ rest) :
    decode_payload lens data.length (crc32 data) payload = (0, data) := by
  have hloop := decode_loop_complete (build_decode_tree lens) (build_canonical lens) data
    (fun b hb => ⟨(hdata b hb).1, decode_tree_matches_table lens h b (hdata b hb).1 (hdata b hb).2⟩)
    { f := payload, buf := 0, bits := 0 } ⟨by simp, by simp, hp⟩ rest 0xFFFFFFFF []
    (by simpa [BitReader.remaining] using hbits)
  unfold decode_payload
  rw [hloop]
  simp [crc32]

/-! ### the generated lengths fit 32 bits whenever none exceeds 32 -/

theorem kraft_scaled (l : List Nat) (f : Nat → Nat) (h : ∀ s ∈ l, f s ≤ 32) :
    (((l.map fun s => 2 ^ (32 - f s)).sum : Nat) : ℚ) =
      2 ^ 32 * (l.map fun s => (1 / 2 : ℚ) ^ f s).sum := by
  induction l with
  | nil => simp
  | cons a as ih =>
    have ha := h a (List.mem_cons_self _ _)
    have hterm : ((2 ^ (32 - f a) : Nat) : ℚ) = 2 ^ 32 * (1 / 2 : ℚ) ^ f a := by
      have h32 : (2 : ℚ) ^ 32 = 2 ^ (32 - f a) * 2 ^ f a := by
        rw [← pow_add]; congr 1; omega
      rw [h32, mul_assoc, ← mul_pow]
      norm_num
    rw [List.map_cons, List.sum_cons, List.map_cons, List.sum_cons, Nat.cast_add, hterm,
      ih (fun s hs => h s (List.mem_cons_of_mem _ hs))]
    ring

theorem kraft32_sort (l : List L) : kraft32 (sort_items l) = kraft32 l := by
  unfold kraft32
  exact ((sort_items_perm l).map _).sum_eq

theorem code_lengths_fits32 (tie : List Node → Nat) (freq : Nat → Nat)
    (h2 : 2 ≤ (present freq).length) (h32 : ∀ s < 256, code_lengths tie freq s ≤ 32) :
    Fits32 (code_lengths tie freq) := by
  obtain ⟨hsum, hpos, hzero⟩ := kraft_equality tie freq h2
  refine ⟨h32, ?_⟩
  have hfilter : ((List.range 256).filter fun s => decide (code_lengths tie freq s > 0)) =
      present freq := by
    unfold present
    apply List.filter_congr
    intro s hs
    rw [List.mem_range] at hs
    by_cases hf : freq s = 0
    · simp [hf, hzero s hs hf]
    · have h1 := (hpos s hs (Nat.pos_of_ne_zero hf)).1
      have h3 : 0 < code_lengths tie freq s := h1
      have h4 : 0 < freq s := Nat.pos_of_ne_zero hf
      simp [h3, h4]
  have hval : kraft32 (collect_items (code_lengths tie freq)) =
      ((present freq).map fun s => 2 ^ (32 - code_lengths tie freq s)).sum := by
    unfold kraft32 collect_items
    rw [hfilter, List.map_map]
    rfl
  have hq := kraft_scaled (present freq) (code_lengths tie freq)
    (fun s hs => h32 s ((mem_present freq s).mp hs).1)
  rw [hsum, mul_one] at hq
  rw [kraft32_sort, hval]
  have : ((present freq).map fun s => 2 ^ (32 - code_lengths tie freq s)).sum = 2 ^ 32 := by
    exact_mod_cast hq
  omega

theorem single_fits32 (x : Nat) (hx : x < 256) : Fits32 (set_at (fun _ => 0) x 1) := by
  constructor
  · intro s _
    by_cases h : s = x <;> simp [set_at, h]
  · unfold collect_items
    rw [filter_pos_singleton (set_at (fun _ => 0) x 1) x hx (by simp [set_at])
      (by intro s hs; simp [set_at, hs])]
    simp [sort_items, insert_item, kraft32, set_at]

/-- A nonempty input with fewer than two distinct byte values consists of one value `x`, and
its length table gives `x` the length 1 and every other symbol the length 0. -/
theorem single_symbol_lengths (tie : List Node → Nat) (data : List Nat) (hv : ValidInput data)
    (hne : data ≠ []) (h2 : ¬ 2 ≤ (present (count_freq data)).length) :
    ∃ x, x < 256 ∧ code_lengths tie (count_freq data) = set_at (fun _ => 0) x 1 ∧
      ∀ b ∈ data, b = x := by
  have hlen : data.length < 2 ^ 64 := by have := hv.1; omega
  have hfreq : ∀ s, 0 < count_freq data s ↔ s ∈ data := by
    intro s
    rw [count_freq_eq_count data hlen, List.count_pos_iff]
  cases hd : data with
  | nil => exact absurd hd hne
  | cons x xs =>
    rw [hd] at hv h2 hfreq
    have hx : x < 256 := hv.2 x (List.mem_cons_self _ _)
    have hxp : x ∈ present (count_freq (x :: xs)) :=
      (mem_present _ _).mpr ⟨hx, (hfreq x).mpr (List.mem_cons_self _ _)⟩
    have hone : (present (count_freq (x :: xs))).length = 1 := by
      have := List.length_pos_of_mem hxp
      omega
    obtain ⟨a, ha⟩ := List.length_eq_one.mp hone
    have hax : a = x := by
      rw [ha] at hxp
      exact (List.mem_singleton.mp hxp).symm
    have hother : ∀ s, s ≠ x → count_freq (x :: xs) s = 0 := by
      intro s hs
      by_contra hne
      have hmem : s ∈ x :: xs := (hfreq s).mp (Nat.pos_of_ne_zero hne)
      have hsp : s ∈ present (count_freq (x :: xs)) :=
        (mem_present _ _).mpr ⟨hv.2 s hmem, Nat.pos_of_ne_zero hne⟩
      rw [ha, hax] at hsp
      exact hs (List.mem_singleton.mp hsp)
    refine ⟨x, hx, code_lengths_single tie (count_freq (x :: xs)) x hx
      ((hfreq x).mpr (List.mem_cons_self _ _)) hother, ?_⟩
    intro b hb
    by_contra hne
    have := hother b hne
    have := (hfreq b).mpr hb
    omega

/-- The facts about the length table of a nonempty input that the round trip rests on. -/
theorem input_lengths_fit (tie : List Node → Nat) (data : List Nat) (hv : ValidInput data)
    (hne : data ≠ []) (h32 : ∀ s < 256, code_lengths tie (count_freq data) s ≤ 32) :
    Fits32 (code_lengths tie (count_freq data)) ∧
      ∀ b ∈ data, 0 < code_lengths tie (count_freq data) b := by
  have hlen : data.length < 2 ^ 64 := by have := hv.1; omega
  by_cases h2 : 2 ≤ (present (count_freq data)).length
  · refine ⟨code_lengths_fits32 tie _ h2 h32, ?_⟩
    intro b hb
    have hpos : 0 < count_freq data b := by
      rw [count_freq_eq_count data hlen, List.count_pos_iff]; exact hb
    have := ((kraft_equality tie _ h2).2.1 b (hv.2 b hb) hpos).1
    omega
  · obtain ⟨x, hx, hcl, hall⟩ := single_symbol_lengths tie data hv hne h2
    rw [hcl]
    refine ⟨single_fits32 x hx, ?_⟩
    intro b hb
    simp [set_at, hall b hb]

/-- With at least two symbols present, every code length is below the number of symbols
present. -/
theorem code_lengths_lt_symbols (tie : List Node → Nat) (freq : Nat → Nat)
    (h2 : 2 ≤ (present freq).length) (s : Nat) (hs : s < 256) :
    code_lengths tie freq s + 1 ≤ (present freq).length := by
  obtain ⟨hfull, hsym, hperm⟩ := build_tree_spec tie freq h2
  have hnd : (((build_tree tie freq).leaves 0).map Prod.fst).Nodup :=
    (hperm.nodup_iff).mpr (present_nodup freq)
  have hlen : ((build_tree tie freq).leaves 0).length = (present freq).length := by
    have := hperm.length_eq
    simpa only [Node.syms, List.length_map] using this
  by_cases hf : freq s = 0
  · rw [(kraft_equality tie freq h2).2.2 s hs hf]; omega
  · have hmem : s ∈ (build_tree tie freq).syms :=
      hperm.mem_iff.mpr ((mem_present freq s).mpr ⟨hs, Nat.pos_of_ne_zero hf⟩)
    obtain ⟨p, hp, rfl⟩ := List.mem_map.mp hmem
    have hb := hfull.depth_bounds 0 p hp
    have hpos := hfull.depth_pos_of_internal hsym 0 p hp
    have h256 := present_length_le freq
    have hval : code_lengths tie freq p.1 = p.2 := by
      unfold code_lengths
      rw [gather_eq, foldl_set_at_mem len_of_depth _ _ hnd p hp]
      unfold len_of_depth
      rw [if_neg (by omega), Nat.mod_eq_of_lt (by omega)]
    rw [hval]; omega

/-- Round trip for every input whose generated code lengths are at most 32 bits:
decompressing the container written by `compress_file` returns status 0 and the input. -/
theorem round_trip (tie : List Node → Nat) (hw : Nat) (data : List Nat) (hv : ValidInput data)
    (h32 : ∀ s < 256, code_lengths tie (count_freq data) s ≤ 32) :
    (compress_file tie hw data).1 = 0 ∧
      decompress_file (compress_file tie hw data).2 = (0, data) := by
  by_cases hne : data = []
  · subst hne
    rw [compress_empty]
    exact ⟨rfl, decompress_empty.2⟩
  · obtain ⟨payload, hfile, hpl, hbits⟩ := compress_file_spec tie hw data hne hv
    obtain ⟨hfit, hpos⟩ := input_lengths_fit tie data hv hne h32
    rw [hfile]
    refine ⟨rfl, ?_⟩
    simp only
    rw [decompress_file_spec data.length _ _ (crc32 data) payload (by have := hv.1; omega)
      (by intro h; exact hne (List.length_eq_zero.mp h)) (by simp) (by omega)
      (crc32_lt data hv.2)]
    have hcongr : ∀ s < 256,
        ((List.range 256).map (code_lengths tie (count_freq data))).getD s 0 =
          code_lengths tie (count_freq data) s :=
      fun s hs => getD_map_range _ s hs
    unfold decode_payload
    rw [build_decode_tree_congr _ _ hcongr]
    exact decode_payload_complete _ hfit data payload _
      (fun b hb => ⟨hv.2 b hb, hpos b hb⟩) hpl hbits

/-- Round trip for every input with at most 33 distinct byte values. -/
theorem round_trip_few_symbols (tie : List Node → Nat) (hw : Nat) (data : List Nat)
    (hv : ValidInput data) (hfew : (present (count_freq data)).length ≤ 33) :
    (compress_file tie hw data).1 = 0 ∧
      decompress_file (compress_file tie hw data).2 = (0, data) := by
  by_cases hne : data = []
  · subst hne
    rw [compress_empty]
    exact ⟨rfl, decompress_empty.2⟩
  · apply round_trip tie hw data hv
    intro s hs
    by_cases h2 : 2 ≤ (present (count_freq data)).length
    · have := code_lengths_lt_symbols tie _ h2 s hs
      omega
    · obtain ⟨x, hx, hcl, -⟩ := single_symbol_lengths tie data hv hne h2
      rw [hcl]
      by_cases h : s = x <;> simp [set_at, h]

/-! ### exactly two distinct symbols -/

theorem filter_range_pair (p : Nat → Bool) (a b : Nat) (hab : a < b)
    (hp : ∀ s, (s < 256 ∧ p s = true) ↔ (s = a ∨ s = b)) :
    (List.range 256).filter p = [a, b] := by
  apply List.eq_of_perm_of_sorted (r := (· < ·))
  · rw [List.perm_ext_iff_of_nodup ((List.nodup_range 256).filter _)
      (by simp [Nat.ne_of_lt hab])]
    intro s
    rw [List.mem_filter, List.mem_range, hp s]
    simp
  · exact (List.sorted_lt_range 256).filter _
  · simp [hab]

theorem build_canonical_two (a b : Nat) (hab : a < b) (hb : b < 256) :
    build_canonical (two_lens a b) a = ⟨0, 1⟩ ∧ build_canonical (two_lens a b) b = ⟨1, 1⟩ := by
  have hne : a ≠ b := Nat.ne_of_lt hab
  have hitems : collect_items (two_lens a b) = [⟨1, a⟩, ⟨1, b⟩] := by
    unfold collect_items
    rw [filter_range_pair _ a b hab]
    · simp [two_lens, set_at, hne]
    · intro s
      simp only [two_lens, set_at, gt_iff_lt, decide_eq_true_eq]
      constructor
      · rintro ⟨-, h⟩
        by_cases h1 : s = b
        · exact Or.inr h1
        · by_cases h2 : s = a
          · exact Or.inl h2
          · simp [h1, h2] at h
      · rintro (h | h)
        · subst h; exact ⟨by omega, by simp [hne]⟩
        · subst h; exact ⟨hb, by simp⟩
  have hlt : item_lt ⟨1, b⟩ ⟨1, a⟩ = false := by
    simp [item_lt]; omega
  unfold build_canonical
  rw [hitems]
  simp [sort_items, insert_item, hlt, canonical_loop, next_code, set_at, hne, Ne.symm hne]

theorem two_symbol_lengths (tie : List Node → Nat) (data : List Nat) (a b : Nat)
    (hv : ValidInput data) (hab : a < b) (ha : a ∈ data) (hb : b ∈ data)
    (hall : ∀ x ∈ data, x = a ∨ x = b) :
    ∀ s < 256, code_lengths tie (count_freq data) s = two_lens a b s := by
  have hlen : data.length < 2 ^ 64 := by have := hv.1; omega
  have hfreq : ∀ s, 0 < count_freq data s ↔ s ∈ data := by
    intro s
    rw [count_freq_eq_count data hlen, List.count_pos_iff]
  have hpres : present (count_freq data) = [a, b] := by
    unfold present
    apply filter_range_pair _ a b hab
    intro s
    simp only [gt_iff_lt, decide_eq_true_eq, hfreq]
    constructor
    · rintro ⟨-, h⟩; exact hall s h
    · rintro (h | h)
      · subst h; exact ⟨hv.2 _ ha, ha⟩
      · subst h; exact ⟨hv.2 _ hb, hb⟩
  have h2 : 2 ≤ (present (count_freq data)).length := by rw [hpres]; simp
  obtain ⟨-, hpos, hzero⟩ := kraft_equality tie (count_freq data) h2
  intro s hs
  have hle := code_lengths_lt_symbols tie (count_freq data) h2 s hs
  rw [hpres] at hle
  simp only [List.length_cons, List.length_nil] at hle
  by_cases hsd : s ∈ data
  · have h1 := (hpos s hs ((hfreq s).mpr hsd)).1
    have hval : code_lengths tie (count_freq data) s = 1 := by omega
    rw [hval]
    rcases hall s hsd with h | h
    · subst h; simp [two_lens, set_at, Nat.ne_of_lt hab]
    · subst h; simp [two_lens, set_at]
  · have hz : count_freq data s = 0 := by
      by_contra hne
      exact hsd ((hfreq s).mp (Nat.pos_of_ne_zero hne))
    rw [hzero s hs hz]
    have h1 : s ≠ a := fun h => hsd (h ▸ ha)
    have h2 : s ≠ b := fun h => hsd (h ▸ hb)
    simp [two_lens, set_at, h1, h2]

/-- An input with exactly two distinct byte values `a < b`: both get the length 1, `a` the
code 0 and `b` the code 1. -/
theorem two_symbol_table (tie : List Node → Nat) (data : List Nat) (a b : Nat)
    (hv : ValidInput data) (hab : a < b) (ha : a ∈ data) (hb : b ∈ data)
    (hall : ∀ x ∈ data, x = a ∨ x = b) :
    code_lengths tie (count_freq data) a = 1 ∧ code_lengths tie (count_freq data) b = 1 ∧
    build_canonical (code_lengths tie (count_freq data)) a = ⟨0, 1⟩ ∧
    build_canonical (code_lengths tie (count_freq data)) b = ⟨1, 1⟩ := by
  have hl := two_symbol_lengths tie data a b hv hab ha hb hall
  have hb256 : b < 256 := hv.2 _ hb
  have hne : a ≠ b := Nat.ne_of_lt hab
  rw [build_canonical_congr _ _ hl, hl a (by omega), hl b hb256]
  refine ⟨by simp [two_lens, set_at, hne], by simp [two_lens, set_at], ?_⟩
  exact build_canonical_two a b hab hb256

theorem compress_file_eq_of_lengths (tie tie2 : List Node → Nat) (hw hw2 : Nat) (data : List Nat)
    (h : code_lengths tie (count_freq data) = code_lengths tie2 (count_freq data)) :
    compress_file tie hw data = compress_file tie2 hw2 data := by
  unfold compress_file encode_chunks_parallel
  simp only [h]

theorem two_symbol_scenario_unique :
    build_unique (count_freq [0x41, 0x41, 0x41, 0x42]) = true := by decide!

theorem two_symbol_scenario_first :
    (compress_file firstTie 1 [0x41, 0x41, 0x41, 0x42]).2.length = 274 ∧
    ((compress_file firstTie 1 [0x41, 0x41, 0x41, 0x42]).2.drop 268).take 1 = [4] ∧
    (compress_file firstTie 1 [0x41, 0x41, 0x41, 0x42]).2.drop 273 = [0x10] ∧
    decompress_file (compress_file firstTie 1 [0x41, 0x41, 0x41, 0x42]).2 =
      (0, [0x41, 0x41, 0x41, 0x42]) := by decide!

theorem two_symbol_scenario (tie : List Node → Nat) (hw : Nat) :
    (compress_file tie hw [0x41, 0x41, 0x41, 0x42]).2.length = 274 ∧
    ((compress_file tie hw [0x41, 0x41, 0x41, 0x42]).2.drop 268).take 1 = [4] ∧
    (compress_file tie hw [0x41, 0x41, 0x41, 0x42]).2.drop 273 = [0x10] ∧
    decompress_file (compress_file tie hw [0x41, 0x41, 0x41, 0x42]).2 =
      (0, [0x41, 0x41, 0x41, 0x42]) := by
  rw [compress_file_eq_of_lengths tie firstTie hw 1 _
    (code_lengths_unique tie _ two_symbol_scenario_unique)]
  exact two_symbol_scenario_first

/-! ### the checksum -/

theorem crc_step_eq_standard (crc : Nat) : crc_step crc = crc32_standard_step crc := by
  unfold crc_step crc32_standard_step
  rw [Nat.and_one_is_mod]
  rcases Nat.mod_two_eq_zero_or_one crc with h | h
  · rw [h]; simp
  · rw [h]
    simp only [if_true]
    rfl

theorem foldl_range_iterate (f : Nat → Nat) (n x : Nat) :
    (List.range n).foldl (fun c _ => f c) x = Nat.iterate f n x := by
  induction n with
  | zero => rfl
  | succ n ih =>
    rw [List.range_succ, List.foldl_append, ih, Function.iterate_succ_apply']
    rfl

theorem crc_byte_eq_standard (crc b : Nat) : crc_byte crc b = crc32_standard_byte crc b := by
  unfold crc_byte crc32_standard_byte
  rw [show (fun c (_ : Nat) => crc_step c) = fun c _ => crc32_standard_step c from
    funext fun c => funext fun _ => crc_step_eq_standard c]
  exact foldl_range_iterate _ _ _

theorem crc32_eq_standard (data : List Nat) : crc32 data = crc32_standard data := by
  unfold crc32 crc32_standard crc32_update
  rw [show crc_byte = crc32_standard_byte from
    funext fun c => funext fun b => crc_byte_eq_standard c b]

theorem crc32_check_values :
    crc32 [] = 0 ∧ crc32 [0x31, 0x32, 0x33, 0x34, 0x35, 0x36, 0x37, 0x38, 0x39] = 0xCBF43926 := by
  decide!

/-! ### the filler count -/

theorem pad_bits_of_container (tie : List Node → Nat) (hw : Nat) (data : List Nat)
    (hne : data ≠ []) (hv : ValidInput data) :
    273 ≤ (compress_file tie hw data).2.length ∧
    (data.map fun b => (code_table tie data b).len).sum ≤
      8 * ((compress_file tie hw data).2.length - 273) ∧
    (compress_file tie hw data).2.getD 268 0 =
      8 * ((compress_file tie hw data).2.length - 273) -
        (data.map fun b => (code_table tie data b).len).sum ∧
    (compress_file tie hw data).2.getD 268 0 ≤ 7 := by
  obtain ⟨payload, hfile, hpl, hbits⟩ := compress_file_spec tie hw data hne hv
  have hL := encode_bits_length (code_table tie data) data
  have hlen := congrArg List.length hbits
  rw [bytes_to_bits_length, List.length_append, List.length_replicate, hL] at hlen
  rw [hL] at hfile
  rw [hfile]
  simp only
  have hflen : (MAGIC ++ le_bytes 8 data.length ++
      (List.range 256).map (code_lengths tie (count_freq data)) ++
      [(8 - (data.map fun b => (code_table tie data b).len).sum % 8) % 8] ++
      le_bytes 4 (crc32 data) ++ payload).length = 273 + payload.length := by
    simp [MAGIC, le_bytes_length]
    omega
  have hget : (MAGIC ++ le_bytes 8 data.length ++
      (List.range 256).map (code_lengths tie (count_freq data)) ++
      [(8 - (data.map fun b => (code_table tie data b).len).sum % 8) % 8] ++
      le_bytes 4 (crc32 data) ++ payload).getD 268 0 =
      (8 - (data.map fun b => (code_table tie data b).len).sum % 8) % 8 := by
    rw [List.append_assoc, List.append_assoc _ [_], List.getD_append_right _ _ _ _
      (by simp [MAGIC, le_bytes_length])]
    simp [MAGIC, le_bytes_length]
  rw [hflen, hget]
  refine ⟨by omega, by omega, by omega, by omega⟩

/-! ### the statuses of `decompress_file` -/

theorem read_le_rest (n i x : Nat) (f : List Nat) :
    (read_le n i x f).2 = if n ≤ f.length then f.drop n else [] := by
  induction n generalizing i x f with
  | zero => simp [read_le]
  | succ n ih =>
    cases f with
    | nil => simp [read_le]
    | cons c rest =>
      rw [read_le, ih]
      simp

theorem descend_error_cases (root : DecNode) (br : BitReader) (st : Nat)
    (h : descend root br = .error st) : st = 6 ∨ st = 7 := by
  induction root generalizing br with
  | null =>
    simp only [descend, Except.error.injEq] at h
    exact Or.inr h.symm
  | mk c0 c1 s ih0 ih1 =>
    unfold descend at h
    by_cases hs : s < 0
    · simp only [hs, if_true] at h
      by_cases hneg : br.read_bit.1 < 0
      · simp only [hneg, if_true, Except.error.injEq] at h
        exact Or.inl h.symm
      · simp only [hneg, if_false] at h
        by_cases hz : br.read_bit.1 = 0
        · simp only [hz, if_true] at h
          cases c0 with
          | null =>
            simp only [Except.error.injEq] at h
            exact Or.inr h.symm
          | mk a b s2 => exact ih0 _ h
        · simp only [hz, if_false] at h
          cases c1 with
          | null =>
            simp only [Except.error.injEq] at h
            exact Or.inr h.symm
          | mk a b s2 => exact ih1 _ h
    · simp only [hs, if_false] at h
      cases h

theorem decode_loop_status (root : DecNode) (n : Nat) (br : BitReader) (crc : Nat)
    (out : List Nat) :
    (decode_loop root n br crc out).1 = 0 ∨ (decode_loop root n br crc out).1 = 6 ∨
      (decode_loop root n br crc out).1 = 7 := by
  induction n generalizing br crc out with
  | zero => exact Or.inl rfl
  | succ n ih =>
    unfold decode_loop
    cases hd : descend root br with
    | error st =>
      rcases descend_error_cases root br st hd with h | h
      · exact Or.inr (Or.inl h)
      · exact Or.inr (Or.inr h)
    | ok r =>
      obtain ⟨sym, br2⟩ := r
      exact ih _ _ _

/-- The status of `decompress_file` on an arbitrary file, by the cause that decides it. -/
theorem decompress_status (file : List Nat) :
    (file.take 4 ≠ MAGIC ∧ decompress_file file = (2, [])) ∨
    (file.take 4 = MAGIC ∧ file.length < 268 ∧ decompress_file file = (3, [])) ∨
    (file.take 4 = MAGIC ∧ 268 ≤ file.length ∧ (file.length = 268 ∨ 7 < file.getD 268 0) ∧
      decompress_file file = (9, [])) ∨
    (file.take 4 = MAGIC ∧ 268 < file.length ∧ file.getD 268 0 ≤ 7 ∧
      ((decompress_file file).1 = 0 ∨ (decompress_file file).1 = 6 ∨
        (decompress_file file).1 = 7 ∨ (decompress_file file).1 = 10)) := by
  by_cases hm : file.take 4 = MAGIC
  · have hlen4 : 4 ≤ file.length := by
      have := congrArg List.length hm
      simp only [List.length_take, MAGIC, List.length_cons, List.length_nil] at this
      omega
    have hcond : ¬ ((file.take 4).length ≠ 4 ∨ file.take 4 ≠ MAGIC) := by
      rw [hm]; simp [MAGIC]
    have hrest : (read_u64_le (file.drop 4)).2 =
        if 12 ≤ file.length then file.drop 12 else [] := by
      unfold read_u64_le
      rw [read_le_rest, List.length_drop, List.drop_drop]
      by_cases h12 : 12 ≤ file.length
      · rw [if_pos (by omega), if_pos h12]
      · rw [if_neg (by omega), if_neg h12]
    by_cases h268 : file.length < 268
    · refine Or.inr (Or.inl ⟨hm, h268, ?_⟩)
      unfold decompress_file
      simp only [hcond, if_false, hrest]
      have : ((if 12 ≤ file.length then file.drop 12 else []).take 256).length ≠ 256 := by
        by_cases h12 : 12 ≤ file.length
        · rw [if_pos h12, List.length_take, List.length_drop]; omega
        · rw [if_neg h12]; simp
      rw [if_pos this]
    · have h12 : 12 ≤ file.length := by omega
      have hl : ¬ ((file.drop 12).take 256).length ≠ 256 := by
        rw [List.length_take, List.length_drop]; omega
      have hdrop : (file.drop 12).drop 256 = file.drop 268 := by
        rw [List.drop_drop]
      by_cases heq : file.length = 268
      · refine Or.inr (Or.inr (Or.inl ⟨hm, by omega, Or.inl heq, ?_⟩))
        unfold decompress_file
        simp only [hcond, if_false, hrest, if_pos h12, hl, hdrop]
        rw [List.drop_of_length_le (by omega)]
      · have hgt : 268 < file.length := by omega
        obtain ⟨pad, tl, htl⟩ : ∃ pad tl, file.drop 268 = pad :: tl := by
          cases hd : file.drop 268 with
          | nil =>
            have := congrArg List.length hd
            simp only [List.length_drop, List.length_nil] at this
            omega
          | cons p t => exact ⟨p, t, rfl⟩
        have hpad : file.getD 268 0 = pad := by
          have h1 : file.getD 268 0 = (file.drop 268).getD 0 0 := by
            simp [List.getD_eq_getElem?_getD, List.getElem?_drop]
          rw [h1, htl]; rfl
        by_cases hp : 7 < pad
        · refine Or.inr (Or.inr (Or.inl ⟨hm, by omega, Or.inr (by rw [hpad]; exact hp), ?_⟩))
          unfold decompress_file
          simp only [hcond, if_false, hrest, if_pos h12, hl, hdrop, htl]
          rw [if_pos hp]
        · refine Or.inr (Or.inr (Or.inr ⟨hm, hgt, by rw [hpad]; omega, ?_⟩))
          unfold decompress_file
          simp only [hcond, if_false, hrest, if_pos h12, hl, hdrop, htl]
          rw [if_neg hp]
          by_cases hz : (read_u64_le (file.drop 4)).1 = 0
          · rw [if_pos hz]; exact Or.inl rfl
          · rw [if_neg hz]
            have hnn := (build_decode_tree_ok
              (fun s => ((file.drop 12).take 256).getD s 0)).1
            cases hb : build_decode_tree (fun s => ((file.drop 12).take 256).getD s 0) with
            | null => exact absurd hb hnn
            | mk c0 c1 s =>
              simp only
              have hst := decode_loop_status (DecNode.mk c0 c1 s) (read_u64_le (file.drop 4)).1
                { f := (read_u32_le tl).2, buf := 0, bits := 0 } 0xFFFFFFFF []
              by_cases h0 : (decode_loop (DecNode.mk c0 c1 s) (read_u64_le (file.drop 4)).1
                { f := (read_u32_le tl).2, buf := 0, bits := 0 } 0xFFFFFFFF []).1 ≠ 0
              · rw [if_pos h0]
                rcases hst with h | h | h
                · exact absurd h h0
                · exact Or.inr (Or.inl h)
                · exact Or.inr (Or.inr (Or.inl h))
              · rw [if_neg h0]
                split
                · exact Or.inr (Or.inr (Or.inr rfl))
                · exact Or.inl rfl
  · refine Or.inl ⟨hm, ?_⟩
    unfold decompress_file
    simp only
    rw [if_pos (Or.inr hm)]

/-! ### the bit stream written and read back -/

theorem cw_bits_getElem? (v n t : Nat) (ht : t < n) :
    (cw_bits v n)[t]? = some ((v >>> (n - 1 - t)) &&& 1) := by
  induction n generalizing t with
  | zero => omega
  | succ n ih =>
    rw [cw_bits]
    cases t with
    | zero => simp
    | succ t =>
      rw [List.getElem?_cons_succ, ih t (by omega)]
      congr 3
      omega

theorem bytes_bit (f : List Nat) (i : Nat) (hi : i < 8 * f.length) :
    (bytes_to_bits f)[i]? = some ((f.getD (i / 8) 0 >>> (7 - i % 8)) &&& 1) := by
  have h := bytes_to_bits_getElem? f (i / 8) (i % 8) (by omega) (Nat.mod_lt _ (by decide))
  rw [Nat.div_add_mod] at h
  rw [h, cw_bits_getElem? _ 8 _ (Nat.mod_lt _ (by decide))]

theorem read_many_pad (k m : Nat) (r : BitReader) (h : RInv r) (hm : k ≤ m) :
    r.read_many k =
      ((r.remaining.map fun b : Nat => (b : Int)) ++ List.replicate m (-1)).take k := by
  induction k generalizing r m with
  | zero => rw [BitReader.read_many, List.take_zero]
  | succ k ih =>
    rw [BitReader.read_many]
    cases hrem : r.remaining with
    | nil =>
      rw [r.read_bit_eof h hrem]
      obtain ⟨m2, rfl⟩ : ∃ m2, m = m2 + 1 := ⟨m - 1, by omega⟩
      rw [ih m2 r h (by omega), hrem, List.map_nil, List.nil_append, List.nil_append,
        List.replicate_succ, List.take_succ_cons]
    | cons b rest =>
      obtain ⟨h1, h2, h3⟩ := r.read_bit_cons h b rest hrem
      rw [h1, ih m _ h2 (by omega), h3, List.map_cons, List.cons_append, List.take_succ_cons]

theorem read_many_spec (k : Nat) (r : BitReader) (h : RInv r) :
    r.read_many k =
      ((r.remaining.map fun b : Nat => (b : Int)) ++ List.replicate k (-1)).take k :=
  read_many_pad k k r h (le_refl k)

/-- A fresh `BitWriter` fed the bits of a list and flushed once, and a fresh `BitReader` on
the bytes written. -/
theorem bit_stream_round_trip (bits : List Nat) (h : ∀ b ∈ bits, b < 2) :
    (((BitWriter.mk [] 0 0).write_list bits).flush.f).length = (bits.length + 7) / 8 ∧
    (∀ c ∈ ((BitWriter.mk [] 0 0).write_list bits).flush.f, c < 256) ∧
    (∀ i, i < bits.length →
      some (((((BitWriter.mk [] 0 0).write_list bits).flush.f).getD (i / 8) 0
        >>> (7 - i % 8)) &&& 1) = bits[i]?) ∧
    (∀ i, bits.length ≤ i → i < 8 * ((bits.length + 7) / 8) →
      ((((BitWriter.mk [] 0 0).write_list bits).flush.f).getD (i / 8) 0
        >>> (7 - i % 8)) &&& 1 = 0) ∧
    ∀ k, (BitReader.mk (((BitWriter.mk [] 0 0).write_list bits).flush.f) 0 0).read_many k =
      ((bits.map fun b : Nat => (b : Int)) ++
        List.replicate (8 * ((bits.length + 7) / 8) - bits.length) 0 ++
        List.replicate k (-1)).take k := by
  obtain ⟨payload, hf, hlt, hbits⟩ := BitWriter.write_flush_spec [] bits h
  rw [List.nil_append] at hf
  rw [hf]
  have hlen := congrArg List.length hbits
  rw [bytes_to_bits_length, List.length_append, List.length_replicate] at hlen
  have hpl : payload.length = (bits.length + 7) / 8 := by omega
  have hpad : (8 - bits.length % 8) % 8 = 8 * ((bits.length + 7) / 8) - bits.length := by omega
  refine ⟨hpl, hlt, ?_, ?_, ?_⟩
  · intro i hi
    rw [← bytes_bit payload i (by omega), hbits, List.getElem?_append_left hi]
  · intro i h1 h2
    have hb := bytes_bit payload i (by omega)
    rw [hbits, List.getElem?_append_right h1, List.getElem?_replicate,
      if_pos (by omega)] at hb
    exact (Option.some.inj hb).symm
  · intro k
    rw [read_many_spec k _ ⟨by simp, by simp, hlt⟩]
    have hrem : (BitReader.mk payload 0 0).remaining = bytes_to_bits payload := by
      simp [BitReader.remaining]
    rw [hrem, hbits, hpad, List.map_append, List.map_replicate]
    rfl

/-! ### the in-memory buffer -/

theorem mem_write_list_bits (bits : List Nat) (h : ∀ b ∈ bits, b < 2) :
    (MemBitWriter.init.write_list bits).bits = bits.length % 8 ∧
    (MemBitWriter.init.write_list bits).bytes.length = bits.length / 8 := by
  obtain ⟨⟨h1, -⟩, h2⟩ := MemBitWriter.mem_write_list_spec bits h
  have hlen := congrArg List.length h2
  rw [List.length_append, bytes_to_bits_length, cw_bits_length] at hlen
  omega

/-- A fresh `MemBitWriter` fed the bits of a list and flushed once. -/
theorem mem_buffer_replay (bits : List Nat) (h : ∀ b ∈ bits, b < 2) :
    ((MemBitWriter.init.write_list bits).flush).last_valid_bits =
      (if bits.length = 0 then 0 else (bits.length - 1) % 8 + 1) ∧
    ((MemBitWriter.init.write_list bits).flush).bytes.length = (bits.length + 7) / 8 ∧
    ∀ (σ : Type) (wb : σ → Nat → σ) (sink : σ),
      ((MemBitWriter.init.write_list bits).flush).replay_into wb sink = bits.foldl wb sink := by
  obtain ⟨hinv, hspec⟩ := MemBitWriter.mem_write_list_spec bits h
  obtain ⟨hb, hl⟩ := mem_write_list_bits bits h
  refine ⟨?_, ?_, ?_⟩
  · unfold MemBitWriter.flush
    by_cases h0 : (MemBitWriter.init.write_list bits).bits > 0
    · rw [if_pos h0]
      simp only
      have : bits.length ≠ 0 := by omega
      rw [if_neg this, hb]; omega
    · rw [if_neg h0]
      by_cases hne : (MemBitWriter.init.write_list bits).bytes ≠ []
      · rw [if_pos hne]
        simp only
        have hpos : 0 < (MemBitWriter.init.write_list bits).bytes.length :=
          List.length_pos.mpr hne
        have : bits.length ≠ 0 := by omega
        rw [if_neg this]; omega
      · rw [if_neg hne]
        simp only
        have hz : (MemBitWriter.init.write_list bits).bytes.length = 0 := by
          rw [not_not] at hne; rw [hne]; rfl
        have : bits.length = 0 := by omega
        rw [if_pos this]
  · unfold MemBitWriter.flush
    by_cases h0 : (MemBitWriter.init.write_list bits).bits > 0
    · rw [if_pos h0]
      simp only [List.length_append, List.length_singleton]
      omega
    · rw [if_neg h0]
      have : ((if (MemBitWriter.init.write_list bits).bytes ≠ [] then
          { MemBitWriter.init.write_list bits with last_valid_bits := 8 }
          else { MemBitWriter.init.write_list bits with last_valid_bits := 0 }) :
            MemBitWriter).bytes = (MemBitWriter.init.write_list bits).bytes := by
        split <;> rfl
      rw [this]; omega
  · intro σ wb sink
    rw [MemBitWriter.replay_flush wb _ sink hinv, hspec]

/-! ### a payload cut short -/

theorem bytes_to_bits_take (f : List Nat) (j : Nat) :
    bytes_to_bits (f.take j) = (bytes_to_bits f).take (8 * j) := by
  induction f generalizing j with
  | nil => simp [bytes_to_bits]
  | cons c cs ih =>
    cases j with
    | zero => simp [bytes_to_bits]
    | succ j =>
      have h1 : bytes_to_bits (c :: cs) = cw_bits c 8 ++ bytes_to_bits cs := by
        simp [bytes_to_bits]
      have h2 : bytes_to_bits (c :: cs.take j) = cw_bits c 8 ++ bytes_to_bits (cs.take j) := by
        simp [bytes_to_bits]
      have e1 : (cw_bits c 8).take (8 * (j + 1)) = cw_bits c 8 :=
        List.take_of_length_le (by rw [cw_bits_length]; omega)
      have e2 : 8 * (j + 1) - (cw_bits c 8).length = 8 * j := by
        rw [cw_bits_length]; omega
      rw [List.take_succ_cons, h1, h2, ih j, List.take_append_eq_append_take, e1, e2]

/-- A proper initial part of the codeword stream of `data` consists of the codewords of an
initial part of `data` followed by a proper initial part of the next codeword. -/
theorem encode_bits_take (table : Nat → Codeword) (data : List Nat) (m : Nat)
    (hm : m < (encode_bits table data).length) :
    ∃ pre x suf w b t, data = pre ++ x :: suf ∧
      (encode_bits table data).take m = encode_bits table pre ++ w ∧
      cw_bits (table x).code (table x).len = w ++ b :: t := by
  induction data generalizing m with
  | nil => simp [encode_bits] at hm
  | cons x tl ih =>
    rw [encode_bits_cons] at hm ⊢
    rw [List.length_append] at hm
    by_cases hlt : m < (cw_bits (table x).code (table x).len).length
    · obtain ⟨b, t, hbt⟩ : ∃ b t, (cw_bits (table x).code (table x).len).drop m = b :: t := by
        cases hd : (cw_bits (table x).code (table x).len).drop m with
        | nil =>
          have := congrArg List.length hd
          simp only [List.length_drop, List.length_nil] at this
          omega
        | cons b t => exact ⟨b, t, rfl⟩
      refine ⟨[], x, tl, (cw_bits (table x).code (table x).len).take m, b, t, rfl, ?_, ?_⟩
      · rw [List.take_append_of_le_length (by omega)]
        simp [encode_bits]
      · rw [← hbt, List.take_append_drop]
    · obtain ⟨pre, y, suf, w, b, t, h1, h2, h3⟩ :=
        ih (m - (cw_bits (table x).code (table x).len).length) (by omega)
      refine ⟨x :: pre, y, suf, w, b, t, by rw [h1]; rfl, ?_, h3⟩
      rw [List.take_append_eq_append_take, List.take_of_length_le (by omega), h2,
        encode_bits_cons, List.append_assoc]

/-- The walk of `descend` along an initial part `w` of a codeword path, after which the
input is exhausted: status 6. -/
theorem descend_exhausted (w : List Nat) (root : DecNode) (br : BitReader) (hr : RInv br)
    (b : Nat) (t : List Nat) (hend : 0 ≤ root.sym_at (w ++ b :: t))
    (habove : ∀ v, v <+: w ++ b :: t → v ≠ w ++ b :: t → root.sym_at v < 0)
    (hrem : br.remaining = w) :
    descend root br = .error 6 := by
  induction w generalizing root br with
  | nil =>
    cases root with
    | null => simp [DecNode.sym_at] at hend
    | mk c0 c1 s =>
      have hs : s < 0 := by
        have := habove [] List.nil_prefix (by simp)
        simpa [DecNode.sym_at] using this
      unfold descend
      rw [if_pos hs, br.read_bit_eof hr hrem]
      simp
  | cons a w ih =>
    cases root with
    | null => simp [DecNode.sym_at] at hend
    | mk c0 c1 s =>
      have hs : s < 0 := by
        have := habove [] List.nil_prefix (by simp)
        simpa [DecNode.sym_at] using this
      obtain ⟨hb1, hb2, hb3⟩ := br.read_bit_cons hr a w hrem
      have hnn : ¬ br.read_bit.1 < 0 := by rw [hb1]; omega
      unfold descend
      simp only [hs, if_true, hnn, if_false]
      by_cases ha0 : a = 0
      · have hz : br.read_bit.1 = 0 := by rw [hb1, ha0]; rfl
        simp only [hz, if_true]
        simp only [List.cons_append, DecNode.sym_at, ha0, if_true] at hend
        have hab : ∀ v, v <+: w ++ b :: t → v ≠ w ++ b :: t → c0.sym_at v < 0 := by
          intro v hv hne
          have := habove (a :: v) (by rw [List.cons_append, List.cons_prefix_cons]; exact ⟨rfl, hv⟩)
            (by simpa using hne)
          simpa [DecNode.sym_at, ha0] using this
        cases c0 with
        | null => rw [sym_at_null] at hend; omega
        | mk p q s2 => exact ih _ _ hb2 hend hab hb3
      · have hz : ¬ br.read_bit.1 = 0 := by
          rw [hb1]; exact_mod_cast ha0
        simp only [hz, if_false]
        simp only [List.cons_append, DecNode.sym_at, ha0, if_false] at hend
        have hab : ∀ v, v <+: w ++ b :: t → v ≠ w ++ b :: t → c1.sym_at v < 0 := by
          intro v hv hne
          have := habove (a :: v) (by rw [List.cons_append, List.cons_prefix_cons]; exact ⟨rfl, hv⟩)
            (by simpa using hne)
          simpa [DecNode.sym_at, ha0] using this
        cases c1 with
        | null => rw [sym_at_null] at hend; omega
        | mk p q s2 => exact ih _ _ hb2 hend hab hb3

/-- The decode loop on a stream that starts with the codewords of `data`: after
`data.length` passes it has written `data` and stands behind those codewords. -/
theorem decode_loop_prefix (root : DecNode) (table : Nat → Code) (data : List Nat)
    (hcode : ∀ b ∈ data, b < 256 ∧
      root.sym_at (cw_bits (table b).code (table b).len) = (b : Int) ∧
      ∀ v, v <+: cw_bits (table b).code (table b).len →
        v ≠ cw_bits (table b).code (table b).len → root.sym_at v < 0)
    (j : Nat) (br : BitReader) (hr : RInv br) (rest : List Nat) (crc : Nat) (out : List Nat)
    (hrem : br.remaining =
      (data.flatMap fun b => cw_bits (table b).code (table b).len) ++ rest) :
    ∃ br2, RInv br2 ∧ br2.remaining = rest ∧
      decode_loop root (data.length + j) br crc out =
        decode_loop root j br2 (crc32_update crc data) (out ++ data) := by
  induction data generalizing br crc out with
  | nil => exact ⟨br, hr, by simpa using hrem, by simp [crc32_update]⟩
  | cons x xs ih =>
    obtain ⟨hx, hend, habove⟩ := hcode x (List.mem_cons_self _ _)
    rw [List.flatMap_cons, List.append_assoc] at hrem
    obtain ⟨br1, hd, hr1, hrem1⟩ :=
      descend_complete _ root br hr (x : Int) _ (by omega) hend habove hrem
    obtain ⟨br2, h1, h2, h3⟩ := ih (fun b hb => hcode b (List.mem_cons_of_mem _ hb)) br1 hr1
      (crc32_update crc [x]) (out ++ [x]) hrem1
    refine ⟨br2, h1, h2, ?_⟩
    rw [List.length_cons, show xs.length + 1 + j = (xs.length + j) + 1 by omega, decode_loop, hd]
    simp only
    have hb : ((x : Int) % 256).toNat = x := by omega
    rw [hb, h3]
    simp [crc32_update]

/-- The payload decoder on a proper initial part of the packed codewords of `data` after
which the file ends: status 6, having written a proper initial part of `data`. -/
theorem decode_payload_exhausted (lens : Nat → Nat) (h : Fits32 lens) (data payload : List Nat)
    (crc m : Nat) (hdata : ∀ b ∈ data, b < 256 ∧ 0 < lens b)
    (hp : ∀ c ∈ payload, c < 256)
    (hm : m < (data.flatMap fun b =>
        cw_bits (build_canonical lens b).code (build_canonical lens b).len).length)
    (hbits : bytes_to_bits payload =
      (data.flatMap fun b =>
        cw_bits (build_canonical lens b).code (build_canonical lens b).len).take m) :
    ∃ pre, decode_payload lens data.length crc payload = (6, pre) ∧ pre <+: data ∧
      pre ≠ data := by
  obtain ⟨pre, x, suf, w, b, t, hsplit, htake, hcw⟩ :=
    encode_bits_take (fun s => ⟨(build_canonical lens s).code, (build_canonical lens s).len⟩)
      data m hm
  have hcode : ∀ s ∈ data, s < 256 ∧
      (build_decode_tree lens).sym_at
        (cw_bits (build_canonical lens s).code (build_canonical lens s).len) = (s : Int) ∧
      ∀ v, v <+: cw_bits (build_canonical lens s).code (build_canonical lens s).len →
        v ≠ cw_bits (build_canonical lens s).code (build_canonical lens s).len →
        (build_decode_tree lens).sym_at v < 0 :=
    fun s hs => ⟨(hdata s hs).1, decode_tree_matches_table lens h s (hdata s hs).1 (hdata s hs).2⟩
  have hpre : ∀ s ∈ pre, s ∈ data := by
    intro s hs; rw [hsplit]; exact List.mem_append_left _ hs
  have hx : x ∈ data := by rw [hsplit]; simp
  obtain ⟨br2, hr2, hrem2, hloop⟩ := decode_loop_prefix (build_decode_tree lens)
    (build_canonical lens) pre (fun s hs => hcode s (hpre s hs)) (suf.length + 1)
    { f := payload, buf := 0, bits := 0 } ⟨by simp, by simp, hp⟩ w 0xFFFFFFFF []
    (by
      have : (BitReader.mk payload 0 0).remaining = bytes_to_bits payload := by
        simp [BitReader.remaining]
      rw [this, hbits]
      exact htake)
  obtain ⟨-, hend, habove⟩ := hcode x hx
  have hcw2 : cw_bits (build_canonical lens x).code (build_canonical lens x).len = w ++ b :: t :=
    hcw
  rw [hcw2] at hend habove
  have hd := descend_exhausted w (build_decode_tree lens) br2 hr2 b t
    (by rw [hend]; omega) habove hrem2
  have hlen : data.length = pre.length + (suf.length + 1) := by
    rw [hsplit]; simp
  refine ⟨pre, ?_, ?_, ?_⟩
  · unfold decode_payload
    rw [hlen, hloop]
    simp only [decode_loop, hd, List.nil_append]
    simp
  · rw [hsplit]; exact List.prefix_append _ _
  · intro heq
    have := congrArg List.length heq
    omega

/-- Every container of a nonempty input whose code lengths are at most 32, cut anywhere
inside its payload: `decompress_file` returns status 6 and has written a proper initial part
of the input. -/
theorem truncated_payload_exhausted (tie : List Node → Nat) (hw : Nat) (data : List Nat)
    (k : Nat) (hv : ValidInput data) (hne : data ≠ [])
    (h32 : ∀ s < 256, code_lengths tie (count_freq data) s ≤ 32) (hk1 : 1 ≤ k)
    (hk2 : k + 273 ≤ (compress_file tie hw data).2.length) :
    ∃ pre, decompress_file ((compress_file tie hw data).2.take
        ((compress_file tie hw data).2.length - k)) = (6, pre) ∧ pre <+: data ∧ pre ≠ data := by
  obtain ⟨payload, hfile, hpl, hbits⟩ := compress_file_spec tie hw data hne hv
  obtain ⟨hfit, hpos⟩ := input_lengths_fit tie data hv hne h32
  rw [hfile] at hk2 ⊢
  simp only at hk2 ⊢
  have hhdr : (MAGIC ++ le_bytes 8 data.length ++
      (List.range 256).map (code_lengths tie (count_freq data)) ++
      [(8 - (encode_bits (code_table tie data) data).length % 8) % 8] ++
      le_bytes 4 (crc32 data)).length = 273 := by
    simp [MAGIC, le_bytes_length]
  rw [List.length_append, hhdr] at hk2 ⊢
  have htk : 273 + payload.length - k = 273 + (payload.length - k) := by omega
  rw [htk]
  have happ : ∀ (hdr : List Nat), hdr.length = 273 →
      (hdr ++ payload).take (273 + (payload.length - k)) = hdr ++ payload.take (payload.length - k) := by
    intro hdr hl
    rw [← hl, List.take_append]
  rw [happ _ hhdr]
  rw [decompress_file_spec data.length _ _ (crc32 data) _ (by have := hv.1; omega)
      (by intro h; exact hne (List.length_eq_zero.mp h)) (by simp) (by omega)
      (crc32_lt data hv.2)]
  have hcongr : ∀ s < 256,
      ((List.range 256).map (code_lengths tie (count_freq data))).getD s 0 =
        code_lengths tie (count_freq data) s :=
    fun s hs => getD_map_range _ s hs
  have hdp : ∀ n crc pl, decode_payload
      (fun s => ((List.range 256).map (code_lengths tie (count_freq data))).getD s 0) n crc pl =
      decode_payload (code_lengths tie (count_freq data)) n crc pl := by
    intro n crc pl
    unfold decode_payload
    rw [build_decode_tree_congr _ _ hcongr]
  rw [hdp]
  have hlen := congrArg List.length hbits
  rw [bytes_to_bits_length, List.length_append, List.length_replicate] at hlen
  have hm : 8 * (payload.length - k) < (encode_bits (code_table tie data) data).length := by
    omega
  apply decode_payload_exhausted _ hfit data _ _ (8 * (payload.length - k))
    (fun b hb => ⟨hv.2 b hb, hpos b hb⟩)
    (fun c hc => hpl c (List.mem_of_mem_take hc)) hm
  rw [bytes_to_bits_take, hbits, List.take_append_of_le_length (by omega)]
  rfl

/-- The statement of `first_byte_decoded` for a container cut after at least one payload
byte. -/
theorem first_byte_decoded_truncated (tie : List Node → Nat) (hw : Nat) (data : List Nat)
    (x : Nat) (tl : List Nat) (m : Nat) (hm : 1 ≤ m) (hv : ValidInput data) (hx : data = x :: tl)
    (hcw : (cw_bits (code_table tie data x).code (code_table tie data x).len).head? = some 0)
    (hs : (build_decode_tree (code_lengths tie (count_freq data))).sym < 0)
    (h0 : 0 ≤ (build_decode_tree (code_lengths tie (count_freq data))).child0.sym) :
    (decompress_file ((compress_file tie hw data).2.take (273 + m))).2.head? =
      some (((build_decode_tree (code_lengths tie (count_freq data))).child0.sym % 256).toNat) := by
  have hne : data ≠ [] := by rw [hx]; exact List.cons_ne_nil _ _
  obtain ⟨payload, hfile, hpl, hbits⟩ := compress_file_spec tie hw data hne hv
  have hpay : ∃ rest, bytes_to_bits payload = 0 :: rest := by
    have henc := encode_bits_cons (code_table tie data) x tl
    rw [← hx] at henc
    rw [hbits, henc]
    cases hc : cw_bits (code_table tie data x).code (code_table tie data x).len with
    | nil => rw [hc] at hcw; simp at hcw
    | cons b bs =>
      rw [hc] at hcw
      simp only [List.head?_cons, Option.some.injEq] at hcw
      exact ⟨_, by rw [hcw]; rfl⟩
  obtain ⟨rest, hrest⟩ := hpay
  have hcut : ∃ rest2, bytes_to_bits (payload.take m) = 0 :: rest2 := by
    rw [bytes_to_bits_take, hrest]
    obtain ⟨j, hj⟩ : ∃ j, 8 * m = j + 1 := ⟨8 * m - 1, by omega⟩
    rw [hj, List.take_succ_cons]
    exact ⟨_, rfl⟩
  obtain ⟨rest2, hrest2⟩ := hcut
  have hhdr : (MAGIC ++ le_bytes 8 data.length ++
      (List.range 256).map (code_lengths tie (count_freq data)) ++
      [(8 - (encode_bits (code_table tie data) data).length % 8) % 8] ++
      le_bytes 4 (crc32 data)).length = 273 := by
    simp [MAGIC, le_bytes_length]
  have happ : ∀ (hdr : List Nat), hdr.length = 273 →
      (hdr ++ payload).take (273 + m) = hdr ++ payload.take m := by
    intro hdr hl
    rw [← hl, List.take_append]
  rw [hfile]
  simp only
  rw [happ _ hhdr]
  rw [decompress_file_spec data.length _ _ _ _ (by have := hv.1; omega)
      (fun h => hne (List.length_eq_zero.mp h)) (by simp) (by omega) (crc32_lt _ hv.2),
    decode_payload_snd]
  have hcongr : ∀ s < 256,
      (fun s => ((List.range 256).map (code_lengths tie (count_freq data))).getD s 0) s
        = code_lengths tie (count_freq data) s := fun s hs => getD_map_range _ s hs
  rw [build_decode_tree_congr _ _ hcongr]
  generalize build_decode_tree (code_lengths tie (count_freq data)) = root at hs h0 ⊢
  obtain ⟨n, hn⟩ : ∃ n, data.length = n + 1 := ⟨tl.length, by rw [hx]; simp⟩
  rw [hn]
  unfold decode_loop
  have hrinv : RInv { f := payload.take m, buf := 0, bits := 0 } :=
    ⟨by simp, by simp, fun c hc => hpl c (List.mem_of_mem_take hc)⟩
  rw [descend_first_zero root _ rest2 hrinv hs h0 (by simpa [BitReader.remaining] using hrest2)]
  simp only
  obtain ⟨ext, he⟩ := decode_loop_extends root n
    (BitReader.read_bit { f := payload.take m, buf := 0, bits := 0 }).2
    (crc32_update 0xFFFFFFFF [(root.child0.sym % 256).toNat])
    ([] ++ [(root.child0.sym % 256).toNat])
  rw [he]
  rfl

/-- The size of a container whose input starts with the byte `x`: the payload holds at least
the codeword of `x`. -/
theorem container_length_ge (tie : List Node → Nat) (hw : Nat) (data : List Nat) (x : Nat)
    (tl : List Nat) (hv : ValidInput data) (hx : data = x :: tl) :
    273 ≤ (compress_file tie hw data).2.length ∧
    (code_table tie data x).len ≤ 8 * ((compress_file tie hw data).2.length - 273) := by
  have hne : data ≠ [] := by rw [hx]; exact List.cons_ne_nil _ _
  obtain ⟨h1, h2, -, -⟩ := pad_bits_of_container tie hw data hne hv
  refine ⟨h1, le_trans ?_ h2⟩
  have : ∀ (f : Nat → Nat) (l : List Nat), l = x :: tl → f x ≤ (l.map f).sum := by
    intro f l hl
    rw [hl, List.map_cons, List.sum_cons]
    exact Nat.le_add_right _ _
  exact this (fun b => (code_table tie data b).len) data hx

theorem deep_first_codeword_len (tie : List Node → Nat) :
    (code_table tie deep_input 0).len = 33 := by
  obtain ⟨-, -, -, -, -, h6, -, -⟩ := deep_table_facts
  unfold code_table
  rw [count_freq_deep_input, code_lengths_unique tie deep_freq deep_unique, h6]

theorem deep_truncated_head (tie : List Node → Nat) (hw : Nat) (m : Nat) (hm : 1 ≤ m) :
    (decompress_file ((compress_file tie hw deep_input).2.take (273 + m))).2.head? = some 33 := by
  obtain ⟨tl, htl⟩ := deep_input_head
  obtain ⟨hshape1, hshape2, -, -⟩ := deep_tree_shape
  rw [← code_lengths_unique tie deep_freq deep_unique, ← count_freq_deep_input] at hshape1 hshape2
  have h := first_byte_decoded_truncated tie hw deep_input 0 tl m hm deep_input_valid htl
    (deep_first_codeword_any tie) (by rw [hshape2]; decide) (by rw [hshape1]; decide)
  rw [h, hshape1]
  rfl

theorem deep_container_length (tie : List Node → Nat) (hw : Nat) :
    278 ≤ (compress_file tie hw deep_input).2.length := by
  obtain ⟨tl, htl⟩ := deep_input_head
  obtain ⟨h1, h2⟩ := container_length_ge tie hw deep_input 0 tl deep_input_valid htl
  rw [deep_first_codeword_len] at h2
  omega

/-! ### the comparator of the queue -/

theorem cmp_iff (a b : Node) :
    Cmp a b = true ↔ b.freq < a.freq ∨ (a.freq = b.freq ∧ b.rank < a.rank) := by
  unfold Cmp Node.rank
  by_cases h : a.freq ≠ b.freq
  · rw [if_pos h, decide_eq_true_eq]
    constructor
    · intro h1; exact Or.inl h1
    · rintro (h1 | ⟨h1, -⟩)
      · exact h1
      · exact absurd h1 h
  · rw [if_neg h]
    simp only [decide_eq_true_eq]
    rw [not_not] at h
    constructor
    · intro h1; exact Or.inr ⟨h, h1⟩
    · rintro (h1 | ⟨-, h1⟩)
      · omega
      · exact h1

theorem cmp_asymm (a b : Node) (h : Cmp a b = true) : Cmp b a = false := by
  rw [cmp_iff] at h
  rw [Bool.eq_false_iff]
  intro h2
  rw [cmp_iff] at h2
  omega

theorem cmp_trans (a b c : Node) (h1 : Cmp a b = true) (h2 : Cmp b c = true) :
    Cmp a c = true := by
  rw [cmp_iff] at h1 h2 ⊢
  omega

theorem cmp_total (a b : Node) (ha1 : -1 ≤ a.sym) (ha2 : a.sym < 256) (hb1 : -1 ≤ b.sym)
    (hb2 : b.sym < 256) (hne : a.freq ≠ b.freq ∨ a.sym ≠ b.sym) :
    Cmp a b = true ∨ Cmp b a = true := by
  rw [cmp_iff, cmp_iff]
  unfold Node.rank
  by_cases hf : a.freq = b.freq
  · have hs : a.sym ≠ b.sym := by
      rcases hne with h | h
      · exact absurd hf h
      · exact h
    by_cases h1 : a.sym ≥ 0 <;> by_cases h2 : b.sym ≥ 0 <;> simp only [h1, h2, if_true, if_false] <;>
      omega
  · omega

theorem cmp_internal_unordered (a b : Node) (ha : a.sym < 0) (hb : b.sym < 0)
    (hf : a.freq = b.freq) : Cmp a b = false ∧ Cmp b a = false := by
  have h1 : a.rank = 256 := by unfold Node.rank; rw [if_neg (by omega)]
  have h2 : b.rank = 256 := by unfold Node.rank; rw [if_neg (by omega)]
  constructor
  · rw [Bool.eq_false_iff]; intro h; rw [cmp_iff] at h; omega
  · rw [Bool.eq_false_iff]; intro h; rw [cmp_iff] at h; omega

theorem build_tree_leaf_queue (tie : List Node → Nat) (freq : Nat → Nat)
    (h : (leaf_queue freq).length ≠ 1) :
    build_tree tie freq =
      pq_top tie (merge_loop tie (leaf_queue freq).length (leaf_queue freq)) := by
  unfold build_tree
  simp only
  rw [show (((List.range 256).filter fun s => decide (freq s > 0)).map fun s =>
      Node.mk (freq s) (s : Int) Node.null Node.null) = leaf_queue freq from rfl, if_neg h]

theorem tie_scenario :
    merge_loop firstTie 2 (leaf_queue (count_freq [0, 1, 2, 3, 4, 4])) =
      [Node.mk 2 4 .null .null,
       Node.mk 2 (-1) (Node.mk 1 0 .null .null) (Node.mk 1 1 .null .null),
       Node.mk 2 (-1) (Node.mk 1 2 .null .null) (Node.mk 1 3 .null .null)] ∧
    Cmp (Node.mk 2 (-1) (Node.mk 1 0 .null .null) (Node.mk 1 1 .null .null))
      (Node.mk 2 (-1) (Node.mk 1 2 .null .null) (Node.mk 1 3 .null .null)) = false ∧
    Cmp (Node.mk 2 (-1) (Node.mk 1 2 .null .null) (Node.mk 1 3 .null .null))
      (Node.mk 2 (-1) (Node.mk 1 0 .null .null) (Node.mk 1 1 .null .null)) = false ∧
    (List.range 5).map (code_lengths firstTie (count_freq [0, 1, 2, 3, 4, 4])) = [3, 3, 2, 2, 2] ∧
    (List.range 5).map (code_lengths secondTie (count_freq [0, 1, 2, 3, 4, 4])) = [2, 2, 3, 3, 2] := by
  decide!

/-! ### the worker pool of `encode_chunks_parallel` -/

theorem encode_chunks_parallel_jobs (data : List Nat) (table : Nat → Codeword) (chunk_size : Nat)
    (threads : Int) :
    encode_chunks_parallel data table chunk_size threads =
      (prepare_jobs data chunk_size).map (run_job data table) := by
  unfold encode_chunks_parallel prepare_jobs
  simp only [List.map_map]
  rfl

theorem prepare_jobs_idx (data : List Nat) (chunk_size : Nat) (i : Nat) (j : Job)
    (h : (prepare_jobs data chunk_size)[i]? = some j) : j.idx = i := by
  unfold prepare_jobs at h
  simp only [List.getElem?_map] at h
  cases hr : (List.range (((data.length + (if chunk_size = 0 then 1 <<< 20 else chunk_size) - 1)
      % 2 ^ 64) / (if chunk_size = 0 then 1 <<< 20 else chunk_size)))[i]? with
  | none => rw [hr] at h; simp at h
  | some k =>
    rw [hr] at h
    have hk : k = i := by
      have := List.getElem?_eq_some.mp hr
      obtain ⟨_, h2⟩ := this
      rw [List.getElem_range] at h2
      exact h2.symm
    simp only [Option.map_some', Option.some.injEq] at h
    rw [← h, hk]

theorem pool_init_inv (data : List Nat) (table : Nat → Codeword) (chunk_size : Nat)
    (threads : Int) :
    PoolInv data table (prepare_jobs data chunk_size) (if threads ≤ 0 then 4 else threads).toNat
      (pool_init data chunk_size threads) := by
  unfold pool_init
  refine ⟨by simp, by simp, by simp, ?_, 0, Nat.zero_le _, by simp, ?_, ?_⟩
  · intro w hw
    simp only [List.getElem?_replicate] at hw
    split at hw <;> simp at hw
  · intro w j hw
    simp only [List.getElem?_replicate] at hw
    split at hw <;> simp at hw
  · intro i j hi
    omega

theorem getElem?_set_other {α : Type} (l : List α) (t w : Nat) (x y : α)
    (h : (l.set t x)[w]? = some y) (hne : y ≠ x) : w ≠ t ∧ l[w]? = some y := by
  rw [List.getElem?_set] at h
  by_cases htw : t = w
  · rw [if_pos htw] at h
    split at h
    · exact absurd (Option.some.inj h).symm hne
    · cases h
  · rw [if_neg htw] at h
    exact ⟨fun e => htw e.symm, h⟩

theorem getElem?_set_keep {α : Type} (l : List α) (t w : Nat) (x y z : α)
    (h : l[w]? = some y) (ht : l[t]? = some z) (hne : y ≠ z) : (l.set t x)[w]? = some y := by
  have hwt : t ≠ w := by
    intro e
    rw [e, h] at ht
    exact hne (Option.some.inj ht)
  rw [List.getElem?_set_ne hwt]
  exact h

theorem pool_step_inv (data : List Nat) (table : Nat → Codeword) (jobs : List Job) (n : Nat)
    (hidx : ∀ (i : Nat) (j : Job), jobs[i]? = some j → j.idx = i)
    (t : Nat) (s s2 : Pool) (hinv : PoolInv data table jobs n s)
    (h : pool_step data table t s = some s2) : PoolInv data table jobs n s2 := by
  obtain ⟨hwl, hol, hstop, hret, c, hc, hq, henc, hout⟩ := hinv
  unfold pool_step at h
  by_cases hmain : t = s.workers.length
  · rw [if_pos hmain] at h
    by_cases hcond : s.stop = false ∧ s.q = []
    · rw [if_pos hcond] at h
      have hs2 := (Option.some.inj h).symm
      subst hs2
      exact ⟨hwl, hol, fun _ => hcond.2, fun _ _ => rfl, c, hc, hq, henc, hout⟩
    · rw [if_neg hcond] at h
      cases h
  · rw [if_neg hmain] at h
    cases hw : s.workers[t]? with
    | none => rw [hw] at h; cases h
    | some wk =>
      rw [hw] at h
      have htl : t < s.workers.length := (List.getElem?_eq_some.mp hw).1
      cases wk with
      | waiting =>
        simp only at h
        cases hqq : s.q with
        | cons job rest =>
          rw [hqq] at h
          have hs2 := (Option.some.inj h).symm
          subst hs2
          have hclt : c < jobs.length := by
            by_contra hge
            rw [List.drop_eq_nil_iff.mpr (by omega), hqq] at hq
            cases hq
          have hdrop := List.drop_eq_getElem_cons hclt
          rw [← hq, hqq] at hdrop
          have hjob : jobs[c]? = some job := by
            rw [List.getElem?_eq_getElem hclt]
            exact congrArg some (List.cons.inj hdrop).1.symm
          have hrest : rest = jobs.drop (c + 1) := (List.cons.inj hdrop).2
          refine ⟨by simp [hwl], hol, ?_, ?_, c + 1, hclt, hrest, ?_, ?_⟩
          · intro hst
            have := hstop hst
            rw [hqq] at this
            cases this
          · intro w hwr
            exact hret w (getElem?_set_other _ _ _ _ _ hwr (by simp)).2
          · intro w j hwj
            by_cases hwt : w = t
            · subst hwt
              simp only [List.getElem?_set_self htl, Option.some.injEq, Worker.encoding.injEq] at hwj
              exact ⟨c, Nat.lt_succ_self c, by rw [← hwj]; exact hjob⟩
            · simp only [List.getElem?_set_ne (fun e => hwt e.symm)] at hwj
              obtain ⟨i, hi, hij⟩ := henc w j hwj
              exact ⟨i, by omega, hij⟩
          · intro i j hi hij
            by_cases hic : i = c
            · subst hic
              rw [hjob] at hij
              have := Option.some.inj hij
              subst this
              exact Or.inr ⟨t, by simp [List.getElem?_set_self htl]⟩
            · rcases hout i j (by omega) hij with h1 | ⟨w, h1⟩
              · exact Or.inl h1
              · exact Or.inr ⟨w, getElem?_set_keep _ _ _ _ _ _ h1 hw (by simp)⟩
        | nil =>
          rw [hqq] at h
          simp only at h
          by_cases hst : s.stop = true
          · rw [if_pos hst] at h
            have hs2 := (Option.some.inj h).symm
            subst hs2
            refine ⟨by simp [hwl], hol, fun _ => rfl, fun _ _ => hst, c, hc, ?_, ?_, ?_⟩
            · rw [← hq, hqq]
            · intro w j hwj
              exact henc w j (getElem?_set_other _ _ _ _ _ hwj (by simp)).2
            · intro i j hi hij
              rcases hout i j hi hij with h1 | ⟨w, h1⟩
              · exact Or.inl h1
              · exact Or.inr ⟨w, getElem?_set_keep _ _ _ _ _ _ h1 hw (by simp)⟩
          · rw [if_neg hst] at h
            cases h
      | encoding job =>
        simp only at h
        have hs2 := (Option.some.inj h).symm
        subst hs2
        obtain ⟨i0, hi0, hij0⟩ := henc t job hw
        have hidx0 : job.idx = i0 := hidx i0 job hij0
        have hi0l : i0 < s.out.length := by
          rw [hol]; exact (List.getElem?_eq_some.mp hij0).1
        refine ⟨by simp [hwl], by simp [hol], hstop, ?_, c, hc, hq, ?_, ?_⟩
        · intro w hwr
          exact hret w (getElem?_set_other _ _ _ _ _ hwr (by simp)).2
        · intro w j hwj
          exact henc w j (getElem?_set_other _ _ _ _ _ hwj (by simp)).2
        · intro i j hi hij
          have hcase : ∀ (hjj : i = i0), (s.out.set job.idx (run_job data table job))[i]? =
              some (run_job data table j) := by
            intro hjj
            subst hjj
            rw [hij0] at hij
            have := Option.some.inj hij
            subst this
            rw [hidx0, List.getElem?_set_self hi0l]
          by_cases hii : i = i0
          · exact Or.inl (hcase hii)
          · rcases hout i j hi hij with h1 | ⟨w, h1⟩
            · left
              show (s.out.set job.idx (run_job data table job))[i]? = some (run_job data table j)
              rw [hidx0, List.getElem?_set_ne (fun e => hii e.symm)]
              exact h1
            · by_cases hwt : w = t
              · subst hwt
                rw [hw] at h1
                have hjj : job = j := by
                  simpa using h1
                subst hjj
                have : i = i0 := by
                  rw [← hidx i job hij, hidx0]
                exact absurd this hii
              · exact Or.inr ⟨w, by
                  show (s.workers.set t Worker.waiting)[w]? = some (Worker.encoding j)
                  rw [List.getElem?_set_ne (fun e => hwt e.symm)]
                  exact h1⟩
      | returned =>
        simp only at h
        cases h

theorem pool_run_inv (data : List Nat) (table : Nat → Codeword) (jobs : List Job) (n : Nat)
    (hidx : ∀ (i : Nat) (j : Job), jobs[i]? = some j → j.idx = i)
    (sched : List Nat) (s : Pool) (hinv : PoolInv data table jobs n s) :
    PoolInv data table jobs n (pool_run data table sched s) := by
  induction sched generalizing s with
  | nil => exact hinv
  | cons t rest ih =>
    unfold pool_run
    rw [List.foldl_cons]
    apply ih
    cases hstep : pool_step data table t s with
    | none => exact hinv
    | some s2 => exact pool_step_inv data table jobs n hidx t s s2 hinv hstep

/-- When the call has returned, every slot of `out` holds the encoding of its own job. -/
theorem pool_done_out (data : List Nat) (table : Nat → Codeword) (jobs : List Job) (n : Nat)
    (s : Pool) (hinv : PoolInv data table jobs n s) (hdone : pool_done s = true) :
    s.out = jobs.map (run_job data table) := by
  obtain ⟨hwl, hol, hstop, hret, c, hc, hq, henc, hout⟩ := hinv
  unfold pool_done at hdone
  rw [Bool.and_eq_true, List.all_eq_true] at hdone
  obtain ⟨hst, hall⟩ := hdone
  have hqn := hstop hst
  rw [hq, List.drop_eq_nil_iff] at hqn
  apply List.ext_getElem?
  intro i
  rw [List.getElem?_map]
  by_cases hi : i < jobs.length
  · obtain ⟨j, hj⟩ : ∃ j, jobs[i]? = some j := ⟨jobs[i], List.getElem?_eq_getElem hi⟩
    rw [hj]
    rcases hout i j (by omega) hj with h1 | ⟨w, h1⟩
    · exact h1
    · have hmem : Worker.encoding j ∈ s.workers := List.mem_iff_getElem?.mpr ⟨w, h1⟩
      have := hall _ hmem
      simp at this
  · rw [List.getElem?_eq_none (by omega), List.getElem?_eq_none (by omega)]
    rfl

theorem sum_map_set {α : Type} (f : α → Nat) (l : List α) (t : Nat) (x y : α)
    (h : l[t]? = some y) : ((l.set t x).map f).sum + f y = (l.map f).sum + f x := by
  induction l generalizing t with
  | nil => simp at h
  | cons a as ih =>
    cases t with
    | zero =>
      simp only [List.getElem?_cons_zero, Option.some.injEq] at h
      subst h
      simp only [List.set_cons_zero, List.map_cons, List.sum_cons]
      omega
    | succ t =>
      simp only [List.getElem?_cons_succ] at h
      have := ih t h
      simp only [List.set_cons_succ, List.map_cons, List.sum_cons]
      omega

theorem pool_step_measure (data : List Nat) (table : Nat → Codeword) (t : Nat) (s s2 : Pool)
    (h : pool_step data table t s = some s2) : pool_measure s2 < pool_measure s := by
  unfold pool_step at h
  by_cases hmain : t = s.workers.length
  · rw [if_pos hmain] at h
    by_cases hcond : s.stop = false ∧ s.q = []
    · rw [if_pos hcond] at h
      have hs2 := (Option.some.inj h).symm
      subst hs2
      unfold pool_measure
      simp [hcond.1]
    · rw [if_neg hcond] at h
      cases h
  · rw [if_neg hmain] at h
    cases hw : s.workers[t]? with
    | none => rw [hw] at h; cases h
    | some wk =>
      rw [hw] at h
      cases wk with
      | waiting =>
        simp only at h
        cases hqq : s.q with
        | cons job rest =>
          rw [hqq] at h
          have hs2 := (Option.some.inj h).symm
          subst hs2
          have := sum_map_set Worker.weight s.workers t (Worker.encoding job) _ hw
          simp only [Worker.weight] at this
          unfold pool_measure
          simp only [hqq, List.length_cons]
          omega
        | nil =>
          rw [hqq] at h
          simp only at h
          by_cases hst : s.stop = true
          · rw [if_pos hst] at h
            have hs2 := (Option.some.inj h).symm
            subst hs2
            have := sum_map_set Worker.weight s.workers t Worker.returned _ hw
            simp only [Worker.weight] at this
            unfold pool_measure
            simp only [hqq, List.length_nil]
            omega
          · rw [if_neg hst] at h
            cases h
      | encoding job =>
        simp only at h
        have hs2 := (Option.some.inj h).symm
        subst hs2
        have := sum_map_set Worker.weight s.workers t Worker.waiting _ hw
        simp only [Worker.weight] at this
        unfold pool_measure
        simp only
        omega
      | returned =>
        simp only at h
        cases h

/-- No deadlock: while the call has not returned, some thread can move. -/
theorem pool_progress (data : List Nat) (table : Nat → Codeword) (jobs : List Job) (n : Nat)
    (hn : 1 ≤ n) (s : Pool) (hinv : PoolInv data table jobs n s) (hnd : pool_done s = false) :
    ∃ t s2, pool_step data table t s = some s2 := by
  obtain ⟨hwl, hol, hstop, hret, c, hc, hq, henc, hout⟩ := hinv
  by_cases hex : ∃ (w : Nat) (j : Job), s.workers[w]? = some (Worker.encoding j)
  · obtain ⟨w, j, hwj⟩ := hex
    have hwl2 : w < s.workers.length := (List.getElem?_eq_some.mp hwj).1
    refine ⟨w, { s with out := s.out.set j.idx (run_job data table j),
                        workers := s.workers.set w Worker.waiting }, ?_⟩
    unfold pool_step
    rw [if_neg (by omega), hwj]
  · have hnoenc : ∀ (w : Nat) (j : Job), s.workers[w]? ≠ some (Worker.encoding j) :=
      fun w j h => hex ⟨w, j, h⟩
    by_cases hqe : s.q = []
    · by_cases hst : s.stop = true
      · -- some worker has not returned
        unfold pool_done at hnd
        rw [hst, Bool.true_and, Bool.eq_false_iff] at hnd
        rw [Ne, List.all_eq_true, not_forall] at hnd
        obtain ⟨wk, hwk⟩ := hnd
        rw [Classical.not_imp] at hwk
        obtain ⟨hmem, hne⟩ := hwk
        obtain ⟨w, hw⟩ := List.mem_iff_getElem?.mp hmem
        have hwl2 : w < s.workers.length := (List.getElem?_eq_some.mp hw).1
        have hwait : wk = Worker.waiting := by
          cases wk with
          | waiting => rfl
          | encoding j => exact absurd hw (hnoenc w j)
          | returned => simp at hne
        subst hwait
        refine ⟨w, { s with workers := s.workers.set w Worker.returned }, ?_⟩
        unfold pool_step
        rw [if_neg (by omega), hw]
        simp only [hqe]
        rw [if_pos hst]
      · refine ⟨s.workers.length, { s with stop := true }, ?_⟩
        unfold pool_step
        rw [if_pos rfl, if_pos ⟨by simpa using hst, hqe⟩]
    · have hst : ¬ s.stop = true := fun h => hqe (hstop h)
      obtain ⟨wk, hw⟩ : ∃ wk, s.workers[0]? = some wk :=
        ⟨s.workers[0], List.getElem?_eq_getElem (by omega)⟩
      have hwait : wk = Worker.waiting := by
        cases wk with
        | waiting => rfl
        | encoding j => exact absurd hw (hnoenc 0 j)
        | returned => exact absurd (hret 0 hw) hst
      subst hwait
      obtain ⟨job, rest, hjr⟩ : ∃ job rest, s.q = job :: rest := by
        cases hqq : s.q with
        | nil => exact absurd hqq hqe
        | cons job rest => exact ⟨job, rest, rfl⟩
      refine ⟨0, { s with q := rest, workers := s.workers.set 0 (Worker.encoding job) }, ?_⟩
      unfold pool_step
      rw [if_neg (by omega), hw]
      simp only [hjr]

/-- The call returns: from every reachable state some schedule leads to a state in which
`stop` is set and all workers have returned. -/
theorem pool_completes (data : List Nat) (table : Nat → Codeword) (jobs : List Job) (n : Nat)
    (hidx : ∀ (i : Nat) (j : Job), jobs[i]? = some j → j.idx = i) (hn : 1 ≤ n) (k : Nat) :
    ∀ s : Pool, pool_measure s ≤ k → PoolInv data table jobs n s →
      ∃ sched, pool_done (pool_run data table sched s) = true := by
  induction k with
  | zero =>
    intro s hk hinv
    cases hd : pool_done s with
    | true => exact ⟨[], hd⟩
    | false =>
      obtain ⟨t, s2, hstep⟩ := pool_progress data table jobs n hn s hinv hd
      have := pool_step_measure data table t s s2 hstep
      omega
  | succ k ih =>
    intro s hk hinv
    cases hd : pool_done s with
    | true => exact ⟨[], hd⟩
    | false =>
      obtain ⟨t, s2, hstep⟩ := pool_progress data table jobs n hn s hinv hd
      have hm := pool_step_measure data table t s s2 hstep
      obtain ⟨sched, hs⟩ := ih s2 (by omega) (pool_step_inv data table jobs n hidx t s s2 hinv hstep)
      refine ⟨t :: sched, ?_⟩
      unfold pool_run at hs ⊢
      rw [List.foldl_cons, hstep]
      exact hs

theorem pool_threads_pos (threads : Int) : 1 ≤ (if threads ≤ 0 then 4 else threads).toNat := by
  split <;> omega

/-- Every run of the pool that returns leaves in `out` the vector that `compress_file`
stitches, whatever the number of workers and the order of their steps; and some run returns. -/
theorem pool_schedule_independent (data : List Nat) (table : Nat → Codeword) (chunk_size : Nat)
    (threads : Int) :
    (∀ sched, pool_done (pool_run data table sched (pool_init data chunk_size threads)) = true →
      (pool_run data table sched (pool_init data chunk_size threads)).out =
        encode_chunks_parallel data table chunk_size threads) ∧
    ∃ sched, pool_done (pool_run data table sched (pool_init data chunk_size threads)) = true := by
  have hidx := prepare_jobs_idx data chunk_size
  have hinit := pool_init_inv data table chunk_size threads
  constructor
  · intro sched hdone
    rw [encode_chunks_parallel_jobs]
    exact pool_done_out data table _ _ _ (pool_run_inv data table _ _ hidx sched _ hinit) hdone
  · exact pool_completes data table _ _ hidx (pool_threads_pos threads) _ _ (le_refl _) hinit

theorem compress_file_stitched (tie : List Node → Nat) (hw : Nat) (data : List Nat) :
    compress_file tie hw data =
      compress_stitched tie data
        (encode_chunks_parallel data (code_table tie data) (1 <<< 20) (max 1 (hw : Int))) := rfl

/-- What `compress_file` writes does not depend on the run of the worker pool: for every
worker count and every order of the threads' steps after which the call has returned, the
container is the same. -/
theorem compress_file_any_run (tie : List Node → Nat) (hw hw2 : Nat) (data : List Nat)
    (sched : List Nat)
    (hdone : pool_done (pool_run data (code_table tie data) sched
      (pool_init data (1 <<< 20) (max 1 (hw : Int)))) = true) :
    compress_stitched tie data (pool_run data (code_table tie data) sched
      (pool_init data (1 <<< 20) (max 1 (hw : Int)))).out = compress_file tie hw2 data := by
  rw [(pool_schedule_independent data (code_table tie data) (1 <<< 20) (max 1 (hw : Int))).1
    sched hdone, compress_file_stitched tie hw2 data]
  rfl

theorem pool_scenario :
    pool_done (pool_run [0x41, 0x41, 0x41, 0x42] (fun _ => ⟨0, 1⟩) [0, 1, 1, 0, 2, 0, 1]
      (pool_init [0x41, 0x41, 0x41, 0x42] 2 2)) = true ∧
    pool_done (pool_run [0x41, 0x41, 0x41, 0x42] (code_table firstTie [0x41, 0x41, 0x41, 0x42])
      [1, 1, 2, 0, 1] (pool_init [0x41, 0x41, 0x41, 0x42] (1 <<< 20) (max 1 ((2 : Nat) : Int))))
      = true := by
  decide!

/-! ### the decode loop consumes its input -/

theorem read_bit_avail (r : BitReader) :
    (r.read_bit.1 = -1 ∧ r.read_bit.2 = r ∧ r.avail = 0) ∨
    (0 ≤ r.read_bit.1 ∧ r.read_bit.2.avail + 1 = r.avail) := by
  unfold BitReader.read_bit BitReader.avail
  by_cases hb : r.bits = 0
  · rw [if_pos hb]
    cases hf : r.f with
    | nil => left; simp [hb]
    | cons c rest =>
      right
      simp only [List.length_cons, hb]
      exact ⟨Int.ofNat_nonneg _, by omega⟩
  · rw [if_neg hb]
    right
    simp only
    exact ⟨Int.ofNat_nonneg _, by omega⟩

/-- A walk of `descend` that ends at a symbol never gains input, and from a node without a
symbol it consumes at least one bit. -/
theorem descend_avail (root : DecNode) (br : BitReader) (sym : Int) (br2 : BitReader)
    (h : descend root br = .ok (sym, br2)) :
    br2.avail ≤ br.avail ∧ (root.sym < 0 → br2.avail + 1 ≤ br.avail) := by
  induction root generalizing br with
  | null => simp [descend] at h
  | mk c0 c1 s ih0 ih1 =>
    unfold descend at h
    by_cases hs : s < 0
    · simp only [hs, if_true] at h
      rcases read_bit_avail br with ⟨h1, -, -⟩ | ⟨h1, h2⟩
      · rw [h1] at h
        simp at h
      · have hnn : ¬ br.read_bit.1 < 0 := by omega
        simp only [hnn, if_false] at h
        by_cases hz : br.read_bit.1 = 0
        · simp only [hz, if_true] at h
          cases c0 with
          | null => simp at h
          | mk a b s2 =>
            have := (ih0 _ h).1
            exact ⟨by omega, fun _ => by omega⟩
        · simp only [hz, if_false] at h
          cases c1 with
          | null => simp at h
          | mk a b s2 =>
            have := (ih1 _ h).1
            exact ⟨by omega, fun _ => by omega⟩
    · simp only [hs, if_false] at h
      have h2 : br = br2 := (Prod.mk.inj (Except.ok.inj h)).2
      subst h2
      exact ⟨le_refl _, fun hneg => absurd hneg hs⟩

theorem insert_code_sym (code : Nat) (sym : Int) (n : Nat) (root : DecNode) (hn : 0 < n) :
    (insert_code code sym n root).sym = root.sym := by
  cases n with
  | zero => omega
  | succ b =>
    cases root with
    | null => rfl
    | mk c0 c1 s =>
      unfold insert_code
      split <;> rfl

/-- The root of the decode trie never carries a symbol, whatever the length table. -/
theorem build_decode_tree_root (lens : Nat → Nat) : (build_decode_tree lens).sym = -1 := by
  rw [build_decode_tree_fold]
  have hlen : ∀ p ∈ coded_items lens, 0 < p.1.len := by
    intro p hp
    have hmem : p.1 ∈ sort_items (collect_items lens) := by
      rw [← coded_items_fst]
      exact List.mem_map_of_mem Prod.fst hp
    obtain ⟨-, h2, h3⟩ := (mem_sorted_items lens p.1).mp hmem
    omega
  have hfold : ∀ (cs : List (L × Nat)) (root : DecNode), (∀ p ∈ cs, 0 < p.1.len) →
      (cs.foldl (fun root p => insert_code p.2 (p.1.sym : Int) p.1.len root) root).sym =
        root.sym := by
    intro cs
    induction cs with
    | nil => intro root _; rfl
    | cons c rest ih =>
      intro root h
      rw [List.foldl_cons, ih _ (fun p hp => h p (List.mem_cons_of_mem _ hp)),
        insert_code_sym _ _ _ _ (h c (List.mem_cons_self _ _))]
  rw [hfold _ _ hlen]
  rfl

/-- Every byte the decode loop writes has consumed at least one bit. -/
theorem decode_loop_length (root : DecNode) (hs : root.sym < 0) (n : Nat) (br : BitReader)
    (crc : Nat) (out : List Nat) :
    (decode_loop root n br crc out).2.2.length ≤ out.length + br.avail := by
  induction n generalizing br crc out with
  | zero => simp [decode_loop]
  | succ n ih =>
    unfold decode_loop
    cases hd : descend root br with
    | error st => simp
    | ok r =>
      obtain ⟨sym, br2⟩ := r
      simp only
      have h1 := (descend_avail root br sym br2 hd).2 hs
      have h2 := ih br2 (crc32_update crc [(sym % 256).toNat]) (out ++ [(sym % 256).toNat])
      rw [List.length_append, List.length_singleton] at h2
      omega

/-- The decode loop has left after at most one pass more than there are bits: any two values
of `orig_size` above the number of bits give the same passes, and the loop fails. -/
theorem decode_loop_bounded (root : DecNode) (hs : root.sym < 0) (n m : Nat) (br : BitReader)
    (crc : Nat) (out : List Nat) (hn : br.avail < n) (hm : br.avail < m) :
    decode_loop root n br crc out = decode_loop root m br crc out ∧
    (decode_loop root n br crc out).1 ≠ 0 := by
  induction n generalizing m br crc out with
  | zero => omega
  | succ n ih =>
    obtain ⟨m2, rfl⟩ : ∃ m2, m = m2 + 1 := ⟨m - 1, by omega⟩
    rw [decode_loop, decode_loop]
    cases hd : descend root br with
    | error st =>
      simp only
      exact ⟨trivial, descend_error_ne_zero root br st hd⟩
    | ok r =>
      obtain ⟨sym, br2⟩ := r
      simp only
      have h1 := (descend_avail root br sym br2 hd).2 hs
      exact ih m2 br2 (crc32_update crc [(sym % 256).toNat])
        (out ++ [(sym % 256).toNat]) (by omega) (by omega)

/-- What `decompress_file` writes is bounded by the payload, the bytes behind the 273-byte
header: at most eight bytes for every payload byte. -/
theorem decompress_output_length (file : List Nat) :
    (decompress_file file).2.length ≤ 8 * (file.length - 273) := by
  by_cases hm : file.take 4 = MAGIC
  · have hlen4 : 4 ≤ file.length := by
      have := congrArg List.length hm
      simp only [List.length_take, MAGIC, List.length_cons, List.length_nil] at this
      omega
    have hcond : ¬ ((file.take 4).length ≠ 4 ∨ file.take 4 ≠ MAGIC) := by
      rw [hm]; simp [MAGIC]
    have hrest : (read_u64_le (file.drop 4)).2 =
        if 12 ≤ file.length then file.drop 12 else [] := by
      unfold read_u64_le
      rw [read_le_rest, List.length_drop, List.drop_drop]
      by_cases h12 : 12 ≤ file.length
      · rw [if_pos (by omega), if_pos h12]
      · rw [if_neg (by omega), if_neg h12]
    by_cases h268 : file.length < 268
    · have h3 : decompress_file file = (3, []) := by
        unfold decompress_file
        simp only [hcond, if_false, hrest]
        have : ((if 12 ≤ file.length then file.drop 12 else []).take 256).length ≠ 256 := by
          by_cases h12 : 12 ≤ file.length
          · rw [if_pos h12, List.length_take, List.length_drop]; omega
          · rw [if_neg h12]; simp
        rw [if_pos this]
      rw [h3]; exact Nat.zero_le _
    · have h12 : 12 ≤ file.length := by omega
      have hl : ¬ ((file.drop 12).take 256).length ≠ 256 := by
        rw [List.length_take, List.length_drop]; omega
      have hdrop : (file.drop 12).drop 256 = file.drop 268 := by
        rw [List.drop_drop]
      cases htl : file.drop 268 with
      | nil =>
        have h9 : decompress_file file = (9, []) := by
          unfold decompress_file
          simp only [hcond, if_false, hrest, if_pos h12, hl, hdrop, htl]
        rw [h9]; exact Nat.zero_le _
      | cons pad tl =>
        have htll : tl.length = file.length - 269 := by
          have := congrArg List.length htl
          simp only [List.length_drop, List.length_cons] at this
          omega
        have hpay : (read_u32_le tl).2.length = file.length - 273 := by
          unfold read_u32_le
          rw [read_le_rest]
          by_cases h4 : 4 ≤ tl.length
          · rw [if_pos h4, List.length_drop]; omega
          · rw [if_neg h4, List.length_nil]; omega
        unfold decompress_file
        simp only [hcond, if_false, hrest, if_pos h12, hl, hdrop, htl]
        by_cases hp : 7 < pad
        · rw [if_pos hp]; exact Nat.zero_le _
        · rw [if_neg hp]
          by_cases hz : (read_u64_le (file.drop 4)).1 = 0
          · rw [if_pos hz]; exact Nat.zero_le _
          · rw [if_neg hz]
            have hroot := build_decode_tree_root
              (fun s => ((file.drop 12).take 256).getD s 0)
            cases hb : build_decode_tree (fun s => ((file.drop 12).take 256).getD s 0) with
            | null => exact Nat.zero_le _
            | mk c0 c1 s =>
              rw [hb] at hroot
              have hs : (DecNode.mk c0 c1 s).sym < 0 := by rw [hroot]; decide
              have hlen := decode_loop_length (DecNode.mk c0 c1 s) hs
                (read_u64_le (file.drop 4)).1
                { f := (read_u32_le tl).2, buf := 0, bits := 0 } 0xFFFFFFFF []
              have hav : (BitReader.mk (read_u32_le tl).2 0 0).avail = 8 * (file.length - 273) := by
                unfold BitReader.avail
                simp only [hpay]
                omega
              rw [hav, List.length_nil, Nat.zero_add] at hlen
              simp only
              split
              · exact hlen
              · split
                · exact hlen
                · exact hlen
  · have h2 : decompress_file file = (2, []) := by
      unfold decompress_file
      simp only
      rw [if_pos (Or.inr hm)]
    rw [h2]; exact Nat.zero_le _

/-! ### flushing a buffer twice -/

/-- A second `flush` of a `MemBitWriter` keeps `bytes` and sets `last_valid_bits` to 8 when
there is a stored byte, to 0 otherwise. -/
theorem flush_twice (m : MemBitWriter) :
    m.flush.flush.bytes = m.flush.bytes ∧
    m.flush.flush.last_valid_bits = (if m.flush.bytes = [] then 0 else 8) := by
  have hb : m.flush.bits = 0 := by
    unfold MemBitWriter.flush
    split
    · rfl
    · split
      · simp only; omega
      · simp only; omega
  generalize m.flush = f at hb
  unfold MemBitWriter.flush
  rw [if_neg (by omega)]
  by_cases he : f.bytes = []
  · rw [if_neg (by simpa using he), if_pos he]
    exact ⟨rfl, rfl⟩
  · rw [if_pos he, if_neg he]
    exact ⟨rfl, rfl⟩

theorem flush_twice_scenario :
    (MemBitWriter.init.write_list [1, 0, 1]).flush.bytes = [0xA0] ∧
    (MemBitWriter.init.write_list [1, 0, 1]).flush.last_valid_bits = 3 ∧
    (MemBitWriter.init.write_list [1, 0, 1]).flush.flush.bytes = [0xA0] ∧
    (MemBitWriter.init.write_list [1, 0, 1]).flush.flush.last_valid_bits = 8 ∧
    (MemBitWriter.init.write_list [1, 0, 1]).flush.replay_into
      (fun (l : List Nat) b => l ++ [b]) [] = [1, 0, 1] ∧
    (MemBitWriter.init.write_list [1, 0, 1]).flush.flush.replay_into
      (fun (l : List Nat) b => l ++ [b]) [] = [1, 0, 1, 0, 0, 0, 0, 0] := by
  decide

/-! ### the first payload bytes -/

theorem bytes_to_bits_inj (a b : List Nat) (ha : ∀ c ∈ a, c < 256) (hb : ∀ c ∈ b, c < 256)
    (h : bytes_to_bits a = bytes_to_bits b) : a = b := by
  induction a generalizing b with
  | nil =>
    cases b with
    | nil => rfl
    | cons d ds =>
      have := congrArg List.length h
      rw [bytes_to_bits_length, bytes_to_bits_length] at this
      simp at this
  | cons c cs ih =>
    cases b with
    | nil =>
      have := congrArg List.length h
      rw [bytes_to_bits_length, bytes_to_bits_length] at this
      simp at this
    | cons d ds =>
      have h1 : bytes_to_bits (c :: cs) = cw_bits c 8 ++ bytes_to_bits cs := by
        simp [bytes_to_bits]
      have h2 : bytes_to_bits (d :: ds) = cw_bits d 8 ++ bytes_to_bits ds := by
        simp [bytes_to_bits]
      rw [h1, h2] at h
      obtain ⟨h3, h4⟩ := List.append_inj h (by rw [cw_bits_length, cw_bits_length])
      have hmod := cw_bits_inj c d 8 h3
      have hc := ha c (List.mem_cons_self _ _)
      have hd := hb d (List.mem_cons_self _ _)
      have hcd : c = d := by omega
      rw [hcd, ih ds (fun x hx => ha x (List.mem_cons_of_mem _ hx))
        (fun x hx => hb x (List.mem_cons_of_mem _ hx)) h4]

/-- The payload of a container starts with the bytes that the codeword of the first input
byte fills. -/
theorem payload_first_bytes (tie : List Node → Nat) (hw : Nat) (data : List Nat) (x : Nat)
    (tl : List Nat) (pre : List Nat) (hv : ValidInput data) (hx : data = x :: tl)
    (hpre : ∀ c ∈ pre, c < 256)
    (hcw : bytes_to_bits pre <+:
      cw_bits (code_table tie data x).code (code_table tie data x).len) :
    ((compress_file tie hw data).2.drop 273).take pre.length = pre := by
  have hne : data ≠ [] := by rw [hx]; exact List.cons_ne_nil _ _
  obtain ⟨-, -, -, -, -, -, hpl, hbits⟩ := layout_of_container tie hw data hne hv
  generalize (compress_file tie hw data).2.drop 273 = payload at hpl hbits
  have henc := encode_bits_cons (code_table tie data) x tl
  rw [← hx] at henc
  have hprefix : bytes_to_bits pre <+: bytes_to_bits payload := by
    rw [hbits, henc, List.append_assoc]
    exact hcw.trans (List.prefix_append _ _)
  have htake : bytes_to_bits (payload.take pre.length) = bytes_to_bits pre := by
    rw [bytes_to_bits_take, ← bytes_to_bits_length pre]
    exact (List.prefix_iff_eq_take.mp hprefix).symm
  exact bytes_to_bits_inj _ _ (fun c hc => hpl c (List.mem_of_mem_take hc)) hpre htake

theorem deep_wrap_facts :
    build_canonical (code_lengths firstTie deep_freq) 2 = ⟨0xFFFFFFFE, 32⟩ ∧
    build_canonical (code_lengths firstTie deep_freq) 0 = ⟨0xFFFFFFFE, 33⟩ ∧
    next_code 0xFFFFFFFE 32 ⟨33, 0⟩ = (0xFFFFFFFE, 33) ∧
    (0xFFFFFFFE + 1) <<< (33 - 32) = 0x1FFFFFFFE ∧
    bytes_to_bits [0xFF, 0xFF, 0xFF, 0xFF] <+: cw_bits 0x1FFFFFFFE 33 ∧
    bytes_to_bits [0x7F, 0xFF, 0xFF, 0xFF] <+: cw_bits 0xFFFFFFFE 33 := by decide!

theorem deep_payload_head (tie : List Node → Nat) (hw : Nat) :
    ((compress_file tie hw deep_input).2.drop 273).take 4 = [0x7F, 0xFF, 0xFF, 0xFF] := by
  obtain ⟨tl, htl⟩ := deep_input_head
  obtain ⟨-, h2, -, -, -, h6⟩ := deep_wrap_facts
  have hct : code_table tie deep_input 0 = ⟨0xFFFFFFFE, 33⟩ := by
    unfold code_table
    rw [count_freq_deep_input, code_lengths_unique tie deep_freq deep_unique, h2]
  exact payload_first_bytes tie hw deep_input 0 tl [0x7F, 0xFF, 0xFF, 0xFF] deep_input_valid htl
    (by decide) (by rw [hct]; exact h6)

/-! ## The claims -/

/-- C1 (round trip), evaluated at an input the code mishandles.  `deep_input` is a
well-formed input of 12,752,042 bytes whose first byte is 0.  Its Huffman tree has depth 33,
the 32-bit `code` of `build_canonical` and `build_decode_tree` wraps, and for every
tie-breaking of the queue and every worker count the first byte `decompress_file` writes for
the container of `deep_input` is 33: the round trip does not return the input. -/
theorem round_trip_fails_on_deep_input (tie : List Node → Nat) (hw : Nat) :
    ValidInput deep_input ∧ deep_input.length = 12752042 ∧ deep_input.head? = some 0 ∧
    (decompress_file (compress_file tie hw deep_input).2).2.head? = some 33 ∧
    decompress_file (compress_file tie hw deep_input).2 ≠ (0, deep_input) := by
  obtain ⟨tl, htl⟩ := deep_input_head
  have hh := deep_round_trip_head_any tie hw
  refine ⟨deep_input_valid, deep_input_length, by rw [htl]; rfl, hh, ?_⟩
  intro h
  rw [h] at hh
  change deep_input.head? = some 33 at hh
  rw [htl] at hh
  exact absurd (Option.some.inj hh) (by decide)

/-- C2 (stitching equals sequential encoding), evaluated at an input the code mishandles.
For the two-byte input `[0, 0]`, a table that gives every byte the codeword `0` and
`chunk_size = 2 ^ 64 - 1`, the chunk count `(total + chunk_size - 1) / chunk_size` wraps to 0:
`encode_chunks_parallel` returns no chunk and the stitched stream is empty, while writing the
two codewords into one `BitWriter` and flushing gives the byte 0. -/
theorem stitching_loses_data_on_size_overflow :
    encode_chunks_parallel [0, 0] (fun _ => ⟨0, 1⟩) (2 ^ 64 - 1) 1 = [] ∧
    (stitch (encode_chunks_parallel [0, 0] (fun _ => ⟨0, 1⟩) (2 ^ 64 - 1) 1) ⟨[], 0, 0⟩).flush.f
      = [] ∧
    (([0, 0] : List Nat).foldl (fun w b => BitWriter.write_bits w
      ((fun _ => (⟨0, 1⟩ : Codeword)) b).code ((fun _ => (⟨0, 1⟩ : Codeword)) b).len)
      ⟨[], 0, 0⟩).flush.f = [0] := by decide!

/-- C3 (prefix-freeness), evaluated at a frequency table the code mishandles.  For the table
`deep_freq` (34 symbols with nonzero count) and every tie-breaking of the queue,
`build_canonical` gives symbol 33 the pair `(0, 1)` and symbol 0 the pair `(0xFFFFFFFE, 33)`,
and the 1-bit pattern of the former is a prefix of the 33-bit pattern of the latter. -/
theorem canonical_code_prefix_collision (tie : List Node → Nat) :
    2 ≤ (present deep_freq).length ∧ 0 ∈ present deep_freq ∧ 33 ∈ present deep_freq ∧
    build_canonical (code_lengths tie deep_freq) 33 = ⟨0, 1⟩ ∧
    build_canonical (code_lengths tie deep_freq) 0 = ⟨0xFFFFFFFE, 33⟩ ∧
    cw_bits (build_canonical (code_lengths tie deep_freq) 33).code
        (build_canonical (code_lengths tie deep_freq) 33).len <+:
      cw_bits (build_canonical (code_lengths tie deep_freq) 0).code
        (build_canonical (code_lengths tie deep_freq) 0).len := by
  obtain ⟨h1, h2, h3, -, -, h6, h7, h8⟩ := deep_table_facts
  rw [code_lengths_unique tie deep_freq deep_unique, h6, h7]
  exact ⟨h1, h2, h3, rfl, rfl, h8⟩

/-- C4 (Kraft equality).  For every frequency table with at least two nonzero counts and
every tie-breaking of the queue, the lengths computed by the tree builder and
`gather_lengths` satisfy: the sum over the present symbols of `2 ^ (-length)` is 1, every
present symbol has a length in `1 .. 255`, and every absent symbol has length 0. -/
theorem kraft_equality_of_code_lengths (tie : List Node → Nat) (freq : Nat → Nat)
    (h2 : 2 ≤ (present freq).length) :
    ((present freq).map fun s => (1 / 2 : ℚ) ^ code_lengths tie freq s).sum = 1 ∧
    (∀ s, s < 256 → 0 < freq s →
      1 ≤ code_lengths tie freq s ∧ code_lengths tie freq s ≤ 255) ∧
    (∀ s, s < 256 → freq s = 0 → code_lengths tie freq s = 0) :=
  kraft_equality tie freq h2

/-- A frequency table with two nonzero counts to which C4 applies. -/
theorem kraft_equality_of_code_lengths_witness :
    2 ≤ (present (count_freq [0x41, 0x41, 0x41, 0x42])).length ∧
    (((present (count_freq [0x41, 0x41, 0x41, 0x42])).map fun s =>
      (1 / 2 : ℚ) ^ code_lengths firstTie (count_freq [0x41, 0x41, 0x41, 0x42]) s).sum = 1 ∧
    (∀ s, s < 256 → 0 < count_freq [0x41, 0x41, 0x41, 0x42] s →
      1 ≤ code_lengths firstTie (count_freq [0x41, 0x41, 0x41, 0x42]) s ∧
      code_lengths firstTie (count_freq [0x41, 0x41, 0x41, 0x42]) s ≤ 255) ∧
    (∀ s, s < 256 → count_freq [0x41, 0x41, 0x41, 0x42] s = 0 →
      code_lengths firstTie (count_freq [0x41, 0x41, 0x41, 0x42]) s = 0)) :=
  ⟨by decide!, kraft_equality_of_code_lengths firstTie _ (by decide!)⟩

/-- C5 (encoder and decoder derive the same mapping), evaluated at a length table the code
mishandles.  For the lengths generated from `deep_freq`, under every tie-breaking of the
queue, symbol 33 has length 1 and codeword `0`, but the node of the decode trie at the end of
that codeword is not a leaf (it has a child), and walking the trie as the decoder does along
the 33 bits of the codeword of symbol 0 stops after one bit at symbol 33. -/
theorem decode_trie_differs_from_code_table (tie : List Node → Nat) :
    code_lengths tie deep_freq 33 = 1 ∧ code_lengths tie deep_freq 0 = 33 ∧
    build_canonical (code_lengths tie deep_freq) 33 = ⟨0, 1⟩ ∧
    build_canonical (code_lengths tie deep_freq) 0 = ⟨0xFFFFFFFE, 33⟩ ∧
    (DecNode.walk (build_decode_tree (code_lengths tie deep_freq)) (cw_bits 0 1)).sym = 33 ∧
    (DecNode.walk (build_decode_tree (code_lengths tie deep_freq)) (cw_bits 0 1)).is_leaf
      = false ∧
    bytes_to_bits [0x7F, 0xFF, 0xFF, 0xFF, 0x00] = cw_bits 0xFFFFFFFE 33 ++ List.replicate 7 0 ∧
    (descend (build_decode_tree (code_lengths tie deep_freq))
      ⟨[0x7F, 0xFF, 0xFF, 0xFF, 0x00], 0, 0⟩).toOption =
        some (33, ⟨[0xFF, 0xFF, 0xFF, 0x00], 0xFE, 7⟩) := by
  obtain ⟨-, -, -, h4, h5, h6, h7, -⟩ := deep_table_facts
  obtain ⟨g1, g2, g3, g4⟩ := deep_trie_facts
  rw [code_lengths_unique tie deep_freq deep_unique]
  exact ⟨h5, h4, h7, h6, g1, g2, g3, g4⟩

/-- C6 (corruption detection) refuted at explicit inputs.  For the input `[0x41]` the payload
is the byte at offset 273, whose lowest bit is a filler bit: flipping it still gives status 0
and the output `[0x41]`.  For the 38-byte input `collide_input`, flipping bit 1 of the byte at
offset 273 gives status 0 and the different output `collide_output`, whose CRC-32 equals that
of the input. -/
theorem flipped_bit_undetected :
    (compress_file firstTie 1 [0x41]).2.length = 274 ∧
    decompress_file (flip_bit (compress_file firstTie 1 [0x41]).2 273 0) = (0, [0x41]) ∧
    273 < (compress_file firstTie 1 collide_input).2.length ∧
    decompress_file (flip_bit (compress_file firstTie 1 collide_input).2 273 1) =
      (0, collide_output) ∧
    collide_output ≠ collide_input ∧ crc32 collide_output = crc32 collide_input := by decide!

/-- C6 as amended.  For every non-empty well-formed input, every tie-breaking of the queue
and every position among the codeword bits of the payload (bit `k` of the byte at offset
`i ≥ 273`, at stream position `8 * (i - 273) + (7 - k)` below the number of codeword bits),
`decompress_file` on the container with that bit flipped returns a non-zero status, or it
writes bytes that differ from the input and have the length and the CRC-32 of the input. -/
theorem flipped_code_bit_fails_or_differs (tie : List Node → Nat) (hw : Nat) (data : List Nat)
    (i k : Nat) (hne : data ≠ []) (hv : ValidInput data) (hi : 273 ≤ i) (hk : k < 8)
    (hp : 8 * (i - 273) + (7 - k) < (encode_bits (code_table tie data) data).length) :
    (decompress_file (flip_bit (compress_file tie hw data).2 i k)).1 ≠ 0 ∨
    ((decompress_file (flip_bit (compress_file tie hw data).2 i k)).2 ≠ data ∧
     (decompress_file (flip_bit (compress_file tie hw data).2 i k)).2.length = data.length ∧
     crc32 (decompress_file (flip_bit (compress_file tie hw data).2 i k)).2 = crc32 data) :=
  flipped_code_bit tie hw data i k hne hv hi hk hp

/-- An input and a codeword bit to which the amended C6 applies. -/
theorem flipped_code_bit_fails_or_differs_witness :
    ([0x41, 0x41, 0x41, 0x42] : List Nat) ≠ [] ∧ ValidInput [0x41, 0x41, 0x41, 0x42] ∧
    273 ≤ 273 ∧ 7 < 8 ∧
    8 * (273 - 273) + (7 - 7) <
      (encode_bits (code_table firstTie [0x41, 0x41, 0x41, 0x42]) [0x41, 0x41, 0x41, 0x42]).length ∧
    ((decompress_file (flip_bit (compress_file firstTie 1 [0x41, 0x41, 0x41, 0x42]).2 273 7)).1 ≠ 0 ∨
    ((decompress_file (flip_bit (compress_file firstTie 1 [0x41, 0x41, 0x41, 0x42]).2 273 7)).2
        ≠ [0x41, 0x41, 0x41, 0x42] ∧
     (decompress_file (flip_bit (compress_file firstTie 1 [0x41, 0x41, 0x41, 0x42]).2 273 7)).2.length
        = ([0x41, 0x41, 0x41, 0x42] : List Nat).length ∧
     crc32 (decompress_file (flip_bit (compress_file firstTie 1 [0x41, 0x41, 0x41, 0x42]).2 273 7)).2
        = crc32 [0x41, 0x41, 0x41, 0x42])) :=
  ⟨by decide, ⟨by decide, by decide⟩, by decide, by decide, by decide!,
    flipped_code_bit_fails_or_differs firstTie 1 [0x41, 0x41, 0x41, 0x42] 273 7 (by decide)
      ⟨by decide, by decide⟩ (by decide) (by decide) (by decide!)⟩

/-- C7 (success implies verified output), evaluated at an input the code mishandles.  For the
273-byte header with `original_size = 0` and the `crc32` field 1, `decompress_file` returns
status 0 having written nothing, although the CRC-32 of the empty output is 0, not 1. -/
theorem empty_size_skips_checksum :
    decompress_file ([0x48, 0x55, 0x46, 0x31] ++ List.replicate 8 0 ++ List.replicate 256 0 ++
      [0] ++ [1, 0, 0, 0]) = (0, []) ∧
    read_u32_le [1, 0, 0, 0] = (1, []) ∧ crc32 [] = 0 := by decide!

/-- C8 (container layout), evaluated at an input the code mishandles.  `deep_input` is a
well-formed input whose first byte is 0.  That byte gets the code length 33, one more than the
32 bits of `code`: behind the pair `(0xFFFFFFFE, 32)` of byte 2, the step
`code += 1; code <<= 1` of `build_canonical` wraps to `0xFFFFFFFE`, where the canonical code
is `0x1FFFFFFFE`.  The canonical codeword of 33 bits starts with 32 ones and would fill the
first four payload bytes with `0xFF`; for every tie-breaking of the queue and every worker
count the payload written starts with `0x7F, 0xFF, 0xFF, 0xFF`. -/
theorem deep_payload_not_canonical (tie : List Node → Nat) (hw : Nat) :
    ValidInput deep_input ∧ deep_input.head? = some 0 ∧
    code_lengths tie (count_freq deep_input) 0 = 33 ∧
    build_canonical (code_lengths tie (count_freq deep_input)) 2 = ⟨0xFFFFFFFE, 32⟩ ∧
    build_canonical (code_lengths tie (count_freq deep_input)) 0 = ⟨0xFFFFFFFE, 33⟩ ∧
    next_code 0xFFFFFFFE 32 ⟨33, 0⟩ = (0xFFFFFFFE, 33) ∧
    (0xFFFFFFFE + 1) <<< (33 - 32) = 0x1FFFFFFFE ∧
    bytes_to_bits [0xFF, 0xFF, 0xFF, 0xFF] <+: cw_bits 0x1FFFFFFFE 33 ∧
    ((compress_file tie hw deep_input).2.drop 273).take 4 = [0x7F, 0xFF, 0xFF, 0xFF] ∧
    ((compress_file tie hw deep_input).2.drop 273).take 4 ≠ [0xFF, 0xFF, 0xFF, 0xFF] := by
  obtain ⟨tl, htl⟩ := deep_input_head
  obtain ⟨-, -, -, h4, -, -, -, -⟩ := deep_table_facts
  obtain ⟨g1, g2, g3, g4, g5, -⟩ := deep_wrap_facts
  have hl : code_lengths tie (count_freq deep_input) = code_lengths firstTie deep_freq := by
    rw [count_freq_deep_input, code_lengths_unique tie deep_freq deep_unique]
  have hp := deep_payload_head tie hw
  refine ⟨deep_input_valid, by rw [htl]; rfl, by rw [hl]; exact h4, by rw [hl]; exact g1,
    by rw [hl]; exact g2, g3, g4, g5, hp, ?_⟩
  rw [hp]
  decide

/-- C9 (empty input).  For every tie-breaking of the queue and every worker count,
compressing the empty input gives status 0 and exactly the 273 bytes "HUF1", eight zero
bytes, 256 zero length bytes, the pad byte 0 and four zero CRC bytes, and `decompress_file`
on that file returns status 0 and writes nothing. -/
theorem empty_input_container (tie : List Node → Nat) (hw : Nat) :
    compress_file tie hw [] =
      (0, [0x48, 0x55, 0x46, 0x31] ++ List.replicate 8 0 ++ List.replicate 256 0 ++ [0] ++
        List.replicate 4 0) ∧
    (compress_file tie hw []).2.length = 273 ∧
    decompress_file (compress_file tie hw []).2 = (0, []) := by
  rw [compress_empty tie hw]
  exact ⟨rfl, decompress_empty.1, decompress_empty.2⟩

/-- C10 (single symbol).  For every byte value `x`, every count `n` with `1 ≤ n < 2 ^ 63`
and every tie-breaking of the queue, compressing `n` copies of `x` gives `x` the length 1 and
every other symbol the length 0, gives `x` the pair `(0, 1)`, whose codeword is the single
bit 0, and writes a payload of `⌈n / 8⌉` zero bytes. -/
theorem single_symbol_container (tie : List Node → Nat) (hw : Nat) (x n : Nat) (hx : x < 256)
    (hn : 1 ≤ n) (hn2 : n < 2 ^ 63) :
    code_lengths tie (count_freq (List.replicate n x)) x = 1 ∧
    (∀ s, s ≠ x → code_lengths tie (count_freq (List.replicate n x)) s = 0) ∧
    build_canonical (code_lengths tie (count_freq (List.replicate n x))) x = ⟨0, 1⟩ ∧
    cw_bits 0 1 = [0] ∧
    (compress_file tie hw (List.replicate n x)).2.drop 273 = List.replicate ((n + 7) / 8) 0 :=
  single_symbol tie hw x n hx hn hn2

/-- A byte value and a count to which C10 applies. -/
theorem single_symbol_container_witness :
    0x41 < 256 ∧ 1 ≤ 3 ∧ 3 < 2 ^ 63 ∧
    (code_lengths firstTie (count_freq (List.replicate 3 0x41)) 0x41 = 1 ∧
    (∀ s, s ≠ 0x41 → code_lengths firstTie (count_freq (List.replicate 3 0x41)) s = 0) ∧
    build_canonical (code_lengths firstTie (count_freq (List.replicate 3 0x41))) 0x41 = ⟨0, 1⟩ ∧
    cw_bits 0 1 = [0] ∧
    (compress_file firstTie 1 (List.replicate 3 0x41)).2.drop 273 =
      List.replicate ((3 + 7) / 8) 0) :=
  ⟨by decide, by decide, by decide,
    single_symbol_container firstTie 1 0x41 3 (by decide) (by decide) (by decide)⟩

/-- C11 (two symbols).  For every well-formed input with exactly two distinct byte values
`a < b` and every tie-breaking of the queue, both values get the length 1, `a` the code 0 and
`b` the code 1.  For the input `[0x41, 0x41, 0x41, 0x42]` the pad byte is 4, the payload is
the single byte `0x10`, and `decompress_file` on the container returns status 0 and the four
input bytes. -/
theorem two_symbol_case (tie : List Node → Nat) (hw : Nat) (data : List Nat) (a b : Nat)
    (hv : ValidInput data) (hab : a < b) (ha : a ∈ data) (hb : b ∈ data)
    (hall : ∀ x ∈ data, x = a ∨ x = b) :
    code_lengths tie (count_freq data) a = 1 ∧ code_lengths tie (count_freq data) b = 1 ∧
    build_canonical (code_lengths tie (count_freq data)) a = ⟨0, 1⟩ ∧
    build_canonical (code_lengths tie (count_freq data)) b = ⟨1, 1⟩ ∧
    ((compress_file tie hw [0x41, 0x41, 0x41, 0x42]).2.drop 268).take 1 = [4] ∧
    (compress_file tie hw [0x41, 0x41, 0x41, 0x42]).2.drop 273 = [0x10] ∧
    decompress_file (compress_file tie hw [0x41, 0x41, 0x41, 0x42]).2 =
      (0, [0x41, 0x41, 0x41, 0x42]) := by
  obtain ⟨h1, h2, h3, h4⟩ := two_symbol_table tie data a b hv hab ha hb hall
  obtain ⟨-, g2, g3, g4⟩ := two_symbol_scenario tie hw
  exact ⟨h1, h2, h3, h4, g2, g3, g4⟩

/-- An input with two distinct byte values to which C11 applies. -/
theorem two_symbol_case_witness :
    ValidInput [0x41, 0x41, 0x41, 0x42] ∧ 0x41 < 0x42 ∧
    0x41 ∈ ([0x41, 0x41, 0x41, 0x42] : List Nat) ∧ 0x42 ∈ ([0x41, 0x41, 0x41, 0x42] : List Nat) ∧
    (∀ x ∈ ([0x41, 0x41, 0x41, 0x42] : List Nat), x = 0x41 ∨ x = 0x42) ∧
    (code_lengths firstTie (count_freq [0x41, 0x41, 0x41, 0x42]) 0x41 = 1 ∧
    code_lengths firstTie (count_freq [0x41, 0x41, 0x41, 0x42]) 0x42 = 1 ∧
    build_canonical (code_lengths firstTie (count_freq [0x41, 0x41, 0x41, 0x42])) 0x41 = ⟨0, 1⟩ ∧
    build_canonical (code_lengths firstTie (count_freq [0x41, 0x41, 0x41, 0x42])) 0x42 = ⟨1, 1⟩ ∧
    ((compress_file firstTie 1 [0x41, 0x41, 0x41, 0x42]).2.drop 268).take 1 = [4] ∧
    (compress_file firstTie 1 [0x41, 0x41, 0x41, 0x42]).2.drop 273 = [0x10] ∧
    decompress_file (compress_file firstTie 1 [0x41, 0x41, 0x41, 0x42]).2 =
      (0, [0x41, 0x41, 0x41, 0x42])) :=
  ⟨⟨by decide, by decide⟩, by decide, by decide, by decide, by decide,
    two_symbol_case firstTie 1 [0x41, 0x41, 0x41, 0x42] 0x41 0x42 ⟨by decide, by decide⟩
      (by decide) (by decide) (by decide) (by decide)⟩

/-- C12 (checksum).  For every byte sequence, `crc32` is `crc32_update` started from
`0xFFFFFFFF` with the result complemented, and it equals the standard reflected CRC-32
`crc32_standard`; the CRC-32 of the empty sequence is 0 and that of the ASCII bytes
"123456789" is `0xCBF43926`. -/
theorem crc32_is_standard (data : List Nat) :
    crc32 data = crc32_update 0xFFFFFFFF data ^^^ 0xFFFFFFFF ∧
    crc32 data = crc32_standard data ∧
    crc32 [] = 0 ∧
    crc32 [0x31, 0x32, 0x33, 0x34, 0x35, 0x36, 0x37, 0x38, 0x39] = 0xCBF43926 :=
  ⟨rfl, crc32_eq_standard data, crc32_check_values.1, crc32_check_values.2⟩

/-- C13 (pad bits).  For every non-empty well-formed input and every tie-breaking of the
queue, the container has at least 273 bytes, the codeword bits of the input fit its payload,
and the byte at offset 268 equals 8 times the number of payload bytes minus the number of
codeword bits written for the input, and is at most 7. -/
theorem pad_bits_is_filler_count (tie : List Node → Nat) (hw : Nat) (data : List Nat)
    (hne : data ≠ []) (hv : ValidInput data) :
    273 ≤ (compress_file tie hw data).2.length ∧
    (data.map fun b => (code_table tie data b).len).sum ≤
      8 * ((compress_file tie hw data).2.length - 273) ∧
    (compress_file tie hw data).2.getD 268 0 =
      8 * ((compress_file tie hw data).2.length - 273) -
        (data.map fun b => (code_table tie data b).len).sum ∧
    (compress_file tie hw data).2.getD 268 0 ≤ 7 :=
  pad_bits_of_container tie hw data hne hv

/-- An input to which C13 applies. -/
theorem pad_bits_is_filler_count_witness :
    ([0x41, 0x41, 0x41, 0x42] : List Nat) ≠ [] ∧ ValidInput [0x41, 0x41, 0x41, 0x42] ∧
    (273 ≤ (compress_file firstTie 1 [0x41, 0x41, 0x41, 0x42]).2.length ∧
    (([0x41, 0x41, 0x41, 0x42] : List Nat).map fun b =>
        (code_table firstTie [0x41, 0x41, 0x41, 0x42] b).len).sum ≤
      8 * ((compress_file firstTie 1 [0x41, 0x41, 0x41, 0x42]).2.length - 273) ∧
    (compress_file firstTie 1 [0x41, 0x41, 0x41, 0x42]).2.getD 268 0 =
      8 * ((compress_file firstTie 1 [0x41, 0x41, 0x41, 0x42]).2.length - 273) -
        (([0x41, 0x41, 0x41, 0x42] : List Nat).map fun b =>
          (code_table firstTie [0x41, 0x41, 0x41, 0x42] b).len).sum ∧
    (compress_file firstTie 1 [0x41, 0x41, 0x41, 0x42]).2.getD 268 0 ≤ 7) :=
  ⟨by decide, ⟨by decide, by decide⟩,
    pad_bits_is_filler_count firstTie 1 [0x41, 0x41, 0x41, 0x42] (by decide)
      ⟨by decide, by decide⟩⟩

/-- C14 (truncated header), evaluated at inputs the code mishandles.  A file that consists of
the tag "HUF1", eight zero bytes (`original_size = 0`), 256 length bytes and the pad byte 0,
and ends there (269 bytes) or after one, two or three of the four `crc32` bytes, is shorter
than the 273-byte header, yet `decompress_file` returns status 0. -/
theorem truncated_crc_field_accepted :
    ([0x48, 0x55, 0x46, 0x31] ++ List.replicate 8 0 ++ List.replicate 256 0 ++ [0] :
      List Nat).length = 269 ∧
    decompress_file ([0x48, 0x55, 0x46, 0x31] ++ List.replicate 8 0 ++ List.replicate 256 0 ++
      [0]) = (0, []) ∧
    decompress_file ([0x48, 0x55, 0x46, 0x31] ++ List.replicate 8 0 ++ List.replicate 256 0 ++
      [0] ++ [0xAB]) = (0, []) ∧
    decompress_file ([0x48, 0x55, 0x46, 0x31] ++ List.replicate 8 0 ++ List.replicate 256 0 ++
      [0] ++ [0xAB, 0xCD]) = (0, []) ∧
    decompress_file ([0x48, 0x55, 0x46, 0x31] ++ List.replicate 8 0 ++ List.replicate 256 0 ++
      [0] ++ [0xAB, 0xCD, 0xEF]) = (0, []) := by decide!

/-- C15 (distinct status codes) refuted at an explicit input.  The file that consists of the
tag "HUF1" and 264 zero bytes has a valid tag and ends after the length table, before the
`pad_bits` byte: its header is incomplete (268 of 273 bytes), but `decompress_file` returns
the status 9 of invalid pad bits, not the status 3 of a truncated header. -/
theorem missing_pad_byte_reported_as_bad_pad_bits :
    ([0x48, 0x55, 0x46, 0x31] ++ List.replicate 264 0 : List Nat).length = 268 ∧
    ([0x48, 0x55, 0x46, 0x31] ++ List.replicate 264 0 : List Nat).take 4 = MAGIC ∧
    decompress_file ([0x48, 0x55, 0x46, 0x31] ++ List.replicate 264 0) = (9, []) := by decide!

/-- C15 as amended.  For every file that has a wrong tag or does not end inside the `crc32`
field (at most 268 or at least 273 bytes): the status is 2 exactly when the first four bytes
are missing or differ from "HUF1"; it is 3 exactly when the tag is valid and the file ends
before the end of the length table (fewer than 268 bytes); it is 9 exactly when the tag is
valid, the length table is complete, and the `pad_bits` byte is missing (exactly 268 bytes) or
has a value above 7; and when the file is shorter than the 273-byte header the status is one
of these three. -/
theorem format_status_codes (file : List Nat)
    (h : file.take 4 ≠ MAGIC ∨ file.length ≤ 268 ∨ 273 ≤ file.length) :
    ((decompress_file file).1 = 2 ↔ file.take 4 ≠ [0x48, 0x55, 0x46, 0x31]) ∧
    ((decompress_file file).1 = 3 ↔
      file.take 4 = [0x48, 0x55, 0x46, 0x31] ∧ file.length < 268) ∧
    ((decompress_file file).1 = 9 ↔
      file.take 4 = [0x48, 0x55, 0x46, 0x31] ∧ 268 ≤ file.length ∧
        (file.length = 268 ∨ 7 < file.getD 268 0)) ∧
    (file.length < 273 → (decompress_file file).1 = 2 ∨ (decompress_file file).1 = 3 ∨
      (decompress_file file).1 = 9) := by
  change ((decompress_file file).1 = 2 ↔ file.take 4 ≠ MAGIC) ∧
    ((decompress_file file).1 = 3 ↔ file.take 4 = MAGIC ∧ file.length < 268) ∧
    ((decompress_file file).1 = 9 ↔ file.take 4 = MAGIC ∧ 268 ≤ file.length ∧
        (file.length = 268 ∨ 7 < file.getD 268 0)) ∧
    (file.length < 273 → (decompress_file file).1 = 2 ∨ (decompress_file file).1 = 3 ∨
      (decompress_file file).1 = 9)
  rcases decompress_status file with ⟨h1, h2⟩ | ⟨h1, h2, h3⟩ | ⟨h1, h2, h3, h4⟩ | ⟨h1, h2, h3, h4⟩
  · rw [h2]
    refine ⟨⟨fun _ => h1, fun _ => rfl⟩, ⟨?_, fun h => absurd h.1 h1⟩,
      ⟨?_, fun h => absurd h.1 h1⟩, fun _ => Or.inl rfl⟩
    · intro h; exact absurd h (by decide)
    · intro h; exact absurd h (by decide)
  · rw [h3]
    refine ⟨⟨?_, fun h => absurd h1 h⟩, ⟨fun _ => ⟨h1, h2⟩, fun _ => rfl⟩, ⟨?_, ?_⟩,
      fun _ => Or.inr (Or.inl rfl)⟩
    · intro h; exact absurd h (by decide)
    · intro h; exact absurd h (by decide)
    · intro h; omega
  · rw [h4]
    refine ⟨⟨?_, fun h => absurd h1 h⟩, ⟨?_, ?_⟩, ⟨fun _ => ⟨h1, h2, h3⟩, fun _ => rfl⟩,
      fun _ => Or.inr (Or.inr rfl)⟩
    · intro h; exact absurd h (by decide)
    · intro h; exact absurd h (by decide)
    · intro h; omega
  · refine ⟨⟨?_, fun h => absurd h1 h⟩, ⟨?_, ?_⟩, ⟨?_, ?_⟩, ?_⟩
    · intro h; omega
    · intro h; omega
    · intro h; omega
    · intro h; omega
    · intro h; omega
    · intro hlt
      rcases h with h | h | h
      · exact absurd h1 h
      · omega
      · omega

/-- A file that ends with the length table, to which the amended C15 applies. -/
theorem format_status_codes_witness :
    (([0x48, 0x55, 0x46, 0x31] ++ List.replicate 264 0 : List Nat).take 4 ≠ MAGIC ∨
      ([0x48, 0x55, 0x46, 0x31] ++ List.replicate 264 0 : List Nat).length ≤ 268 ∨
      273 ≤ ([0x48, 0x55, 0x46, 0x31] ++ List.replicate 264 0 : List Nat).length) ∧
    (((decompress_file ([0x48, 0x55, 0x46, 0x31] ++ List.replicate 264 0)).1 = 2 ↔
      ([0x48, 0x55, 0x46, 0x31] ++ List.replicate 264 0 : List Nat).take 4 ≠
        [0x48, 0x55, 0x46, 0x31]) ∧
    ((decompress_file ([0x48, 0x55, 0x46, 0x31] ++ List.replicate 264 0)).1 = 3 ↔
      ([0x48, 0x55, 0x46, 0x31] ++ List.replicate 264 0 : List Nat).take 4 =
        [0x48, 0x55, 0x46, 0x31] ∧
      ([0x48, 0x55, 0x46, 0x31] ++ List.replicate 264 0 : List Nat).length < 268) ∧
    ((decompress_file ([0x48, 0x55, 0x46, 0x31] ++ List.replicate 264 0)).1 = 9 ↔
      ([0x48, 0x55, 0x46, 0x31] ++ List.replicate 264 0 : List Nat).take 4 =
        [0x48, 0x55, 0x46, 0x31] ∧
      268 ≤ ([0x48, 0x55, 0x46, 0x31] ++ List.replicate 264 0 : List Nat).length ∧
        (([0x48, 0x55, 0x46, 0x31] ++ List.replicate 264 0 : List Nat).length = 268 ∨
          7 < ([0x48, 0x55, 0x46, 0x31] ++ List.replicate 264 0 : List Nat).getD 268 0)) ∧
    (([0x48, 0x55, 0x46, 0x31] ++ List.replicate 264 0 : List Nat).length < 273 →
      (decompress_file ([0x48, 0x55, 0x46, 0x31] ++ List.replicate 264 0)).1 = 2 ∨
      (decompress_file ([0x48, 0x55, 0x46, 0x31] ++ List.replicate 264 0)).1 = 3 ∨
      (decompress_file ([0x48, 0x55, 0x46, 0x31] ++ List.replicate 264 0)).1 = 9)) :=
  ⟨Or.inr (Or.inl (by decide!)),
    format_status_codes ([0x48, 0x55, 0x46, 0x31] ++ List.replicate 264 0)
      (Or.inr (Or.inl (by decide!)))⟩

/-- C16 (bit stream).  For every list of bits, a fresh `BitWriter` fed these bits with
`write_bit` and flushed once has written `⌈n / 8⌉` bytes; stream bit `i` is bit
`7 - i mod 8` of byte `i / 8`, and the bits of the last byte behind the stream are 0.  A
fresh `BitReader` on those bytes returns, over any number `k` of calls of `read_bit`, the
first `k` values of: the original bits, then `8 * ⌈n / 8⌉ - n` zeros, then `-1` for ever. -/
theorem bit_stream_write_read (bits : List Nat) (h : ∀ b ∈ bits, b < 2) :
    (((BitWriter.mk [] 0 0).write_list bits).flush.f).length = (bits.length + 7) / 8 ∧
    (∀ c ∈ ((BitWriter.mk [] 0 0).write_list bits).flush.f, c < 256) ∧
    (∀ i, i < bits.length →
      some (((((BitWriter.mk [] 0 0).write_list bits).flush.f).getD (i / 8) 0
        >>> (7 - i % 8)) &&& 1) = bits[i]?) ∧
    (∀ i, bits.length ≤ i → i < 8 * ((bits.length + 7) / 8) →
      ((((BitWriter.mk [] 0 0).write_list bits).flush.f).getD (i / 8) 0
        >>> (7 - i % 8)) &&& 1 = 0) ∧
    ∀ k, (BitReader.mk (((BitWriter.mk [] 0 0).write_list bits).flush.f) 0 0).read_many k =
      ((bits.map fun b : Nat => (b : Int)) ++
        List.replicate (8 * ((bits.length + 7) / 8) - bits.length) 0 ++
        List.replicate k (-1)).take k :=
  bit_stream_round_trip bits h

/-- A list of three bits to which C16 applies. -/
theorem bit_stream_write_read_witness :
    (∀ b ∈ ([1, 0, 1] : List Nat), b < 2) ∧
    ((((BitWriter.mk [] 0 0).write_list [1, 0, 1]).flush.f).length =
      (([1, 0, 1] : List Nat).length + 7) / 8 ∧
    (∀ c ∈ ((BitWriter.mk [] 0 0).write_list [1, 0, 1]).flush.f, c < 256) ∧
    (∀ i, i < ([1, 0, 1] : List Nat).length →
      some (((((BitWriter.mk [] 0 0).write_list [1, 0, 1]).flush.f).getD (i / 8) 0
        >>> (7 - i % 8)) &&& 1) = ([1, 0, 1] : List Nat)[i]?) ∧
    (∀ i, ([1, 0, 1] : List Nat).length ≤ i → i < 8 * ((([1, 0, 1] : List Nat).length + 7) / 8) →
      ((((BitWriter.mk [] 0 0).write_list [1, 0, 1]).flush.f).getD (i / 8) 0
        >>> (7 - i % 8)) &&& 1 = 0) ∧
    ∀ k, (BitReader.mk (((BitWriter.mk [] 0 0).write_list [1, 0, 1]).flush.f) 0 0).read_many k =
      ((([1, 0, 1] : List Nat).map fun b : Nat => (b : Int)) ++
        List.replicate (8 * ((([1, 0, 1] : List Nat).length + 7) / 8) -
          ([1, 0, 1] : List Nat).length) 0 ++
        List.replicate k (-1)).take k) :=
  ⟨by decide, bit_stream_write_read [1, 0, 1] (by decide)⟩

/-- C17 (in-memory buffer).  For every list of `n` bits written into a fresh `MemBitWriter`
followed by one `flush`: `last_valid_bits` is 0 if `n = 0` and `(n - 1) mod 8 + 1` otherwise,
`bytes` has `⌈n / 8⌉` entries, and `replay_into` applies the `write_bit` of any sink to
exactly the original bits, in order. -/
theorem mem_buffer_replay_exact (bits : List Nat) (h : ∀ b ∈ bits, b < 2) :
    ((MemBitWriter.init.write_list bits).flush).last_valid_bits =
      (if bits.length = 0 then 0 else (bits.length - 1) % 8 + 1) ∧
    ((MemBitWriter.init.write_list bits).flush).bytes.length = (bits.length + 7) / 8 ∧
    ∀ (σ : Type) (wb : σ → Nat → σ) (sink : σ),
      ((MemBitWriter.init.write_list bits).flush).replay_into wb sink = bits.foldl wb sink :=
  mem_buffer_replay bits h

/-- A list of three bits to which C17 applies. -/
theorem mem_buffer_replay_exact_witness :
    (∀ b ∈ ([1, 0, 1] : List Nat), b < 2) ∧
    (((MemBitWriter.init.write_list [1, 0, 1]).flush).last_valid_bits =
      (if ([1, 0, 1] : List Nat).length = 0 then 0
        else (([1, 0, 1] : List Nat).length - 1) % 8 + 1) ∧
    ((MemBitWriter.init.write_list [1, 0, 1]).flush).bytes.length =
      (([1, 0, 1] : List Nat).length + 7) / 8 ∧
    ∀ (σ : Type) (wb : σ → Nat → σ) (sink : σ),
      ((MemBitWriter.init.write_list [1, 0, 1]).flush).replay_into wb sink =
        ([1, 0, 1] : List Nat).foldl wb sink) :=
  ⟨by decide, mem_buffer_replay_exact [1, 0, 1] (by decide)⟩

/-- C18 (deterministic tie-break) refuted at an explicit input.  For the input
`[0, 1, 2, 3, 4, 4]` the queue holds, after two merges, the leaf of symbol 4 and two
different internal nodes of frequency 2; `Cmp` puts neither internal node before the other.
Taking the one or the other at the next `top()` gives the symbols `0 .. 4` the lengths
`3, 3, 2, 2, 2` or `2, 2, 3, 3, 2`. -/
theorem equal_internal_nodes_unordered :
    merge_loop firstTie 2 (leaf_queue (count_freq [0, 1, 2, 3, 4, 4])) =
      [Node.mk 2 4 .null .null,
       Node.mk 2 (-1) (Node.mk 1 0 .null .null) (Node.mk 1 1 .null .null),
       Node.mk 2 (-1) (Node.mk 1 2 .null .null) (Node.mk 1 3 .null .null)] ∧
    Cmp (Node.mk 2 (-1) (Node.mk 1 0 .null .null) (Node.mk 1 1 .null .null))
      (Node.mk 2 (-1) (Node.mk 1 2 .null .null) (Node.mk 1 3 .null .null)) = false ∧
    Cmp (Node.mk 2 (-1) (Node.mk 1 2 .null .null) (Node.mk 1 3 .null .null))
      (Node.mk 2 (-1) (Node.mk 1 0 .null .null) (Node.mk 1 1 .null .null)) = false ∧
    (List.range 5).map (code_lengths firstTie (count_freq [0, 1, 2, 3, 4, 4])) = [3, 3, 2, 2, 2] ∧
    (List.range 5).map (code_lengths secondTie (count_freq [0, 1, 2, 3, 4, 4])) = [2, 2, 3, 3, 2] :=
  tie_scenario

/-- C18 as amended.  `Cmp a b` holds exactly when `b` has the lower frequency, or the same
frequency and the lower rank (the symbol of a leaf, 256 for an internal node); it never holds
in both directions; two nodes are ordered one way unless they have the same frequency and the
same symbol field, so leaves of different symbols and a leaf and an internal node are ordered,
while two internal nodes of the same frequency are not.  For a frequency table for which
exactly one node qualifies at every `top()` of the construction, the tree and the length
table are the same for every tie-breaking of the queue. -/
theorem tie_break_determined_when_unique (tie : List Node → Nat) (freq : Nat → Nat)
    (h : build_unique freq = true) :
    (∀ a b : Node, Cmp a b = true ↔
      b.freq < a.freq ∨ (a.freq = b.freq ∧ b.rank < a.rank)) ∧
    (∀ a b : Node, Cmp a b = true → Cmp b a = false) ∧
    (∀ a b : Node, -1 ≤ a.sym → a.sym < 256 → -1 ≤ b.sym → b.sym < 256 →
      (a.freq ≠ b.freq ∨ a.sym ≠ b.sym) → (Cmp a b = true ∨ Cmp b a = true)) ∧
    (∀ a b : Node, a.sym < 0 → b.sym < 0 → a.freq = b.freq →
      Cmp a b = false ∧ Cmp b a = false) ∧
    build_tree tie freq = build_tree firstTie freq ∧
    code_lengths tie freq = code_lengths firstTie freq :=
  ⟨cmp_iff, cmp_asymm, cmp_total, cmp_internal_unordered, build_tree_unique tie freq h,
    code_lengths_unique tie freq h⟩

/-- A frequency table and a tie-breaking to which the amended C18 applies. -/
theorem tie_break_determined_when_unique_witness :
    build_unique (count_freq [0x41, 0x41, 0x41, 0x42]) = true ∧
    ((∀ a b : Node, Cmp a b = true ↔
      b.freq < a.freq ∨ (a.freq = b.freq ∧ b.rank < a.rank)) ∧
    (∀ a b : Node, Cmp a b = true → Cmp b a = false) ∧
    (∀ a b : Node, -1 ≤ a.sym → a.sym < 256 → -1 ≤ b.sym → b.sym < 256 →
      (a.freq ≠ b.freq ∨ a.sym ≠ b.sym) → (Cmp a b = true ∨ Cmp b a = true)) ∧
    (∀ a b : Node, a.sym < 0 → b.sym < 0 → a.freq = b.freq →
      Cmp a b = false ∧ Cmp b a = false) ∧
    build_tree secondTie (count_freq [0x41, 0x41, 0x41, 0x42]) =
      build_tree firstTie (count_freq [0x41, 0x41, 0x41, 0x42]) ∧
    code_lengths secondTie (count_freq [0x41, 0x41, 0x41, 0x42]) =
      code_lengths firstTie (count_freq [0x41, 0x41, 0x41, 0x42])) :=
  ⟨by decide!, tie_break_determined_when_unique secondTie _ (by decide!)⟩

/-- C19 (determinism under concurrency).  The threads of `encode_chunks_parallel` are run as
interleaved steps (`pool_step`) in an arbitrary order `sched`.  For every input, table, chunk
size and worker count: when the call has returned, `out` holds for every job the encoding of
that job's chunk, which is the vector `encode_chunks_parallel` of the embedding, and some
order of steps makes the call return.  For every worker count and order of steps of the call
inside `compress_file` after which it has returned, the container stitched from `out` is the
container `compress_file` writes for any other worker count. -/
theorem concurrent_encoding_deterministic (tie : List Node → Nat) (hw hw2 : Nat)
    (data : List Nat) (table : Nat → Codeword) (chunk_size : Nat) (threads : Int)
    (sched sched2 : List Nat)
    (hdone : pool_done (pool_run data table sched (pool_init data chunk_size threads)) = true)
    (hdone2 : pool_done (pool_run data (code_table tie data) sched2
      (pool_init data (1 <<< 20) (max 1 (hw : Int)))) = true) :
    (pool_run data table sched (pool_init data chunk_size threads)).out =
      (prepare_jobs data chunk_size).map (run_job data table) ∧
    (pool_run data table sched (pool_init data chunk_size threads)).out =
      encode_chunks_parallel data table chunk_size threads ∧
    (∃ s, pool_done (pool_run data table s (pool_init data chunk_size threads)) = true) ∧
    compress_stitched tie data (pool_run data (code_table tie data) sched2
      (pool_init data (1 <<< 20) (max 1 (hw : Int)))).out = compress_file tie hw2 data ∧
    compress_file tie hw data = compress_file tie hw2 data := by
  have h := pool_schedule_independent data table chunk_size threads
  refine ⟨?_, h.1 sched hdone, h.2, compress_file_any_run tie hw hw2 data sched2 hdone2, rfl⟩
  rw [h.1 sched hdone, encode_chunks_parallel_jobs]

/-- Two runs of the pool to which C19 applies: four bytes in chunks of two with two workers,
and the call inside `compress_file` with two workers. -/
theorem concurrent_encoding_deterministic_witness :
    pool_done (pool_run [0x41, 0x41, 0x41, 0x42] (fun _ => ⟨0, 1⟩) [0, 1, 1, 0, 2, 0, 1]
      (pool_init [0x41, 0x41, 0x41, 0x42] 2 2)) = true ∧
    pool_done (pool_run [0x41, 0x41, 0x41, 0x42] (code_table firstTie [0x41, 0x41, 0x41, 0x42])
      [1, 1, 2, 0, 1] (pool_init [0x41, 0x41, 0x41, 0x42] (1 <<< 20) (max 1 ((2 : Nat) : Int))))
      = true ∧
    ((pool_run [0x41, 0x41, 0x41, 0x42] (fun _ => ⟨0, 1⟩) [0, 1, 1, 0, 2, 0, 1]
        (pool_init [0x41, 0x41, 0x41, 0x42] 2 2)).out =
      (prepare_jobs [0x41, 0x41, 0x41, 0x42] 2).map
        (run_job [0x41, 0x41, 0x41, 0x42] (fun _ => ⟨0, 1⟩)) ∧
    (pool_run [0x41, 0x41, 0x41, 0x42] (fun _ => ⟨0, 1⟩) [0, 1, 1, 0, 2, 0, 1]
        (pool_init [0x41, 0x41, 0x41, 0x42] 2 2)).out =
      encode_chunks_parallel [0x41, 0x41, 0x41, 0x42] (fun _ => ⟨0, 1⟩) 2 2 ∧
    (∃ s, pool_done (pool_run [0x41, 0x41, 0x41, 0x42] (fun _ => ⟨0, 1⟩) s
      (pool_init [0x41, 0x41, 0x41, 0x42] 2 2)) = true) ∧
    compress_stitched firstTie [0x41, 0x41, 0x41, 0x42]
      (pool_run [0x41, 0x41, 0x41, 0x42] (code_table firstTie [0x41, 0x41, 0x41, 0x42])
        [1, 1, 2, 0, 1]
        (pool_init [0x41, 0x41, 0x41, 0x42] (1 <<< 20) (max 1 ((2 : Nat) : Int)))).out =
      compress_file firstTie 7 [0x41, 0x41, 0x41, 0x42] ∧
    compress_file firstTie 2 [0x41, 0x41, 0x41, 0x42] =
      compress_file firstTie 7 [0x41, 0x41, 0x41, 0x42]) :=
  ⟨pool_scenario.1, pool_scenario.2,
    concurrent_encoding_deterministic firstTie 2 7 [0x41, 0x41, 0x41, 0x42] (fun _ => ⟨0, 1⟩) 2 2
      [0, 1, 1, 0, 2, 0, 1] [1, 1, 2, 0, 1] pool_scenario.1 pool_scenario.2⟩

/-- C20 (truncated payload), evaluated at an input the code mishandles.  The container of
`deep_input` has at least 278 bytes.  With its last byte removed, the first byte that
`decompress_file` writes is 33, for every tie-breaking of the queue and every worker count,
while `deep_input` starts with 0: what was written is not an initial part of the input. -/
theorem truncated_deep_payload_output (tie : List Node → Nat) (hw : Nat) :
    278 ≤ (compress_file tie hw deep_input).2.length ∧
    (decompress_file ((compress_file tie hw deep_input).2.take
      ((compress_file tie hw deep_input).2.length - 1))).2.head? = some 33 ∧
    deep_input.head? = some 0 ∧
    ¬ (decompress_file ((compress_file tie hw deep_input).2.take
      ((compress_file tie hw deep_input).2.length - 1))).2 <+: deep_input := by
  obtain ⟨tl, htl⟩ := deep_input_head
  have hlen := deep_container_length tie hw
  have hhead := deep_truncated_head tie hw ((compress_file tie hw deep_input).2.length - 274)
    (by omega)
  rw [show 273 + ((compress_file tie hw deep_input).2.length - 274) =
    (compress_file tie hw deep_input).2.length - 1 by omega] at hhead
  refine ⟨hlen, hhead, by rw [htl]; rfl, ?_⟩
  generalize (decompress_file ((compress_file tie hw deep_input).2.take
      ((compress_file tie hw deep_input).2.length - 1))).2 = out at hhead
  intro hp
  rw [htl] at hp
  cases out with
  | nil => cases hhead
  | cons y ys =>
    have hy : y = 33 := Option.some.inj hhead
    have h0 : y = 0 := (List.cons_prefix_cons.mp hp).1
    omega

/-- C21 (decoder termination).  For every file, length table, `orig_size` and reader state:
the root of the decode trie carries no symbol, so a walk of `descend` from it that ends at a
symbol has consumed at least one bit; the decode loop writes at most one byte for every bit the
reader can still deliver; once `orig_size` exceeds that number of bits the loop makes the
same passes for every `orig_size` and ends with a non-zero status; and `decompress_file`
writes at most 8 bytes for every byte of the file behind its 273-byte header. -/
theorem decoder_terminates (file : List Nat) (lens : Nat → Nat) (n m : Nat) (br : BitReader)
    (crc : Nat) (out : List Nat) :
    (build_decode_tree lens).sym = -1 ∧
    (∀ sym br2, descend (build_decode_tree lens) br = .ok (sym, br2) →
      br2.avail + 1 ≤ br.avail) ∧
    (decode_loop (build_decode_tree lens) n br crc out).2.2.length ≤ out.length + br.avail ∧
    (br.avail < n → br.avail < m →
      decode_loop (build_decode_tree lens) n br crc out =
        decode_loop (build_decode_tree lens) m br crc out ∧
      (decode_loop (build_decode_tree lens) n br crc out).1 ≠ 0) ∧
    (decompress_file file).2.length ≤ 8 * (file.length - 273) := by
  have hs : (build_decode_tree lens).sym < 0 := by
    rw [build_decode_tree_root]; decide
  exact ⟨build_decode_tree_root lens,
    fun sym br2 h => (descend_avail _ br sym br2 h).2 hs,
    decode_loop_length _ hs n br crc out,
    fun hn hm => decode_loop_bounded _ hs n m br crc out hn hm,
    decompress_output_length file⟩

/-- C22 (idempotent flush), evaluated at an input the code mishandles.  After the bits
`1, 0, 1` and one `flush` a fresh `MemBitWriter` holds the byte `0xA0` with
`last_valid_bits = 3`, and `replay_into` emits `1, 0, 1`.  A second `flush` keeps the byte but
sets `last_valid_bits` to 8, and `replay_into` then emits `1, 0, 1, 0, 0, 0, 0, 0`. -/
theorem second_flush_changes_last_valid_bits :
    (MemBitWriter.init.write_list [1, 0, 1]).flush.bytes = [0xA0] ∧
    (MemBitWriter.init.write_list [1, 0, 1]).flush.last_valid_bits = 3 ∧
    (MemBitWriter.init.write_list [1, 0, 1]).flush.flush.bytes = [0xA0] ∧
    (MemBitWriter.init.write_list [1, 0, 1]).flush.flush.last_valid_bits = 8 ∧
    (MemBitWriter.init.write_list [1, 0, 1]).flush.replay_into
      (fun (l : List Nat) b => l ++ [b]) [] = [1, 0, 1] ∧
    (MemBitWriter.init.write_list [1, 0, 1]).flush.flush.replay_into
      (fun (l : List Nat) b => l ++ [b]) [] = [1, 0, 1, 0, 0, 0, 0, 0] :=
  flush_twice_scenario

end Huff
